import Mathlib

/-!
# Verification of the OpenRay proxy-harvester core

Shallow embedding, in Lean 4, of the parts of the OpenRay repository
(`src/src/*.py`) that the frozen claims C1-C10 are about, together with
theorems settling each claim.

Conventions used throughout:
* Python byte strings are modelled as `List Nat` (each element intended `< 256`).
* Python `str` is modelled as Lean `String` / `List Char`.  Python's
  `str` can hold lone surrogates which Lean's `String` cannot; no claim
  depends on such values.
* Functions whose Python originals swallow exceptions (`try/except:
  return None`) are modelled as `Option`-returning functions.
* Exceptions that escape a Python function are modelled with `Except`.
* Network and clock effects are modelled as explicit oracle parameters
  (pure functions passed in), matching the coordinator's read-only use
  of them.
-/

namespace OpenRay

set_option maxRecDepth 4000

/-! ## Small Python string helpers -/

/-- Python whitespace test for `str.split()` / `str.strip()` on the ASCII
range (`' '`, `\t`, `\n`, `\r`, `\x0b`, `\x0c`).  Non-ASCII Unicode
whitespace is not modelled; no claim exercises it. -/
def pyIsSpace (c : Char) : Bool :=
  c = ' ' || c = '\t' || c = '\n' || c = '\r' || c = Char.ofNat 11 || c = Char.ofNat 12

/-- Python `str.strip()` (whitespace at both ends). -/
def pyStrip (s : String) : String :=
  ⟨(s.toList.dropWhile pyIsSpace).reverse.dropWhile pyIsSpace |>.reverse⟩

/-- `needle`-at-front test on char lists. -/
def startsWithChars : List Char → List Char → Bool
  | [], _ => true
  | _ :: _, [] => false
  | n :: ns, c :: cs => n = c && startsWithChars ns cs

/-- Python `s.split(sep, 1)` restricted to the first component and the rest:
returns `none` when `sep` does not occur (so that `[1]` raises in Python). -/
def splitOnce (sep : List Char) : List Char → Option (List Char × List Char)
  | [] => none
  | c :: cs =>
    if startsWithChars sep (c :: cs) then
      some ([], (c :: cs).drop sep.length)
    else
      match splitOnce sep cs with
      | some (l, r) => some (c :: l, r)
      | none => none

/-- `uri.split('://', 1)[0]`: the scheme part; Python returns the whole
string when the separator is absent. -/
def schemeRaw (uri : String) : String :=
  match splitOnce "://".toList uri.toList with
  | some (l, _) => ⟨l⟩
  | none => uri

/-- `uri.split('://', 1)[0].lower()` as computed by `extract_port`,
`extract_host` and `_set_remark` in `src/src/parsing.py`. -/
def schemeOf (uri : String) : String := ⟨(schemeRaw uri).toList.map Char.toLower⟩

/-- `uri.split('://', 1)[1]`; `none` models the `IndexError` path (caught
by the enclosing `try`) when the URI has no `://`. -/
def payloadOf (uri : String) : Option String :=
  (splitOnce "://".toList uri.toList).map fun p => ⟨p.2⟩

/-- `s.split(sep, 1)[0]` (Python never raises for index 0). -/
def splitFirst (sep : String) (s : String) : String :=
  match splitOnce sep.toList s.toList with
  | some (l, _) => ⟨l⟩
  | none => s

/-- Association-list lookup modelling `dict.get`. -/
def alookup {κ α : Type} [DecidableEq κ] : List (κ × α) → κ → Option α
  | [], _ => none
  | (k, v) :: rest, key => if k = key then some v else alookup rest key

/-- Association-list store modelling `dict[key] = value` (replaces in
place, appends when absent — Python dict insertion-order semantics). -/
def astore {κ α : Type} [DecidableEq κ] : List (κ × α) → κ → α → List (κ × α)
  | [], key, v => [(key, v)]
  | (k, w) :: rest, key, v =>
    if k = key then (k, v) :: rest else (k, w) :: astore rest key v

/-! ## Bytes and hex (`src/src/io_ops.py`, `hash_to_bytes` / `bytes_to_hash`)

Python `bytes` values are `List Nat` with elements `< 256`. -/

/-- Value of a hex digit, else `none`. -/
def hexDigitVal? (c : Char) : Option Nat :=
  if '0' ≤ c ∧ c ≤ '9' then some (c.toNat - '0'.toNat)
  else if 'a' ≤ c ∧ c ≤ 'f' then some (c.toNat - 'a'.toNat + 10)
  else if 'A' ≤ c ∧ c ≤ 'F' then some (c.toNat - 'A'.toNat + 10)
  else none

/-- Lowercase hex digit for `n < 16` (as produced by `bytes.hex()`). -/
def hexCharOfNat (n : Nat) : Char :=
  if n < 10 then Char.ofNat ('0'.toNat + n) else Char.ofNat ('a'.toNat + n - 10)

/-- `bytes.hex()`: two lowercase hex digits per byte. -/
def bytesToHex (bs : List Nat) : String :=
  ⟨bs.flatMap fun b => [hexCharOfNat (b / 16 % 16), hexCharOfNat (b % 16)]⟩

/-- Hex-digit pairs to bytes; `none` on an odd count or a bad digit
(`ValueError` in Python). -/
def hexPairsToBytes? : List Char → Option (List Nat)
  | [] => some []
  | [_] => none
  | a :: b :: rest =>
    match hexDigitVal? a, hexDigitVal? b, hexPairsToBytes? rest with
    | some x, some y, some bs => some ((x * 16 + y) :: bs)
    | _, _, _ => none

/-- `bytes.fromhex(s)` (`hash_to_bytes`): skips ASCII spaces, then decodes
hex pairs; `none` models the raised `ValueError`. -/
def hashToBytes? (s : String) : Option (List Nat) :=
  hexPairsToBytes? (s.toList.filter (· ≠ ' '))

/-- Big-endian 8-byte encoding of `n` (the `>Q` of `struct.pack`; the
Python call would raise for `n ≥ 2^64`, which the coordinator's
`int(time.time())` never reaches). -/
def natToBE8 (n : Nat) : List Nat :=
  [n / 2 ^ 56 % 256, n / 2 ^ 48 % 256, n / 2 ^ 40 % 256, n / 2 ^ 32 % 256,
   n / 2 ^ 24 % 256, n / 2 ^ 16 % 256, n / 2 ^ 8 % 256, n % 256]

/-- Big-endian bytes to `Nat` (the `>Q` of `struct.unpack`). -/
def beToNat (bs : List Nat) : Nat := bs.foldl (fun a b => a * 256 + b) 0

/-- The `20s` of `struct.pack`: truncate to 20 bytes, pad with zero bytes. -/
def pad20 (bs : List Nat) : List Nat :=
  bs.take 20 ++ List.replicate (20 - bs.length) 0

/-- One `struct.pack('>Q20s', timestamp, digest)` record. -/
def pack28 (ts : Nat) (digest : List Nat) : List Nat :=
  natToBE8 ts ++ pad20 digest

/-- Structural worker for `parse28`; `fuel ≥ bs.length` suffices because
every step consumes 28 bytes. -/
def parse28Go : Nat → List Nat → List (Nat × List Nat)
  | 0, _ => []
  | fuel + 1, bs =>
    if 28 ≤ bs.length then
      (beToNat (bs.take 8), (bs.drop 8).take 20) :: parse28Go fuel (bs.drop 28)
    else []

/-- Reading a binary ledger file 28 bytes at a time
(`load_tested_hashes_optimized`): a trailing chunk shorter than 28 bytes
is skipped. -/
def parse28 (bs : List Nat) : List (Nat × List Nat) := parse28Go bs.length bs

/-! ## UTF-8 (`str.encode('utf-8')` / `bytes.decode('utf-8', errors='ignore')`)

Lean `Char` holds exactly the Unicode scalar values, so `utf8EncodeChar`
below is total; Python lone surrogates are not representable and no claim
uses them. -/

/-- UTF-8 bytes of one scalar value. -/
def utf8EncodeChar (c : Char) : List Nat :=
  let n := c.toNat
  if n < 0x80 then [n]
  else if n < 0x800 then [0xC0 + n / 64, 0x80 + n % 64]
  else if n < 0x10000 then [0xE0 + n / 4096, 0x80 + n / 64 % 64, 0x80 + n % 64]
  else [0xF0 + n / 262144, 0x80 + n / 4096 % 64, 0x80 + n / 64 % 64, 0x80 + n % 64]

/-- `s.encode('utf-8')`. -/
def utf8Encode (s : String) : List Nat := s.toList.flatMap utf8EncodeChar

/-- Is `b` a UTF-8 continuation byte? -/
def isCont (b : Nat) : Bool := 0x80 ≤ b && b < 0xC0

/-- Structural worker for `utf8DecodeIgnore`; one fuel unit per record,
so `fuel ≥ bs.length` always suffices. -/
def utf8DecodeGo : Nat → List Nat → List Char
  | 0, _ => []
  | _ + 1, [] => []
  | fuel + 1, b0 :: rest =>
    if b0 < 0x80 then Char.ofNat b0 :: utf8DecodeGo fuel rest
    else if 0xC2 ≤ b0 ∧ b0 < 0xE0 then
      match rest with
      | b1 :: rest1 =>
        if isCont b1 then
          Char.ofNat ((b0 - 0xC0) * 64 + (b1 - 0x80)) :: utf8DecodeGo fuel rest1
        else utf8DecodeGo fuel rest
      | [] => []
    else if 0xE0 ≤ b0 ∧ b0 < 0xF0 then
      match rest with
      | b1 :: b2 :: rest2 =>
        if isCont b1 ∧ isCont b2 then
          let n := (b0 - 0xE0) * 4096 + (b1 - 0x80) * 64 + (b2 - 0x80)
          if 0x800 ≤ n ∧ ¬(0xD800 ≤ n ∧ n < 0xE000) then
            Char.ofNat n :: utf8DecodeGo fuel rest2
          else utf8DecodeGo fuel rest2
        else utf8DecodeGo fuel rest
      | _ => []
    else if 0xF0 ≤ b0 ∧ b0 < 0xF5 then
      match rest with
      | b1 :: b2 :: b3 :: rest3 =>
        if isCont b1 ∧ isCont b2 ∧ isCont b3 then
          let n := (b0 - 0xF0) * 262144 + (b1 - 0x80) * 4096 +
            (b2 - 0x80) * 64 + (b3 - 0x80)
          if 0x10000 ≤ n ∧ n < 0x110000 then
            Char.ofNat n :: utf8DecodeGo fuel rest3
          else utf8DecodeGo fuel rest3
        else utf8DecodeGo fuel rest
      | _ => []
    else utf8DecodeGo fuel rest

/-- `bytes.decode('utf-8', errors='ignore')` on a byte list: well-formed
sequences decode to their scalar values, malformed bytes are skipped.
Overlong encodings, surrogates and values above `0x10FFFF` are rejected
(skipped) as CPython does. -/
def utf8DecodeIgnore (bs : List Nat) : List Char := utf8DecodeGo bs.length bs

/-- `bytes.decode('utf-8', errors='ignore')` producing a `String`. -/
def utf8DecodeIgnoreStr (bs : List Nat) : String := ⟨utf8DecodeIgnore bs⟩

/-! ## Base64 (`base64.b64encode` and `safe_b64decode_to_bytes` of
`src/src/common.py`) -/

/-- Character of the standard base64 alphabet for `n < 64`. -/
def b64CharOfNat (n : Nat) : Char :=
  if n < 26 then Char.ofNat ('A'.toNat + n)
  else if n < 52 then Char.ofNat ('a'.toNat + n - 26)
  else if n < 62 then Char.ofNat ('0'.toNat + n - 52)
  else if n = 62 then '+' else '/'

/-- Value of a standard-alphabet base64 character, else `none`. -/
def b64CharVal? (c : Char) : Option Nat :=
  if 'A' ≤ c ∧ c ≤ 'Z' then some (c.toNat - 'A'.toNat)
  else if 'a' ≤ c ∧ c ≤ 'z' then some (c.toNat - 'a'.toNat + 26)
  else if '0' ≤ c ∧ c ≤ '9' then some (c.toNat - '0'.toNat + 52)
  else if c = '+' then some 62
  else if c = '/' then some 63
  else none

/-- `base64.b64encode` over byte lists (standard alphabet, `=`-padded). -/
def b64encode : List Nat → List Char
  | [] => []
  | [a] => [b64CharOfNat (a / 4), b64CharOfNat (a % 4 * 16), '=', '=']
  | [a, b] =>
    [b64CharOfNat (a / 4), b64CharOfNat (a % 4 * 16 + b / 16),
     b64CharOfNat (b % 16 * 4), '=']
  | a :: b :: c :: rest =>
    b64CharOfNat (a / 4) :: b64CharOfNat (a % 4 * 16 + b / 16) ::
      b64CharOfNat (b % 16 * 4 + c / 64) :: b64CharOfNat (c % 64) :: b64encode rest

/-- `base64.b64encode(..).decode('ascii')`. -/
def b64encodeStr (bs : List Nat) : String := ⟨b64encode bs⟩

/-- `binascii.a2b_base64` in legacy (non-strict) mode, as CPython's
character-by-character state machine: `quadPos` counts the data
characters of the current quad and `leftchar` their leftover bits; a `=`
is counted (`pads`) only at `quadPos ≥ 2` and ends decoding successfully
once it completes the quad (`quadPos + pads ≥ 4`, later characters
discarded); any other `=` — stray padding not completing its quad — is
skipped, as is every non-alphabet character, and a data character resets
`pads`; a leftover partial quad at the end of input is the `Incorrect
padding` (or lone-surplus-character) error. -/
def a2b64Go : List Char → Nat → Nat → Nat → Option (List Nat)
  | [], quadPos, _, _ => if quadPos = 0 then some [] else none
  | c :: rest, quadPos, leftchar, pads =>
    if c = '=' then
      if 2 ≤ quadPos ∧ 4 ≤ quadPos + (pads + 1) then some []
      else a2b64Go rest quadPos leftchar (if 2 ≤ quadPos then pads + 1 else pads)
    else
      match b64CharVal? c with
      | none => a2b64Go rest quadPos leftchar pads
      | some v =>
        if quadPos = 0 then a2b64Go rest 1 v 0
        else if quadPos = 1 then
          (a2b64Go rest 2 (v % 16) 0).map fun bs => (leftchar * 4 + v / 16) :: bs
        else if quadPos = 2 then
          (a2b64Go rest 3 (v % 4) 0).map fun bs => (leftchar * 16 + v / 4) :: bs
        else
          (a2b64Go rest 0 0 0).map fun bs => (leftchar * 64 + v) :: bs

/-- `binascii.a2b_base64(…, strict_mode=False)` (what
`base64.b64decode(…, validate=False)` calls). -/
def a2b64 (cs : List Char) : Option (List Nat) := a2b64Go cs 0 0 0

/-- The URL-safe-to-standard character mapping of
`safe_b64decode_to_bytes`. -/
def urlSafeMap (c : Char) : Char :=
  if c = '-' then '+' else if c = '_' then '/' else c

/-- `safe_b64decode_to_bytes` (`src/src/common.py` 33-47): `None` for the
empty string; otherwise strip whitespace (`''.join(s.split())`), map
URL-safe characters, pad to a multiple of four, and decode with
`base64.b64decode(…, validate=False)`, i.e. lenient `a2b64`. -/
def safeB64DecodeToBytes (s : String) : Option (List Nat) :=
  if s = "" then none
  else
    let compact := (s.toList.filter fun c => ¬pyIsSpace c).map urlSafeMap
    a2b64 (compact ++ List.replicate ((4 - compact.length % 4) % 4) '=')

/-- Python truthiness of `safe_b64decode_to_bytes`' result (`if b:` /
`if not b:` at the call sites): decode succeeded with nonempty bytes. -/
def b64Truthy (r : Option (List Nat)) : Bool :=
  match r with
  | some (_ :: _) => true
  | _ => false

/-- Structural decimal printer worker (`fuel` bounds the digit count;
`n < 10 ^ fuel` suffices). -/
def natDecimalGo : Nat → Nat → List Char
  | 0, _ => []
  | fuel + 1, n =>
    if n < 10 then [Char.ofNat ('0'.toNat + n)]
    else natDecimalGo fuel (n / 10) ++ [Char.ofNat ('0'.toNat + n % 10)]

/-- Standard decimal text of a natural number (no sign, no leading
zeros), byte-for-byte what Python's `str`/`repr` prints. -/
def natDecimal (n : Nat) : List Char := natDecimalGo (n + 1) n

/-- Python integer `repr`: minus sign for negatives, decimal digits. -/
def intDecimal (i : Int) : List Char :=
  if i < 0 then '-' :: natDecimal i.natAbs else natDecimal i.toNat

/-! ## JSON (`json.loads` / `json.dumps(…, separators=(',', ':'),
ensure_ascii=False)`)

The JSON values the vmess code paths manipulate.  Numbers are modelled as
integers only: a payload using fractions or exponents is treated as
unparseable (none of the claims' inputs carry such values).  Lone
surrogates (which CPython can produce from `\uXXXX`) are not
representable in Lean strings and are rejected.  Mutual hand-rolled list
types keep every function structurally recursive, hence computable by the
kernel. -/

mutual

inductive Json where
  | null : Json
  | bool : Bool → Json
  | num : Int → Json
  | str : String → Json
  | arr : JsonList → Json
  | obj : JsonKVs → Json

inductive JsonList where
  | nil : JsonList
  | cons : Json → JsonList → JsonList

inductive JsonKVs where
  | nil : JsonKVs
  | cons : String → Json → JsonKVs → JsonKVs

end

/-- `dict.get(k)`: the value bound to `k` (duplicate keys cannot arise
from parsing, which collapses them). -/
def kvLookup : JsonKVs → String → Option Json
  | .nil, _ => none
  | .cons k v rest, key => if k = key then some v else kvLookup rest key

/-- `d[k] = v` on a Python dict: replace in place, append when absent. -/
def kvStore : JsonKVs → String → Json → JsonKVs
  | .nil, key, v => .cons key v .nil
  | .cons k w rest, key, v =>
    if k = key then .cons k v rest else .cons k w (kvStore rest key v)

/-- Python truthiness of a JSON value (`or`, `if` on decoded values). -/
def jsonTruthy : Json → Bool
  | .null => false
  | .bool b => b
  | .num n => n ≠ 0
  | .str s => s ≠ ""
  | .arr .nil => false
  | .arr _ => true
  | .obj .nil => false
  | .obj _ => true

/-- `a or b` on optional JSON values (`obj.get('x') or obj.get('y')`):
a missing key is `None` (falsy). -/
def pyOrJson (a b : Option Json) : Option Json :=
  match a with
  | some v => if jsonTruthy v then some v else b
  | none => b

/-- One character of a `json.dumps(…, ensure_ascii=False)` string body. -/
def jsonEscapeChar (c : Char) : List Char :=
  if c = '"' then ['\\', '"']
  else if c = '\\' then ['\\', '\\']
  else if c = '\n' then ['\\', 'n']
  else if c = '\t' then ['\\', 't']
  else if c = '\r' then ['\\', 'r']
  else if c.toNat = 8 then ['\\', 'b']
  else if c.toNat = 12 then ['\\', 'f']
  else if c.toNat < 0x20 then
    ['\\', 'u', '0', '0', hexCharOfNat (c.toNat / 16), hexCharOfNat (c.toNat % 16)]
  else [c]

/-- A `json.dumps` string literal. -/
def jsonQuote (s : String) : List Char :=
  '"' :: s.toList.flatMap jsonEscapeChar ++ ['"']

mutual

/-- `json.dumps(v, separators=(',', ':'), ensure_ascii=False)`. -/
def printJson : Json → List Char
  | .null => "null".toList
  | .bool true => "true".toList
  | .bool false => "false".toList
  | .num n => intDecimal n
  | .str s => jsonQuote s
  | .arr xs => '[' :: printJsonList xs ++ [']']
  | .obj kvs => Char.ofNat 0x7b :: printJsonKVs kvs ++ [Char.ofNat 0x7d]

def printJsonList : JsonList → List Char
  | .nil => []
  | .cons x .nil => printJson x
  | .cons x (.cons y rest) =>
    printJson x ++ ',' :: printJsonList (.cons y rest)

def printJsonKVs : JsonKVs → List Char
  | .nil => []
  | .cons k v .nil => jsonQuote k ++ ':' :: printJson v
  | .cons k v (.cons k2 v2 rest) =>
    jsonQuote k ++ ':' :: printJson v ++ ',' :: printJsonKVs (.cons k2 v2 rest)

end

/-- JSON insignificant whitespace (`json.loads` accepts exactly these). -/
def jsonWs (c : Char) : Bool := c = ' ' || c = '\t' || c = '\n' || c = '\r'

def jsonSkipWs (cs : List Char) : List Char := cs.dropWhile jsonWs

/-- String-body scanner (after the opening quote).  Consumes up to the
closing quote, decoding escapes; raw control characters are rejected
(`json.loads` is strict); `\uXXXX` in the surrogate range is rejected
(CPython would build a lone surrogate, unrepresentable here).  `fuel`
bounds produced characters; `fuel ≥ input length + 1` always suffices. -/
def parseStrBody : Nat → List Char → Option (List Char × List Char)
  | 0, _ => none
  | _ + 1, [] => none
  | fuel + 1, c :: cs =>
    if c = '"' then some ([], cs)
    else if c = '\\' then
      match cs with
      | 'u' :: h1 :: h2 :: h3 :: h4 :: cs4 =>
        match hexDigitVal? h1, hexDigitVal? h2, hexDigitVal? h3, hexDigitVal? h4 with
        | some x1, some x2, some x3, some x4 =>
          let n := ((x1 * 16 + x2) * 16 + x3) * 16 + x4
          if 0xD800 ≤ n ∧ n < 0xE000 then none
          else
            (parseStrBody fuel cs4).map fun (body, rest) => (Char.ofNat n :: body, rest)
        | _, _, _, _ => none
      | e :: cs1 =>
        let dec : Option Char :=
          if e = '"' then some '"'
          else if e = '\\' then some '\\'
          else if e = '/' then some '/'
          else if e = 'b' then some (Char.ofNat 8)
          else if e = 'f' then some (Char.ofNat 12)
          else if e = 'n' then some '\n'
          else if e = 'r' then some '\r'
          else if e = 't' then some '\t'
          else none
        match dec with
        | some d => (parseStrBody fuel cs1).map fun (body, rest) => (d :: body, rest)
        | none => none
      | [] => none
    else if c.toNat < 0x20 then none
    else (parseStrBody fuel cs).map fun (body, rest) => (c :: body, rest)

/-- JSON integer literal: optional `-`, digits, no leading zero (the
fraction/exponent forms of the grammar are outside this model). -/
def parseJsonNum (cs : List Char) : Option (Int × List Char) :=
  let (neg, cs1) :=
    match cs with
    | '-' :: rest => (true, rest)
    | _ => (false, cs)
  let digits := cs1.takeWhile Char.isDigit
  let rest := cs1.dropWhile Char.isDigit
  if digits = [] then none
  else if digits.length > 1 ∧ digits.headD '0' = '0' then none
  else
    let v : Nat := digits.foldl (fun a c => a * 10 + (c.toNat - '0'.toNat)) 0
    some (if neg then -(v : Int) else (v : Int), rest)

/-- Array-member loop (after `[` and a first-member guarantee): parse an
element with `pv`, then `,` continues or `]` closes.  `fuel` bounds the
member count. -/
def jsonArrLoop (pv : List Char → Option (Json × List Char)) :
    Nat → List Char → Option (JsonList × List Char)
  | 0, _ => none
  | fuel + 1, cs =>
    match pv cs with
    | none => none
    | some (v, cs1) =>
      match jsonSkipWs cs1 with
      | ',' :: cs2 =>
        match jsonArrLoop pv fuel cs2 with
        | some (tail, rest) => some (.cons v tail, rest)
        | none => none
      | ']' :: cs2 => some (.cons v .nil, cs2)
      | _ => none

/-- Object-member loop (after a `{` not followed by `}`): parse a string
key, `:`, a value, and fold members left to right into the accumulator
with `kvStore` — duplicate keys collapse to the last value at the first
key's position, as a Python dict does. -/
def jsonObjLoop (pv : List Char → Option (Json × List Char)) :
    Nat → List Char → JsonKVs → Option (JsonKVs × List Char)
  | 0, _, _ => none
  | fuel + 1, cs, acc =>
    match jsonSkipWs cs with
    | '"' :: cs1 =>
      match parseStrBody (cs1.length + 1) cs1 with
      | some (kChars, cs2) =>
        match jsonSkipWs cs2 with
        | ':' :: cs3 =>
          match pv cs3 with
          | some (v, cs4) =>
            match jsonSkipWs cs4 with
            | ',' :: cs5 => jsonObjLoop pv fuel cs5 (kvStore acc ⟨kChars⟩ v)
            | c :: cs5 =>
              if c = Char.ofNat 0x7d then some (kvStore acc ⟨kChars⟩ v, cs5)
              else none
            | [] => none
          | none => none
        | _ => none
      | none => none
    | _ => none

/-- One JSON value: leading whitespace, then a literal, number, string,
array or object.  `fuel` bounds nesting depth and member counts. -/
def jsonP : Nat → List Char → Option (Json × List Char)
  | 0, _ => none
  | fuel + 1, cs =>
    match jsonSkipWs cs with
    | [] => none
    | c :: rest =>
      if c = '"' then
        (parseStrBody (rest.length + 1) rest).map fun (body, r) => (.str ⟨body⟩, r)
      else if c = '[' then
        match jsonSkipWs rest with
        | ']' :: r2 => some (.arr .nil, r2)
        | _ => (jsonArrLoop (jsonP fuel) fuel rest).map fun (xs, r) => (.arr xs, r)
      else if c = Char.ofNat 0x7b then
        match jsonSkipWs rest with
        | r0 :: r2 =>
          if r0 = Char.ofNat 0x7d then some (.obj .nil, r2)
          else (jsonObjLoop (jsonP fuel) fuel rest .nil).map fun (kvs, r) => (.obj kvs, r)
        | [] => none
      else if startsWithChars "true".toList (c :: rest) then
        some (.bool true, rest.drop 3)
      else if startsWithChars "false".toList (c :: rest) then
        some (.bool false, rest.drop 4)
      else if startsWithChars "null".toList (c :: rest) then
        some (.null, rest.drop 3)
      else
        parseJsonNum (c :: rest) |>.map fun (n, r) => (.num n, r)

/-- `json.loads`: parse one value and require only whitespace after it. -/
def jsonLoads (s : String) : Option Json :=
  match jsonP (s.length + 1) s.toList with
  | some (v, rest) => if jsonSkipWs rest = [] then some v else none
  | none => none

/-! ## Percent-encoding (`urllib.parse.quote(…, safe='')` and `unquote`) -/

/-- A byte `quote` leaves unencoded: the *always-safe* set
`[A-Za-z0-9_.~-]` (with `safe=''` nothing else survives). -/
def isAlwaysSafeByte (b : Nat) : Bool :=
  (0x41 ≤ b && b ≤ 0x5A) || (0x61 ≤ b && b ≤ 0x7A) || (0x30 ≤ b && b ≤ 0x39) ||
    b = 0x5F || b = 0x2E || b = 0x7E || b = 0x2D

/-- Uppercase hex digit (as `quote` emits). -/
def hexUpperOfNat (n : Nat) : Char :=
  if n < 10 then Char.ofNat ('0'.toNat + n) else Char.ofNat ('A'.toNat + n - 10)

/-- `urllib.parse.quote(s, safe='')`: UTF-8 encode, keep always-safe
bytes, percent-encode everything else with uppercase hex. -/
def pctEncode (s : String) : List Char :=
  (utf8Encode s).flatMap fun b =>
    if isAlwaysSafeByte b then [Char.ofNat b]
    else ['%', hexUpperOfNat (b / 16 % 16), hexUpperOfNat (b % 16)]

/-- Maximal run of valid `%HH` triplets, as the byte list it denotes plus
the remaining characters. -/
def pctRun : Nat → List Char → List Nat × List Char
  | 0, cs => ([], cs)
  | fuel + 1, cs =>
    match cs with
    | '%' :: h1 :: h2 :: rest =>
      (match hexDigitVal? h1, hexDigitVal? h2 with
       | some x, some y =>
         let (bs, r) := pctRun fuel rest
         ((x * 16 + y) :: bs, r)
       | _, _ => ([], cs))
    | _ => ([], cs)

/-- `urllib.parse.unquote`: literal characters pass through, maximal
`%HH` runs are decoded as UTF-8 (CPython uses `errors='replace'`; this
model drops malformed bytes instead — the difference is invisible for
anything `quote` produced, and no claim distinguishes the two). -/
def unquoteGo : Nat → List Char → List Char
  | 0, _ => []
  | _ + 1, [] => []
  | fuel + 1, '%' :: rest =>
    (match pctRun (rest.length + 1) ('%' :: rest) with
     | ([], _) => '%' :: unquoteGo fuel rest
     | (b :: bs, r) => utf8DecodeIgnore (b :: bs) ++ unquoteGo fuel r)
  | fuel + 1, c :: rest => c :: unquoteGo fuel rest

def unquote (s : String) : String := ⟨unquoteGo s.length s.toList⟩

/-! ## `urllib.parse.urlsplit` (the pieces the port/remark code uses)

Only `.port`, `.query` and `.fragment` are consumed by the modelled
functions.  `urlsplit` raises `ValueError` for a netloc with unbalanced
IPv6 brackets, and its `.port` property raises for non-integer or
out-of-range ports; both are modelled explicitly because some callers
catch them and others let them abort the surrounding `try`. -/

def isSchemeChar (c : Char) : Bool :=
  c.isAlphanum || c = '+' || c = '-' || c = '.'

/-- Remove a leading `scheme:` when the prefix before the first `:` is a
valid scheme (nonempty, leading letter, scheme characters only). -/
def urlsplitDropScheme (cs : List Char) : List Char :=
  match splitOnce [':'] cs with
  | some (before, after) =>
    if before ≠ [] ∧ (before.headD ' ').isAlpha ∧ before.all isSchemeChar then
      after
    else cs
  | none => cs

/-- Split off the netloc after a leading `//`: up to the first `/`, `?`
or `#`. -/
def netlocSplit (cs : List Char) : List Char × List Char :=
  if startsWithChars "//".toList cs then
    let cs2 := cs.drop 2
    let nl := cs2.takeWhile fun c => c ≠ '/' ∧ c ≠ '?' ∧ c ≠ '#'
    (nl, cs2.drop nl.length)
  else ([], cs)

/-- `(netloc, query, fragment)` of `urlsplit(url)`; `none` models the
`ValueError` raised for unbalanced IPv6 brackets in the netloc. -/
def urlsplitParts (url : String) : Option (List Char × List Char × List Char) :=
  let rest0 := urlsplitDropScheme url.toList
  let (nl, rest1) := netlocSplit rest0
  if ('[' ∈ nl ∧ ']' ∉ nl) ∨ (']' ∈ nl ∧ '[' ∉ nl) then none
  else
    let (rest2, frag) :=
      match splitOnce ['#'] rest1 with
      | some (a, b) => (a, b)
      | none => (rest1, [])
    let query :=
      match splitOnce ['?'] rest2 with
      | some (_, b) => b
      | none => []
    some (nl, query, frag)

/-- The part of the netloc after the last `@` (`netloc.rpartition('@')`). -/
def afterLastAt (nl : List Char) : List Char :=
  (nl.reverse.takeWhile (· ≠ '@')).reverse

/-- The raw port text `_hostinfo` extracts: after `]:` for a bracketed
host, else after the first `:`. -/
def portStrOf (hostinfo : List Char) : List Char :=
  if '[' ∈ hostinfo then
    let bracketed :=
      match splitOnce ['['] hostinfo with
      | some (_, b) => b
      | none => []
    let afterBr :=
      match splitOnce [']'] bracketed with
      | some (_, b) => b
      | none => []
    match splitOnce [':'] afterBr with
    | some (_, b) => b
    | none => []
  else
    match splitOnce [':'] hostinfo with
    | some (_, b) => b
    | none => []

/-- `int(s, 10)` on the port text: optional surrounding whitespace and
sign, then digits (PEP-515 underscores are not modelled; they cannot
change the range conclusions below). `none` models `ValueError`. -/
def pyIntParse? (cs : List Char) : Option Int :=
  let core := (cs.dropWhile pyIsSpace).reverse.dropWhile pyIsSpace |>.reverse
  let (neg, ds) :=
    match core with
    | '-' :: rest => (true, rest)
    | '+' :: rest => (false, rest)
    | _ => (false, core)
  if ds = [] ∨ ¬ds.all Char.isDigit then none
  else
    let v : Nat := ds.foldl (fun a c => a * 10 + (c.toNat - '0'.toNat)) 0
    some (if neg then -(v : Int) else (v : Int))

/-- The `.port` property: `.error` models the `ValueError` it raises for
unparseable or out-of-range (`not 0 ≤ port ≤ 65535`) ports, and also a
raising `urlsplit` itself. -/
def urlsplitPort (url : String) : Except Unit (Option Nat) :=
  match urlsplitParts url with
  | none => .error ()
  | some (nl, _, _) =>
    let p := portStrOf (afterLastAt nl)
    if p = [] then .ok none
    else
      match pyIntParse? p with
      | none => .error ()
      | some v =>
        if 0 ≤ v ∧ v ≤ 65535 then .ok (some v.toNat) else .error ()

/-- `urllib.parse.parse_qs` restricted to one key's value list: chunks
split on `&`, pairs without `=` or with an empty value are dropped, `+`
becomes space and percent-escapes are decoded.  A missing key gives `[]`
(`dict.get` returning `None`; both are falsy). -/
def parseQsGet (query : List Char) (key : String) : List String :=
  (query.splitOn '&').filterMap fun chunk =>
    match splitOnce ['='] chunk with
    | some (n, v) =>
      if v = [] then none
      else if unquote ⟨n.map fun c => if c = '+' then ' ' else c⟩ = key then
        some (unquote ⟨v.map fun c => if c = '+' then ' ' else c⟩)
      else none
    | none => none

/-! ## The `HOSTPORT_REGEX` fallback
(`([A-Za-z0-9_.\-\[\]:]+):(\d{2,5})`, searched with backtracking) -/

def isHostportChar (c : Char) : Bool :=
  c.isAlphanum || c = '_' || c = '.' || c = '-' || c = '[' || c = ']' || c = ':'

/-- Try a match starting exactly here: greedy group 1 (longest first),
then `:`, then 2-5 digits (greedy).  Returns `(group1, group2)`. -/
def hpMatchAt (cs : List Char) : Option (List Char × List Char) :=
  let L := (cs.takeWhile isHostportChar).length
  let tryLen : Nat → Option (List Char × List Char) := fun len1 =>
    if cs.getD len1 ' ' = ':' then
      let run := (cs.drop (len1 + 1)).takeWhile Char.isDigit
      if 2 ≤ run.length then some (cs.take len1, run.take 5) else none
    else none
  ((List.range L).reverse.map (· + 1)).firstM tryLen

/-- `HOSTPORT_REGEX.search`: leftmost position with a match. -/
def hpSearch : Nat → List Char → Option (List Char × List Char)
  | 0, _ => none
  | _ + 1, [] => none
  | fuel + 1, c :: rest =>
    match hpMatchAt (c :: rest) with
    | some r => some r
    | none => hpSearch fuel rest

def hostportSearch (s : String) : Option (List Char × List Char) :=
  hpSearch s.length s.toList

/-! ## Per-scheme host/port extraction (`src/src/parsing.py`, 109-330) -/

/-- The `return n if 1 <= n <= 65535 else None` guard used by every
port parser. -/
def portInRange (n : Nat) : Option Nat :=
  if 1 ≤ n ∧ n ≤ 65535 then some n else none

/-- Decimal value of a digit run (`int` on a digit-only string). -/
def decDigitsVal (ds : List Char) : Nat :=
  ds.foldl (fun a c => a * 10 + (c.toNat - '0'.toNat)) 0

/-- `str.isdigit()` on the ASCII range (Python also accepts Unicode
digits; the extra inputs cannot widen any port range below because every
accepting path still range-checks). -/
def pyIsDigitStr (cs : List Char) : Bool := cs ≠ [] && cs.all Char.isDigit

/-- Shared vmess payload decode: base64 after `vmess://` must be truthy
(nonempty bytes), the UTF-8 text (or `'{}'` when the ignore-decode left
nothing) must parse as a JSON **object**; every caller treats all other
outcomes alike (`None` / fall-through). -/
def vmessObj? (uri : String) : Option JsonKVs :=
  match payloadOf uri with
  | none => none
  | some p =>
    match safeB64DecodeToBytes p with
    | some (b :: bs) =>
      let t := utf8DecodeIgnoreStr (b :: bs)
      match jsonLoads (if t = "" then "\x7b\x7d" else t) with
      | some (.obj o) => some o
      | _ => none
    | _ => none

/-- `host_from_vmess` (`parsing.py` 109-122): `add`/`address`/`host` via
the truthy `or` chain; must be a nonempty string.  `_idna` is modelled as
the identity — its `try/except` returns the input unchanged on any
encoding failure, and no claim depends on the encoded form. -/
def hostFromVmess (uri : String) : Option String :=
  match vmessObj? uri with
  | none => none
  | some o =>
    match pyOrJson (kvLookup o "add")
        (pyOrJson (kvLookup o "address") (kvLookup o "host")) with
    | some (.str h) => if h ≠ "" then some (pyStrip h) else none
    | _ => none

/-- `port_from_vmess` (`parsing.py` 219-234).  A JSON `true` passes
Python's `isinstance(port, int)` (bool is an int subclass) and
`1 <= True <= 65535`, flowing onward as the integer 1. -/
def portFromVmess (uri : String) : Option Nat :=
  match vmessObj? uri with
  | none => none
  | some o =>
    match pyOrJson (kvLookup o "port") (kvLookup o "portNumber") with
    | some (.str s) =>
      if pyIsDigitStr s.toList then portInRange (decDigitsVal s.toList) else none
    | some (.num n) => if 1 ≤ n ∧ n ≤ 65535 then some n.toNat else none
    | some (.bool b) => if b then some 1 else none
    | _ => none

/-- The `if ':' in right:` tail of `port_from_ss` (lines 265-269). -/
def ssColonPort (right : List Char) : Option Nat :=
  match splitOnce [':'] right with
  | some (_, portStr) =>
    if portStr = [] then none
    else
      let first :=
        match splitOnce [':'] portStr with
        | some (a, _) => a
        | none => portStr
      if pyIsDigitStr first then portInRange (decDigitsVal first) else none
  | none => none

/-- The decoded-text branch of `port_from_ss` (lines 250-269): strip
credentials after the last `@`, drop a plugin suffix after `?`, handle a
bracketed IPv6 host, else take the part after the first `:`. -/
def portFromSSText (text : List Char) : Option Nat :=
  let right0 := if '@' ∈ text then (text.reverse.takeWhile (· ≠ '@')).reverse else text
  let right :=
    match splitOnce ['?'] right0 with
    | some (a, _) => a
    | none => right0
  match right with
  | '[' :: tail =>
    match splitOnce [']'] ('[' :: tail) with
    | some (_, after) =>
      match after with
      | ':' :: rest =>
        let first :=
          match splitOnce [':'] rest with
          | some (a, _) => a
          | none => rest
        if pyIsDigitStr first then portInRange (decDigitsVal first) else none
      | _ => none
    | none => ssColonPort ('[' :: tail)
  | _ => ssColonPort right

/-- `port_from_ss` (`parsing.py` 237-272).  When the main payload is not
truthy base64, `urlsplit(uri).port` is consulted: a `ValueError` there is
swallowed by the function's own `try` (returning `None`), a `0` port is
falsy and skipped, and whatever remains is the 1..65535 range `urlsplit`
itself enforces. -/
def portFromSS (uri : String) : Option Nat :=
  match payloadOf uri with
  | none => none
  | some payload =>
    let mainPart := splitFirst "?" (splitFirst "#" payload)
    match safeB64DecodeToBytes mainPart with
    | some (b :: bs) =>
      let text := utf8DecodeIgnoreStr (b :: bs)
      if text = "" then none else portFromSSText text.toList
    | _ =>
      match urlsplitPort uri with
      | .error _ => none
      | .ok (some n) => if n ≠ 0 then some n else none
      | .ok none => none

/-- `port_from_ssr` (`parsing.py` 275-289): second `:`-field of the
decoded payload's first `/`-segment. -/
def portFromSSR (uri : String) : Option Nat :=
  match payloadOf uri with
  | none => none
  | some p =>
    match safeB64DecodeToBytes p with
    | some (b :: bs) =>
      let text := utf8DecodeIgnoreStr (b :: bs)
      let first := splitFirst "/" text
      match first.toList.splitOn ':' with
      | _ :: second :: _ =>
        if pyIsDigitStr second then portInRange (decDigitsVal second) else none
      | _ => none
    | _ => none

/-- The query-and-regex tail of `port_from_generic`. -/
def portFromGenericQs (uri : String) (query : List Char) : Option Nat :=
  let sv :=
    let a := parseQsGet query "server"
    if a ≠ [] then a else parseQsGet query "sv"
  let serverRet : Option (Option Nat) :=
    match sv with
    | [] => none
    | v :: _ =>
      match hostportSearch v with
      | none => none
      | some (_, g2) =>
        if pyIsDigitStr g2 then some (portInRange (decDigitsVal g2)) else none
  match serverRet with
  | some r => r
  | none =>
    match hostportSearch uri with
    | some (_, g2) =>
      if pyIsDigitStr g2 then portInRange (decDigitsVal g2) else none
    | none => none

/-- `port_from_generic` (`parsing.py` 292-319).  The inner `try` around
`p.port` turns an out-of-range `ValueError` into a fall-through; a falsy
(absent or zero) port also falls through, first to `server=`/`sv=` query
values and then to a `HOSTPORT_REGEX` scan of the whole URI.  A regex hit
with digits *returns* (possibly `None` after the range check) without
trying later fallbacks. -/
def portFromGeneric (uri : String) : Option Nat :=
  match urlsplitParts uri with
  | none => none
  | some (_, query, _) =>
    match urlsplitPort uri with
    | .ok (some n) =>
      if n ≠ 0 then some n
      else portFromGenericQs uri query
    | _ => portFromGenericQs uri query


/-- `extract_port` (`parsing.py` 322-330): dispatch on the lowercased
scheme. -/
def extractPort (uri : String) : Option Nat :=
  if schemeOf uri = "vmess" then portFromVmess uri
  else if schemeOf uri = "ss" then portFromSS uri
  else if schemeOf uri = "ssr" then portFromSSR uri
  else portFromGeneric uri

/-! ## Remarks (`_set_remark` and `_extract_our_cc_and_num_from_uri`,
`src/src/parsing.py` 342-401, and `src/src/geo.py`) -/

/-- `_set_remark` (`parsing.py` 342-366).  For vmess: decode the payload,
set the `ps` field of the JSON object and re-encode; any failure
(undecodable base64, empty bytes, unparseable text, non-object JSON)
returns the URI unchanged.  For every other scheme: replace the URL
fragment with the percent-encoded remark. -/
def setRemark (uri : String) (remark : String) : String :=
  if schemeOf uri = "vmess" then
    match vmessObj? uri with
    | some o =>
      "vmess://" ++
        b64encodeStr (utf8Encode ⟨printJson (.obj (kvStore o "ps" (.str remark)))⟩)
    | none => uri
  else
    splitFirst "#" uri ++ "#" ++ (⟨pctEncode remark⟩ : String)

/-- The tag `_extract_our_cc_and_num_from_uri` reads: the `ps` string of
a vmess payload, else the unquoted URL fragment. -/
def tagOfUri (uri : String) : Option String :=
  if schemeOf uri = "vmess" then
    match vmessObj? uri with
    | some o =>
      match kvLookup o "ps" with
      | some (.str s) => some s
      | _ => none
    | none => none
  else
    match urlsplitParts uri with
    | none => none
    | some (_, _, frag) => if frag = [] then none else some (unquote ⟨frag⟩)

def isUpperAZ (c : Char) : Bool := 'A' ≤ c && c ≤ 'Z'

/-- Decidable witness search for the `\s+.+\s+` middle of the remark
regex: some split `w ++ m ++ v` with `w, v` nonempty whitespace and `m`
nonempty without a newline (`.` never matches `\n`). -/
def midOk (mid : List Char) : Bool :=
  (List.range (mid.length + 1)).any fun i =>
    0 < i && (mid.take i).all pyIsSpace &&
      ((List.range (mid.length + 1)).any fun j =>
        i < j && j < mid.length && ((mid.drop i).take (j - i)).all (· ≠ '\n') &&
          (mid.drop j).all pyIsSpace)

/-- `re.match(r'^\[OpenRay\]\s+.+\s+([A-Z]{2})-(\d+)$', tag)`, returning
the two capture groups.  The trailing `(\d+)$` forces the groups: the
digits are the maximal trailing digit run, preceded by `-`, preceded by
the two-letter code.  (`$` also matching before a final newline, and
non-ASCII `\s`/`\d`, are not modelled; no constructed remark contains
either.) -/
def matchOpenRayTag (tag : String) : Option (String × Nat) :=
  let cs := tag.toList
  if startsWithChars "[OpenRay]".toList cs then
    let r := (cs.drop 9).reverse
    let digits := r.takeWhile Char.isDigit
    if digits = [] then none
    else
      match r.drop digits.length with
      | '-' :: c2 :: c1 :: rmid =>
        if isUpperAZ c1 ∧ isUpperAZ c2 ∧ midOk rmid.reverse then
          some (⟨[c1, c2]⟩, decDigitsVal digits.reverse)
        else none
      | _ => none
  else none

/-- `_extract_our_cc_and_num_from_uri` (`parsing.py` 369-400): the tag
(falsy tags rejected) matched against the remark pattern. -/
def extractCcNum (uri : String) : Option (String × Nat) :=
  match tagOfUri uri with
  | none => none
  | some t => if t = "" then none else matchOpenRayTag t

/-- `_country_flag` (`geo.py` 32-39): two regional-indicator characters
for a two-letter code, the globe otherwise (`isalpha` modelled on ASCII;
the coordinator only passes ASCII codes). -/
def countryFlag (cc : String) : String :=
  if cc.length ≠ 2 ∨ ¬cc.toList.all Char.isAlpha then "🌐"
  else
    let u := cc.toList.map Char.toUpper
    ⟨[Char.ofNat (0x1F1E6 + (u.headD 'A').toNat - 65),
      Char.ofNat (0x1F1E6 + (u.getD 1 'A').toNat - 65)]⟩

/-- `_build_country_counters` (`geo.py` 42-51): per-country maximum of
the numbers found in existing remarks.  (The coordinator iterates a
`set` of the file's lines; a maximum is order- and duplicate-blind, so a
list is faithful.) -/
def buildCountryCounters (existing : List String) : List (String × Nat) :=
  existing.foldl
    (fun counters line =>
      match extractCcNum line with
      | some (cc, num) =>
        if num > (alookup counters cc).getD 0 then astore counters cc num
        else counters
      | none => counters)
    []

/-- The formatting loop of the append step (`main.py` 315-331): per new
URI, country code from the geo oracle (the per-host cache is semantically
transparent for a pure oracle), `XX` for a falsy code, flag, next
per-country counter, remark `[OpenRay] <flag> <CC>-<N>`, and
`_set_remark`. -/
def formatLoop (geo : String → Option String) (hostOf : String → Option String) :
    List (String × Nat) → List String → List String
  | _, [] => []
  | counters, u :: rest =>
    let cc0 :=
      match hostOf u with
      | some h => geo h
      | none => none
    let cc :=
      match cc0 with
      | some c => if c = "" then "XX" else c
      | none => "XX"
    let nextNum := (alookup counters cc).getD 0 + 1
    let remark :=
      "[OpenRay] " ++ countryFlag cc ++ " " ++ cc ++ "-" ++ (⟨natDecimal nextNum⟩ : String)
    setRemark u remark :: formatLoop geo hostOf (astore counters cc nextNum) rest

/-- The append step of `main` (lines 309-332): the AvailableLedger after
`append_lines` is the previous file content followed by the formatted new
entries, with counters seeded from the existing entries. -/
def appendStep (geo : String → Option String) (hostOf : String → Option String)
    (fileLines newUnique : List String) : List String :=
  fileLines ++ formatLoop geo hostOf (buildCountryCounters fileLines) newUnique

/-- The remark an AvailableLedger entry carries: for a `vmess://` entry
the `ps` string of its payload, otherwise the percent-decoded text after
the first `#`.  (`tagOfUri` above is the code's own reader; it goes
through `urlsplit`, whose bracket check can raise on hosts the append
path accepts, so the spec-side reading used by the claim is stated
directly on the entry text.) -/
def carriedTag (uri : String) : Option String :=
  if startsWithChars "vmess://".toList uri.toList then
    match vmessObj? uri with
    | some o =>
      match kvLookup o "ps" with
      | some (.str s) => some s
      | _ => none
    | none => none
  else
    match splitOnce ['#'] uri.toList with
    | some (_, frag) => if frag = [] then none else some (unquote ⟨frag⟩)
    | none => none

/-- "Carries a remark matching `^\[OpenRay\] .+ [A-Z]{2}-\d+$`": the
entry's carried remark exists and matches the remark pattern, yielding
the two-letter country code and the counter value.  (The claim's regex
uses single spaces where the code's accepts `\s+`; every remark the
coordinator writes has single spaces, and `matchOpenRayTag` accepts
both.) -/
def RemarkMatches (uri : String) : Prop :=
  ∃ t cc n, carriedTag uri = some t ∧ matchOpenRayTag t = some (cc, n)

structure TestedFS where
  txt : List (Nat × List String)
  bin : List (Nat × List Nat)
deriving Repr, DecidableEq

/-- Byte size (`os.path.getsize`) of a text file whose lines were written
with a trailing `\n` each, as `append_lines` does. -/
def txtFileBytes (lines : List String) : Nat :=
  (lines.map fun l => (utf8Encode l).length + 1).sum

/-- `get_all_tested_files` (`io_ops.py` 387-400): the *text* files named
`tested*.txt`, sorted by segment number.  Binary companions whose text
twin is absent are **not** listed — `"tested.txt.bin".endswith(".txt")`
is false. -/
def allTestedIdxs (fs : TestedFS) : List Nat :=
  (fs.txt.map Prod.fst).insertionSort (· ≤ ·)

/-- `get_current_tested_file` (`io_ops.py` 335-356): the highest-numbered
listed segment, or the base `tested.txt` (index 0) when none exists. -/
def currentIdx (fs : TestedFS) : Nat :=
  (fs.txt.map Prod.fst).foldl max 0

/-- Hashes of a text segment: stripped nonempty lines. -/
def loadSegTxt (lines : List String) : List String :=
  (lines.map pyStrip).filter (· ≠ "")

/-- Hashes of a binary segment: the 20-byte digest of each 28-byte record,
rendered as lowercase hex (`bytes_to_hash`). -/
def loadSegBin (bs : List Nat) : List String :=
  (parse28 bs).map fun e => bytesToHex e.2

/-- Per-segment load (`load_tested_hashes_optimized`, 131-163): the binary
companion is preferred when it exists, else the text file is read. -/
def loadSeg (fs : TestedFS) (i : Nat) : List String :=
  match alookup fs.bin i with
  | some bs => loadSegBin bs
  | none => loadSegTxt ((alookup fs.txt i).getD [])

/-- All hashes visible to the loader, in file order (before the `set`). -/
def loadListFS (fs : TestedFS) : List String :=
  ((allTestedIdxs fs).map (loadSeg fs)).flatten

/-- Structural first-seen deduplication worker. -/
def dedupGo : Nat → List String → List String
  | 0, _ => []
  | _, [] => []
  | fuel + 1, x :: rest => x :: dedupGo fuel (rest.filter (· ≠ x))

/-- First-seen deduplication: the Python `set` built by the loader, kept
in a deterministic (first-occurrence) order.  Everything downstream uses
it only up to membership. -/
def dedupKeepFirst (l : List String) : List String := dedupGo l.length l

/-- The value returned by `load_tested_hashes_optimized()`. -/
def loadSetFS (fs : TestedFS) : List String := dedupKeepFirst (loadListFS fs)

/-- `migrate_to_optimized_format` (`io_ops.py` 174-203), the side effect
`load_tested_hashes_optimized` triggers whenever it loaded anything:
rewrite `tested.txt.bin` (index 0) with one freshly timestamped record per
loaded hash; hashes that are not valid hex are skipped. -/
def migrateFS (now : Nat) (fs : TestedFS) : TestedFS :=
  let tested := loadSetFS fs
  let entries := tested.flatMap fun h =>
    let h2 := pyStrip h
    if h2 = "" then []
    else
      match hashToBytes? h2 with
      | some d => [pack28 now d]
      | none => []
  if tested = [] then fs
  else if entries = [] then fs
  else { fs with bin := astore fs.bin 0 entries.flatten }

/-- The dedup-filter loop of `append_tested_hashes_optimized` (224-234):
strip each hash, skip blanks, skip hashes already in the loaded set (which
grows as the batch is processed), skip invalid hex. -/
def appendFilterStep (now : Nat) (acc : List String × List (List Nat))
    (h : String) : List String × List (List Nat) :=
  let h2 := pyStrip h
  if h2 = "" ∨ h2 ∈ acc.1 then acc
  else
    match hashToBytes? h2 with
    | some d => (h2 :: acc.1, acc.2 ++ [pack28 now d])
    | none => acc

/-- `append_tested_hashes_optimized` (`io_ops.py` 205-269), binary path
(the text fallback runs only when the binary file write raises, which the
model's filesystem never does).  Loads the visible union (triggering
migration on disk), filters the batch against it, rotates by the
estimated size of the *current text file* when one exists, and appends
the new records to the chosen segment's `.bin` companion — never creating
the `.txt` twin. -/
def appendFS (now : Nat) (fs : TestedFS) (newHashes : List String) : TestedFS :=
  let cur := currentIdx fs
  let existing := loadSetFS fs
  let fs1 := migrateFS now fs
  let newEntries := (newHashes.foldl (appendFilterStep now) (existing, [])).2
  if newEntries = [] then fs1
  else
    let doRot :=
      match alookup fs1.txt cur with
      | some lines => decide (txtFileBytes lines + 41 * newEntries.length ≥ 52428800)
      | none => false
    let cur2 := cond doRot (cur + 1) cur
    { fs1 with
      bin := astore fs1.bin cur2 (((alookup fs1.bin cur2).getD []) ++ newEntries.flatten) }

/-- `rotate_tested_file` (`io_ops.py` 368-384) computes the next segment
file name and writes nothing; as a storage transition it is the identity
(the new segment file is only created by a later write). -/
def rotateFS (fs : TestedFS) : TestedFS := fs

/-- Every hash physically stored in the `.state` directory, text files and
binary files alike, including binary segments whose text twin is missing. -/
def allStoredHashes (fs : TestedFS) : List String :=
  (fs.txt.map fun p => loadSegTxt p.2).flatten ++ (fs.bin.map fun p => loadSegBin p.2).flatten

/-- Total bytes occupied by the ledger files. -/
def storageBytes (fs : TestedFS) : Nat :=
  (fs.txt.map fun p => txtFileBytes p.2).sum + (fs.bin.map fun p => p.2.length).sum

/-- The 40-character hex digest `"aa…a"` used as a concrete test hash. -/
def hashA : String := ⟨List.replicate 40 'a'⟩

/-! ## Host streak tracker (`src/src/main.py`, lines 363-381)

`streaks` is a JSON-backed dict `host ↦ {streak, last_test, last_success}`;
`host_success_run` is a dict `host ↦ bool` with one entry per host observed
in the run.  Python dicts are modelled as association lists whose keys are
unique (`List.Nodup`). -/

/-- One record of `.state/streaks.json`. -/
structure StreakRec where
  streak : Nat
  last_test : Nat
  last_success : Nat
deriving Repr, DecidableEq

/-- `streaks.get(host, {'streak': 0, 'last_test': 0, 'last_success': 0})`. -/
def streakDefault : StreakRec := ⟨0, 0, 0⟩

/-- The body of the `for host, success in host_success_run.items()` loop in
`main` (lines 370-378): `last_test ← now`; on success `streak ← streak+1`,
`last_success ← now`; on failure `streak ← 0`. -/
def streakStep (now : Nat) (streaks : List (String × StreakRec))
    (h : String) (success : Bool) : List (String × StreakRec) :=
  let rec0 := (alookup streaks h).getD streakDefault
  let rec1 :=
    if success then
      { streak := rec0.streak + 1, last_test := now, last_success := now }
    else
      { rec0 with last_test := now, streak := 0 }
  astore streaks h rec1

/-- The whole streak-update loop of `main` over `host_success_run`. -/
def updateStreaks (now : Nat) : List (String × StreakRec) → List (String × Bool) →
    List (String × StreakRec)
  | streaks, [] => streaks
  | streaks, (h, b) :: rest => updateStreaks now (streakStep now streaks h b) rest

/-! Helper lemmas about `alookup`/`astore`. -/

/-! ## URI extraction (`src/src/parsing.py`, lines 11-14 and 78-90)

`URI_REGEX = (?i)\b(vmess|vless|trojan|ss|ssr|hysteria|hysteria2|hy2|tuic|juicity)://[^\s<>"']+`
scanned with `finditer` (leftmost, non-overlapping).  At a given position
at most one alternative can be followed by `://`, so the Python
backtracking order reduces to "first alternative whose name followed by
`://` matches".  `\b` and `\s` are modelled on the ASCII range (Python's
are Unicode-aware; no claim exercises non-ASCII word or space
characters). -/

/-- Python `\w` on the ASCII range. -/
def pyIsWordChar (c : Char) : Bool := c.isAlphanum || c = '_'

/-- The `SCHEMES` list of `parsing.py`, in source order. -/
def schemesList : List String :=
  ["vmess", "vless", "trojan", "ss", "ssr", "hysteria", "hysteria2", "hy2",
   "tuic", "juicity"]

/-- Case-insensitive prefix test (pattern already lowercase). -/
def ciStartsWith : List Char → List Char → Bool
  | [], _ => true
  | _ :: _, [] => false
  | p :: ps, c :: cs => p = c.toLower && ciStartsWith ps cs

/-- A character the regex body class `[^\s<>"']` accepts. -/
def isBodyChar (c : Char) : Bool :=
  !pyIsSpace c && c ≠ '<' && c ≠ '>' && c ≠ '"' && c ≠ '\''

/-- Length of the scheme matched at this position (first alternative in
source order whose name followed by `://` is present), if any. -/
def matchSchemeAt (cs : List Char) : Option Nat :=
  (schemesList.find? fun s => ciStartsWith (s.toList ++ "://".toList) cs).map
    String.length

/-- The regex match starting exactly at this position: scheme, `://`, then
a nonempty maximal run of body characters.  The matched text keeps the
input's original casing (`m.group(0)`). -/
def matchUriAt (cs : List Char) : Option (List Char × List Char) :=
  match matchSchemeAt cs with
  | none => none
  | some n =>
    let afterScheme := cs.drop (n + 3)
    let body := afterScheme.takeWhile isBodyChar
    if body = [] then none
    else some (cs.take (n + 3) ++ body, afterScheme.drop body.length)

/-- Word-boundary state after emitting a match: the character preceding
the next search position is the match's last character. -/
def lastIsWord (m : List Char) : Bool :=
  match m.getLast? with
  | some c => pyIsWordChar c
  | none => false

/-- `finditer` scan: left to right, word boundary before each match,
resume after each match end.  `fuel ≥ cs.length` suffices (every step
consumes at least one character). -/
def scanUris : Nat → Bool → List Char → List String
  | 0, _, _ => []
  | _ + 1, _, [] => []
  | fuel + 1, prevW, c :: cs =>
    if !prevW then
      match matchUriAt (c :: cs) with
      | some (m, rest) => String.mk m :: scanUris fuel (lastIsWord m) rest
      | none => scanUris fuel (pyIsWordChar c) cs
    else scanUris fuel (pyIsWordChar c) cs

/-- All `URI_REGEX.finditer(text)` matches, in order. -/
def regexMatches (text : String) : List String :=
  scanUris text.toList.length false text.toList

/-- `uri.rstrip(')>,;"\'\n\r')` of `extract_uris`. -/
def stripTrailing (uri : String) : String :=
  ⟨(uri.toList.reverse.dropWhile fun c =>
      c ∈ [')', '>', ',', ';', '"', '\'', '\n', '\r']).reverse⟩

/-- `extract_uris` (`parsing.py` 78-90): empty text yields `[]`; matches
are stripped of trailing punctuation and deduplicated with a `found` set,
keeping first occurrences in order. -/
def extractUris (text : String) : List String :=
  if text = "" then []
  else
    ((regexMatches text).map stripTrailing).foldl
      (fun acc u => if u ∈ acc then acc else acc ++ [u]) []

/-! ## Grouped outputs (`src/src/grouping.py` and `src/src/constants.py`)

`grouping.py` begins with
`from .constants import AVAILABLE_FILE, KIND_DIR, COUNTERY_DIR`
(line 6).  Python resolves such an import against the module-level names
bound by `constants.py`; a name that is not bound raises `ImportError`
when `src.grouping` is imported (and `src/src/main.py` imports it at
line 24, before anything runs). -/

/-- Every module-level name bound by `src/src/constants.py`: the imported
names, the `def`s, and the top-level assignments, in source order. -/
def constantsModuleNames : List String :=
  ["os", "sys", "shutil", "multiprocessing", "time", "Optional", "List",
   "Tuple", "ThreadPoolExecutor", "as_completed",
   "REPO_ROOT", "STATE_DIR", "OUTPUT_DIR", "TESTED_FILE", "AVAILABLE_FILE",
   "STREAKS_FILE", "KIND_DIR", "COUNTRY_DIR",
   "_env_int", "_is_ci_env", "_get_sources_file", "SOURCES_FILE",
   "_get_system_specs", "_adaptive_workers", "_adaptive_timeout",
   "_benchmark_worker_pool", "_discover_optimal_workers",
   "_discover_optimal_timeouts", "_CI",
   "_opt_fetch", "_opt_ping", "_opt_ping_timeout", "_opt_connect_timeout",
   "_opt_probe_timeout",
   "FETCH_TIMEOUT", "PING_TIMEOUT_MS", "FETCH_WORKERS", "PING_WORKERS",
   "CONNECT_TIMEOUT_MS", "TCP_FALLBACK_PORTS", "USER_AGENT",
   "ENABLE_STAGE2", "PROBE_TIMEOUT_MS", "ENABLE_STAGE3", "STAGE3_MAX",
   "_adaptive_stage3_workers", "STAGE3_WORKERS", "NEW_URIS_LIMIT_ENABLED",
   "NEW_URIS_LIMIT", "_auto_find_v2ray_core", "V2RAY_CORE_PATH",
   "CONSECUTIVE_REQUIRED"]

/-- The names `src/src/grouping.py` line 6 imports from `.constants`. -/
def groupingImportsFromConstants : List String :=
  ["AVAILABLE_FILE", "KIND_DIR", "COUNTERY_DIR"]

/-! ## Pre-flight connectivity and the coordinator entry point
(`src/src/main.py`, lines 45-81, and the `__main__` guard, lines 392-397)

`ping_host` and `connect_host_port` (`src/src/net.py`) are network probes;
they are modelled as boolean oracles.  Exceptions they might raise are
absorbed by the per-probe `try/except: pass` blocks around their call
sites in `_has_connectivity`, so total boolean oracles are faithful. -/

/-- `_has_connectivity` (`main.py` 45-66).  It probes `('1.1.1.1', 443)`
then `('8.8.8.8', 53)`; a successful ping or TCP connect returns `True`.
When every probe fails the function **raises** `RuntimeError` (the
`return False` in its source is commented out), modelled as `.error ()`.
It therefore never returns `False`. -/
def hasConnectivity (ping : String → Bool) (connect : String → Nat → Bool) :
    Except Unit Bool :=
  let probe : String × Nat → Bool := fun (ip, port) => ping ip || connect ip port
  if probe ("1.1.1.1", 443) then .ok true
  else if probe ("8.8.8.8", 53) then .ok true
  else .error ()

/-- Outcome of running `main()` under the `__main__` guard: either a
returned exit code or an uncaught exception propagating out of `main`
(only `KeyboardInterrupt` is caught there). -/
inductive MainOutcome
  | exit : Int → MainOutcome
  | raised : MainOutcome
deriving Repr, DecidableEq

/-- The control flow of `main()` (`main.py` 69-81) up to and including the
pre-flight connectivity gate, over an abstract ledger state `σ`.  Before
the gate, `main` only creates directories (`ensure_dirs`) and reads the
sources file — it writes no ledger, so the state is threaded unchanged.
The rest of the pipeline is the continuation `rest` (run only when the
gate passes); `rest` returns `main`'s exit code and the final state.
The `.ok false ⇒ exit 2` arm transcribes lines 79-81 of the source even
though `hasConnectivity` can never produce it. -/
def mainRun {σ : Type} (sourcesExists : Bool) (ping : String → Bool)
    (connect : String → Nat → Bool) (st : σ) (rest : σ → Int × σ) :
    MainOutcome × σ :=
  if !sourcesExists then (.exit 1, st)
  else
    match hasConnectivity ping connect with
    | .error _ => (.raised, st)
    | .ok true => let (code, st1) := rest st; (.exit code, st1)
    | .ok false => (.exit 2, st)

/-! ## Auxiliary views used by the round-trip proofs -/

/-- The `quote` output for one byte. -/
def pctByte (b : Nat) : List Char :=
  if isAlwaysSafeByte b then [Char.ofNat b]
  else ['%', hexUpperOfNat (b / 16 % 16), hexUpperOfNat (b % 16)]

/-- `pctEncode` viewed per character. -/
def pctEncodeChars (cs : List Char) : List Char :=
  cs.flatMap fun c => (utf8EncodeChar c).flatMap pctByte

/-- Characters whose (single) UTF-8 byte survives `quote` unescaped. -/
def safeChar (c : Char) : Bool := isAlwaysSafeByte c.toNat

/-- The percent triplets of a byte list. -/
def encTriplets (bs : List Nat) : List Char :=
  bs.flatMap fun b => ['%', hexUpperOfNat (b / 16 % 16), hexUpperOfNat (b % 16)]

/-- Is a valid `%HH` triplet at the front? -/
def tripletAt : List Char → Bool
  | '%' :: h1 :: h2 :: _ => (hexDigitVal? h1).isSome && (hexDigitVal? h2).isSome
  | _ => false

/-- Does the object bind this key? -/
def kvsHasKey : JsonKVs → String → Bool
  | .nil, _ => false
  | .cons k _ rest, key => k = key || kvsHasKey rest key

mutual

/-- Well-formed JSON values: object keys are pairwise distinct (the only
shape `json.loads` can produce, since a dict collapses duplicates). -/
def wfJson : Json → Bool
  | .null => true
  | .bool _ => true
  | .num _ => true
  | .str _ => true
  | .arr xs => wfJsonList xs
  | .obj kvs => wfJsonKVs kvs

def wfJsonList : JsonList → Bool
  | .nil => true
  | .cons x rest => wfJson x && wfJsonList rest

def wfJsonKVs : JsonKVs → Bool
  | .nil => true
  | .cons k v rest => !kvsHasKey rest k && wfJson v && wfJsonKVs rest

end

mutual

/-- Node count, bounding the parser fuel a printed value needs. -/
def sizeJ : Json → Nat
  | .null => 1
  | .bool _ => 1
  | .num _ => 1
  | .str _ => 1
  | .arr xs => sizeJL xs + 1
  | .obj kvs => sizeJK kvs + 1

def sizeJL : JsonList → Nat
  | .nil => 0
  | .cons x rest => sizeJ x + sizeJL rest + 1

def sizeJK : JsonKVs → Nat
  | .nil => 0
  | .cons _ v rest => sizeJ v + sizeJK rest + 1

end

def memJL (x : Json) : JsonList → Prop
  | .nil => False
  | .cons y rest => x = y ∨ memJL x rest

def memJKv (v : Json) : JsonKVs → Prop
  | .nil => False
  | .cons _ w rest => v = w ∨ memJKv v rest

def kvAppend : JsonKVs → JsonKVs → JsonKVs
  | .nil, b => b
  | .cons k v rest, b => .cons k v (kvAppend rest b)

/-- The accumulator fold `jsonObjLoop` performs. -/
def kvFoldStore : JsonKVs → JsonKVs → JsonKVs
  | acc, .nil => acc
  | acc, .cons k v rest => kvFoldStore (kvStore acc k v) rest

/-- The continuations a printed value is followed by in legal positions:
end of input or a non-digit (so a number literal cannot run on). -/
def restOk : List Char → Bool
  | [] => true
  | c :: _ => !c.isDigit

/-- The country code the formatting loop assigns to one URI (geo lookup
through the host, `XX` for a missing host or falsy code). -/
def ccOf (geo : String → Option String) (hostOf : String → Option String)
    (u : String) : String :=
  match (match hostOf u with | some h => geo h | none => none) with
  | some c => if c = "" then "XX" else c
  | none => "XX"

/-! ## Theorems -/

theorem alookup_astore_self {α : Type} (l : List (String × α)) (k : String) (v : α) :
    alookup (astore l k v) k = some v := by
  induction l with
  | nil => simp [astore, alookup]
  | cons p rest ih =>
    obtain ⟨k', w⟩ := p
    by_cases h : k' = k <;> simp [astore, alookup, h, ih]

theorem alookup_astore_other {α : Type} (l : List (String × α)) (k k' : String) (v : α)
    (hne : k ≠ k') : alookup (astore l k v) k' = alookup l k' := by
  induction l with
  | nil => simp [astore, alookup, hne]
  | cons p rest ih =>
    obtain ⟨k₀, w⟩ := p
    by_cases h : k₀ = k
    · subst h; simp [astore, alookup, hne]
    · simp [astore, alookup, h, ih]

theorem updateStreaks_not_mem (now : Nat) (hostRun : List (String × Bool))
    (streaks : List (String × StreakRec)) (h : String)
    (hnot : h ∉ hostRun.map Prod.fst) :
    alookup (updateStreaks now streaks hostRun) h = alookup streaks h := by
  induction hostRun generalizing streaks with
  | nil => rfl
  | cons p rest ih =>
    obtain ⟨h', b⟩ := p
    simp only [List.map_cons, List.mem_cons] at hnot
    push_neg at hnot
    rw [show updateStreaks now streaks ((h', b) :: rest) =
      updateStreaks now (streakStep now streaks h' b) rest from rfl,
      ih _ hnot.2, streakStep]
    exact alookup_astore_other _ _ _ _ fun e => hnot.1 e.symm

/-- The per-host effect of the streak update: for an observed host, the
update behaves like a single `streakStep` on its prior record. -/
theorem updateStreaks_mem (now : Nat) (hostRun : List (String × Bool))
    (streaks : List (String × StreakRec)) (h : String) (b : Bool)
    (hnd : (hostRun.map Prod.fst).Nodup) (hmem : (h, b) ∈ hostRun) :
    alookup (updateStreaks now streaks hostRun) h =
      some (let rec0 := (alookup streaks h).getD streakDefault
            if b then
              { streak := rec0.streak + 1, last_test := now, last_success := now }
            else
              { rec0 with last_test := now, streak := 0 }) := by
  induction hostRun generalizing streaks with
  | nil => cases hmem
  | cons p rest ih =>
    obtain ⟨h', b'⟩ := p
    simp only [List.map_cons, List.nodup_cons] at hnd
    rcases List.mem_cons.mp hmem with heq | hrest
    · have hh : h = h' := congrArg Prod.fst heq
      have hb : b = b' := congrArg Prod.snd heq
      subst hh; subst hb
      have hnot : h ∉ rest.map Prod.fst := hnd.1
      rw [show updateStreaks now streaks ((h, b) :: rest) =
        updateStreaks now (streakStep now streaks h b) rest from rfl,
        updateStreaks_not_mem now rest _ h hnot, streakStep,
        alookup_astore_self]
    · have hne : h ≠ h' := by
        intro e
        exact hnd.1 (e ▸ List.mem_map_of_mem Prod.fst hrest)
      rw [show updateStreaks now streaks ((h', b') :: rest) =
        updateStreaks now (streakStep now streaks h' b') rest from rfl,
        ih _ hnd.2 hrest, streakStep,
        alookup_astore_other _ _ _ _ (Ne.symm hne)]

/-- `_has_connectivity` can only return `True` or raise: the `return 2`
branch of `main` that would handle a `False` return is dead code. -/
theorem hasConnectivity_never_false (ping : String → Bool)
    (connect : String → Nat → Bool) :
    hasConnectivity ping connect ≠ .ok false := by
  simp only [hasConnectivity]
  split <;> simp_all
  split <;> simp_all

/-- C1, counterexample.  With every probe of `1.1.1.1:443` and `8.8.8.8:53`
failing, the coordinator's entry point does **not** return exit code 2:
`_has_connectivity` raises `RuntimeError` (its `return False` is commented
out), the exception propagates out of `main`, and the run ends `raised`.
The ledger state (here `0 : Nat`) is untouched, but no exit code 2 is
produced. -/
theorem C1_counterexample :
    mainRun (σ := Nat) true (fun _ => false) (fun _ _ => false) 0
        (fun s => (0, s)) = (.raised, 0) ∧
      mainRun (σ := Nat) true (fun _ => false) (fun _ _ => false) 0
        (fun s => (0, s)) ≠ (.exit 2, 0) := by
  constructor
  · rfl
  · intro h
    simp [mainRun, hasConnectivity] at h

/-- C1, amended.  If the pre-flight connectivity check fails (no probe of
`1.1.1.1:443` or `8.8.8.8:53` succeeds), `main` raises `RuntimeError`
(instead of returning exit code 2), and no ledger state is modified before
the exception: the run's final state equals the initial state, for every
possible downstream pipeline `rest`. -/
theorem C1_raises_without_ledger_writes {σ : Type} (ping : String → Bool)
    (connect : String → Nat → Bool) (st : σ) (rest : σ → Int × σ)
    (h1 : ping "1.1.1.1" = false) (h2 : connect "1.1.1.1" 443 = false)
    (h3 : ping "8.8.8.8" = false) (h4 : connect "8.8.8.8" 53 = false) :
    mainRun true ping connect st rest = (.raised, st) := by
  simp [mainRun, hasConnectivity, h1, h2, h3, h4]

/-- C1, witness for the amended theorem at concrete oracles and state. -/
theorem C1_witness :
    mainRun (σ := Nat) true (fun _ => false) (fun _ _ => false) 7
        (fun s => (0, s + 1)) = (.raised, 7) :=
  C1_raises_without_ledger_writes (fun _ => false) (fun _ _ => false) 7
    (fun s => (0, s + 1)) rfl rfl rfl rfl

/-- C5.  For every host observed in a run (present in `host_success_run`),
the streak update sets `last_test` to the current time; on success it
increments `streak` by exactly one and sets `last_success` to the current
time; on failure it sets `streak` to zero and leaves `last_success`
unchanged.  Consequently a host with 4 consecutive successful runs (at
times `t1..t4`) followed by one failed run (at `t5`) ends with
`streak = 0` and `last_success = t4`, its value after run 4. -/
theorem C5_streak_update (now : Nat) (streaks : List (String × StreakRec))
    (hostRun : List (String × Bool)) (h : String) (b : Bool)
    (hnd : (hostRun.map Prod.fst).Nodup) (hmem : (h, b) ∈ hostRun)
    (host : String) (t1 t2 t3 t4 t5 : Nat) :
    (alookup (updateStreaks now streaks hostRun) h =
      some (let rec0 := (alookup streaks h).getD streakDefault
            if b then
              { streak := rec0.streak + 1, last_test := now, last_success := now }
            else
              { rec0 with last_test := now, streak := 0 })) ∧
    (alookup
        (updateStreaks t5
          (updateStreaks t4
            (updateStreaks t3
              (updateStreaks t2
                (updateStreaks t1 [] [(host, true)])
                [(host, true)])
              [(host, true)])
            [(host, true)])
          [(host, false)])
        host =
      some { streak := 0, last_test := t5, last_success := t4 }) := by
  refine ⟨updateStreaks_mem now hostRun streaks h b hnd hmem, ?_⟩
  simp [updateStreaks, streakStep, astore, alookup, streakDefault]

/-- C5, witness: the update rule applied at a concrete run. -/
theorem C5_witness :
    (alookup (updateStreaks 100 [] [("h1.example", true)]) "h1.example" =
      some { streak := 1, last_test := 100, last_success := 100 }) ∧
    (alookup
        (updateStreaks 5
          (updateStreaks 4
            (updateStreaks 3
              (updateStreaks 2
                (updateStreaks 1 [] [("h2.example", true)])
                [("h2.example", true)])
              [("h2.example", true)])
            [("h2.example", true)])
          [("h2.example", false)])
        "h2.example" =
      some { streak := 0, last_test := 5, last_success := 4 }) := by
  have := C5_streak_update 100 [] [("h1.example", true)] "h1.example" true
    (by simp) (by simp) "h2.example" 1 2 3 4 5
  simpa [alookup, streakDefault] using this

/-! ### Tested-hash ledger (claims C2 and C3)

`append_tested_hashes_optimized` writes records only to the `.bin`
companion of the current segment and never creates the `.txt` file, while
`get_all_tested_files` enumerates segments by their `.txt` files only
(`"tested.txt.bin".endswith(".txt")` is false).  Starting from an empty
`.state` directory, one append therefore produces a binary segment that
every subsequent load ignores, and a second append of the same hash packs
a second copy of the digest. -/

/-- C2, failing input.  On the fresh store, `append([hashA])` stores one
record; the ledger then still loads as empty, so `append([hashA])` again
re-writes the very same digest: the duplicate write grows storage from 28
to 56 bytes and stores the hash twice, contradicting the claim that a
hash already present is never written again. -/
theorem C2_duplicate_append_grows_storage :
    hashA ∈ allStoredHashes (appendFS 11 ⟨[], []⟩ [hashA]) ∧
    (allStoredHashes (appendFS 11 ⟨[], []⟩ [hashA])).count hashA = 1 ∧
    (allStoredHashes (appendFS 22 (appendFS 11 ⟨[], []⟩ [hashA]) [hashA])).count
        hashA = 2 ∧
    storageBytes (appendFS 11 ⟨[], []⟩ [hashA]) = 28 ∧
    storageBytes (appendFS 22 (appendFS 11 ⟨[], []⟩ [hashA]) [hashA]) = 56 := by
  decide

/-- C3, failing input.  After one append on the fresh store the digest of
`hashA` is physically stored (in `tested.txt.bin`), yet
`load_tested_hashes_optimized` returns the empty set, because the binary
segment has no `.txt` twin and is not enumerated: the load is *not* the
union of the hashes stored in every segment, text and binary.  (A text
segment, by contrast, is loaded.) -/
theorem C3_load_misses_binary_segment :
    hashA ∈ allStoredHashes (appendFS 11 ⟨[], []⟩ [hashA]) ∧
    loadSetFS (appendFS 11 ⟨[], []⟩ [hashA]) = [] ∧
    loadSetFS ⟨[(0, [hashA])], []⟩ = [hashA] := by
  decide

/-! ### UTF-8 round trip -/

theorem char_valid_range (c : Char) :
    c.toNat < 0xD800 ∨ (0xDFFF < c.toNat ∧ c.toNat < 0x110000) := c.valid

theorem char_toNat_lt (c : Char) : c.toNat < 0x110000 := by
  rcases char_valid_range c with h | ⟨_, h⟩ <;> omega

theorem char_not_surrogate (c : Char) :
    ¬(0xD800 ≤ c.toNat ∧ c.toNat < 0xE000) := by
  rcases char_valid_range c with h | ⟨h1, h2⟩ <;> omega

theorem utf8EncodeChar_lt (c : Char) : ∀ b ∈ utf8EncodeChar c, b < 256 := by
  intro b hb
  have hc := char_toNat_lt c
  simp only [utf8EncodeChar] at hb
  split at hb
  · simp at hb; omega
  · split at hb
    · simp at hb; rcases hb with rfl | rfl <;> omega
    · split at hb
      · simp at hb; rcases hb with rfl | rfl | rfl <;> omega
      · simp at hb; rcases hb with rfl | rfl | rfl | rfl <;> omega

theorem utf8EncodeChar_ne_nil (c : Char) : utf8EncodeChar c ≠ [] := by
  simp only [utf8EncodeChar]
  split
  · simp
  · split
    · simp
    · split <;> simp

/-- Decoding one encoded scalar value at the head of the stream. -/
theorem utf8DecodeGo_encodeChar (c : Char) (tail : List Nat) (fuel : Nat) :
    utf8DecodeGo (fuel + 1) (utf8EncodeChar c ++ tail) =
      c :: utf8DecodeGo fuel tail := by
  have hc := char_toNat_lt c
  have hofn : Char.ofNat c.toNat = c := Char.ofNat_toNat c
  have hsur := char_not_surrogate c
  by_cases h1 : c.toNat < 0x80
  · rw [show utf8EncodeChar c = [c.toNat] by simp [utf8EncodeChar, h1]]
    show utf8DecodeGo (fuel + 1) (c.toNat :: tail) = c :: utf8DecodeGo fuel tail
    simp only [utf8DecodeGo]
    rw [if_pos h1, hofn]
  · by_cases h2 : c.toNat < 0x800
    · rw [show utf8EncodeChar c = [0xC0 + c.toNat / 64, 0x80 + c.toNat % 64] by
        simp [utf8EncodeChar, h1, h2]]
      show utf8DecodeGo (fuel + 1)
          ((0xC0 + c.toNat / 64) :: (0x80 + c.toNat % 64) :: tail) =
        c :: utf8DecodeGo fuel tail
      simp only [utf8DecodeGo]
      rw [if_neg (by omega), if_pos ⟨by omega, by omega⟩]
      rw [if_pos (show isCont (0x80 + c.toNat % 64) = true by
        simp [isCont]; omega)]
      have harg : (0xC0 + c.toNat / 64 - 0xC0) * 64 + (0x80 + c.toNat % 64 - 0x80) =
          c.toNat := by omega
      rw [harg, hofn]
    · by_cases h3 : c.toNat < 0x10000
      · rw [show utf8EncodeChar c =
            [0xE0 + c.toNat / 4096, 0x80 + c.toNat / 64 % 64, 0x80 + c.toNat % 64] by
          simp [utf8EncodeChar, h1, h2, h3]]
        show utf8DecodeGo (fuel + 1)
            ((0xE0 + c.toNat / 4096) :: (0x80 + c.toNat / 64 % 64) ::
              (0x80 + c.toNat % 64) :: tail) =
          c :: utf8DecodeGo fuel tail
        simp only [utf8DecodeGo]
        rw [if_neg (by omega), if_neg (by omega), if_pos ⟨by omega, by omega⟩]
        rw [if_pos (show (isCont (0x80 + c.toNat / 64 % 64) = true ∧
            isCont (0x80 + c.toNat % 64) = true) by
          constructor <;> (simp [isCont]; omega))]
        have hval : (0xE0 + c.toNat / 4096 - 0xE0) * 4096 +
            (0x80 + c.toNat / 64 % 64 - 0x80) * 64 + (0x80 + c.toNat % 64 - 0x80) =
            c.toNat := by omega
        rw [hval, if_pos ⟨by omega, hsur⟩, hofn]
      · rw [show utf8EncodeChar c =
            [0xF0 + c.toNat / 262144, 0x80 + c.toNat / 4096 % 64,
             0x80 + c.toNat / 64 % 64, 0x80 + c.toNat % 64] by
          simp [utf8EncodeChar, h1, h2, h3]]
        show utf8DecodeGo (fuel + 1)
            ((0xF0 + c.toNat / 262144) :: (0x80 + c.toNat / 4096 % 64) ::
              (0x80 + c.toNat / 64 % 64) :: (0x80 + c.toNat % 64) :: tail) =
          c :: utf8DecodeGo fuel tail
        simp only [utf8DecodeGo]
        rw [if_neg (by omega), if_neg (by omega), if_neg (by omega),
          if_pos ⟨by omega, by omega⟩]
        rw [if_pos (show (isCont (0x80 + c.toNat / 4096 % 64) = true ∧
            isCont (0x80 + c.toNat / 64 % 64) = true ∧
            isCont (0x80 + c.toNat % 64) = true) by
          refine ⟨?_, ?_, ?_⟩ <;> (simp [isCont]; omega))]
        have hval : (0xF0 + c.toNat / 262144 - 0xF0) * 262144 +
            (0x80 + c.toNat / 4096 % 64 - 0x80) * 4096 +
            (0x80 + c.toNat / 64 % 64 - 0x80) * 64 + (0x80 + c.toNat % 64 - 0x80) =
            c.toNat := by omega
        rw [hval, if_pos ⟨by omega, by omega⟩, hofn]

/-- UTF-8 round trip: decoding an encoded string recovers it. -/
theorem utf8DecodeGo_encode (cs : List Char) (fuel : Nat)
    (hf : (cs.flatMap utf8EncodeChar).length ≤ fuel) :
    utf8DecodeGo fuel (cs.flatMap utf8EncodeChar) = cs := by
  induction cs generalizing fuel with
  | nil => cases fuel <;> rfl
  | cons c rest ih =>
    have hlen : 1 ≤ (utf8EncodeChar c).length := by
      cases h : utf8EncodeChar c with
      | nil => exact absurd h (utf8EncodeChar_ne_nil c)
      | cons a l => simp
    cases fuel with
    | zero =>
      exfalso
      simp only [List.flatMap_cons, List.length_append, Nat.le_zero] at hf
      omega
    | succ fuel =>
      rw [List.flatMap_cons, utf8DecodeGo_encodeChar c _ fuel]
      rw [ih fuel (by
        simp only [List.flatMap_cons, List.length_append] at hf
        omega)]

theorem utf8_round_trip (s : String) :
    utf8DecodeIgnoreStr (utf8Encode s) = s := by
  have h := utf8DecodeGo_encode s.toList (s.toList.flatMap utf8EncodeChar).length le_rfl
  unfold utf8DecodeIgnoreStr utf8DecodeIgnore utf8Encode
  rw [h]
  cases s with
  | mk l => rfl

theorem utf8Encode_ne_nil {s : String} (h : s ≠ "") : utf8Encode s ≠ [] := by
  intro hnil
  apply h
  cases hs : s.toList with
  | nil =>
    cases s with
    | mk l =>
      cases l with
      | nil => rfl
      | cons a r => simp at hs
  | cons c rest =>
    exfalso
    unfold utf8Encode at hnil
    rw [hs, List.flatMap_cons] at hnil
    exact utf8EncodeChar_ne_nil c (List.append_eq_nil.mp hnil).1

theorem utf8Encode_lt (s : String) : ∀ b ∈ utf8Encode s, b < 256 := by
  intro b hb
  unfold utf8Encode at hb
  rcases List.mem_flatMap.mp hb with ⟨c, _, hc⟩
  exact utf8EncodeChar_lt c b hc

/-! ### Percent-encoding round trip -/

theorem hexDigitVal_hexUpper {v : Nat} (hv : v < 16) :
    hexDigitVal? (hexUpperOfNat v) = some v := by
  have h : ∀ w : Fin 16, hexDigitVal? (hexUpperOfNat w.val) = some w.val := by decide
  exact h ⟨v, hv⟩

theorem alwaysSafe_lt {b : Nat} (h : isAlwaysSafeByte b = true) : b < 0x80 := by
  simp only [isAlwaysSafeByte, Bool.or_eq_true, Bool.and_eq_true, decide_eq_true_eq,
    beq_iff_eq] at h
  omega

theorem alwaysSafe_ne_pct {b : Nat} (h : isAlwaysSafeByte b = true) : b ≠ 0x25 := by
  simp only [isAlwaysSafeByte, Bool.or_eq_true, Bool.and_eq_true, decide_eq_true_eq,
    beq_iff_eq] at h
  omega

/-- Bytes of an unsafe character's UTF-8 encoding are all unsafe. -/
theorem utf8_bytes_notSafe {c : Char} (h : isAlwaysSafeByte c.toNat = false) :
    ∀ b ∈ utf8EncodeChar c, isAlwaysSafeByte b = false := by
  intro b hb
  simp only [utf8EncodeChar] at hb
  split at hb
  · simp at hb; subst hb; exact h
  · have hge : ∀ x ∈ utf8EncodeChar c, 0x80 ≤ x → isAlwaysSafeByte x = false := by
      intro x _ hx
      cases hxx : isAlwaysSafeByte x with
      | false => rfl
      | true => exact absurd (alwaysSafe_lt hxx) (by omega)
    split at hb
    · simp at hb
      rcases hb with rfl | rfl <;>
        (cases hxx : isAlwaysSafeByte _ with
         | false => rfl
         | true => exact absurd (alwaysSafe_lt hxx) (by omega))
    · split at hb <;>
        (simp at hb
         rcases hb with rfl | rfl | rfl | rfl <;>
           (cases hxx : isAlwaysSafeByte _ with
            | false => rfl
            | true => exact absurd (alwaysSafe_lt hxx) (by omega)))

theorem pctRun_stop {cs : List Char} (h : tripletAt cs = false) (fuel : Nat) :
    pctRun fuel cs = ([], cs) := by
  cases fuel with
  | zero => rfl
  | succ f =>
    unfold pctRun
    split
    · rename_i h1 h2 rest
      simp only [tripletAt, Bool.and_eq_true] at h
      split
      · rename_i x y hx hy
        rw [hx, hy] at h
        simp at h
      · rfl
    · rfl

theorem pctRun_cons_triplet {x y : Nat} {h1 h2 : Char}
    (hx : hexDigitVal? h1 = some x) (hy : hexDigitVal? h2 = some y)
    (fuel : Nat) (rest : List Char) {bs : List Nat} {r : List Char}
    (hrec : pctRun fuel rest = (bs, r)) :
    pctRun (fuel + 1) ('%' :: h1 :: h2 :: rest) = ((x * 16 + y) :: bs, r) := by
  unfold pctRun
  split
  · rename_i a b rest2 heq
    injection heq with e0 heq; injection heq with e1 heq; injection heq with e2 e3
    subst e1; subst e2; subst e3
    rw [hx, hy, hrec]
  · rename_i hno
    exact absurd rfl (hno h1 h2 rest)

theorem pctRun_triplets (bs : List Nat) (rest : List Char) (fuel : Nat)
    (hbs : ∀ b ∈ bs, b < 256) (hrest : tripletAt rest = false)
    (hf : bs.length ≤ fuel) :
    pctRun fuel (encTriplets bs ++ rest) = (bs, rest) := by
  induction bs generalizing fuel with
  | nil => simpa [encTriplets] using pctRun_stop hrest fuel
  | cons b tl ih =>
    have hb : b < 256 := hbs b (by simp)
    match fuel, hf with
    | fuel + 1, hf =>
      rw [show encTriplets (b :: tl) ++ rest =
        '%' :: hexUpperOfNat (b / 16 % 16) :: hexUpperOfNat (b % 16) ::
          (encTriplets tl ++ rest) from by simp [encTriplets]]
      rw [pctRun_cons_triplet (hexDigitVal_hexUpper (by omega))
        (hexDigitVal_hexUpper (by omega)) fuel (encTriplets tl ++ rest)
        (ih fuel (fun x hx => hbs x (by simp [hx])) (by simpa using hf))]
      congr 2
      omega

theorem pctEncode_eq (s : String) : pctEncode s = pctEncodeChars s.toList := by
  unfold pctEncode utf8Encode pctEncodeChars
  rw [show (fun b => if isAlwaysSafeByte b then [Char.ofNat b]
    else ['%', hexUpperOfNat (b / 16 % 16), hexUpperOfNat (b % 16)]) = pctByte from
    rfl]
  exact List.flatMap_assoc s.toList utf8EncodeChar pctByte

theorem safeChar_enc {c : Char} (h : safeChar c = true) :
    (utf8EncodeChar c).flatMap pctByte = [c] := by
  have h' : isAlwaysSafeByte c.toNat = true := h
  have hlt : c.toNat < 0x80 := alwaysSafe_lt h'
  simp only [utf8EncodeChar]
  rw [if_pos hlt]
  simp only [List.flatMap_cons, List.flatMap_nil, List.append_nil, pctByte, if_pos h']
  rw [Char.ofNat_toNat]

theorem unsafe_flatMap_pctByte {bs : List Nat}
    (h : ∀ b ∈ bs, isAlwaysSafeByte b = false) :
    bs.flatMap pctByte = encTriplets bs := by
  induction bs with
  | nil => rfl
  | cons b tl ih =>
    have hb : isAlwaysSafeByte b = false := h b (by simp)
    have htl := ih fun x hx => h x (by simp [hx])
    simp only [encTriplets] at htl ⊢
    simp [List.flatMap_cons, pctByte, hb, htl]

theorem unsafeChar_enc {c : Char} (h : safeChar c = false) :
    (utf8EncodeChar c).flatMap pctByte = encTriplets (utf8EncodeChar c) :=
  unsafe_flatMap_pctByte (utf8_bytes_notSafe h)

theorem pctEncodeChars_unsafe_block {B : List Char}
    (h : ∀ c ∈ B, safeChar c = false) :
    pctEncodeChars B = encTriplets (B.flatMap utf8EncodeChar) := by
  induction B with
  | nil => rfl
  | cons c tl ih =>
    have h1 := unsafeChar_enc (h c (by simp))
    have h2 := ih fun x hx => h x (by simp [hx])
    simp only [pctEncodeChars, List.flatMap_cons] at h2 ⊢
    rw [h1, h2]
    simp [encTriplets, List.flatMap_append]

theorem tripletAt_cons_ne {c : Char} (l : List Char) (h : c ≠ '%') :
    tripletAt (c :: l) = false := by
  unfold tripletAt
  split
  · rename_i heq
    injection heq with e _
    exact absurd e h
  · rfl

theorem safeChar_ne_pct {c : Char} (h : safeChar c = true) : c ≠ '%' := by
  intro e
  have h' : isAlwaysSafeByte c.toNat = true := h
  rw [e] at h'
  exact absurd h' (by decide)

theorem tripletAt_pctEncodeChars {cs : List Char}
    (h : ∀ c, cs.head? = some c → safeChar c = true) :
    tripletAt (pctEncodeChars cs) = false := by
  cases cs with
  | nil => rfl
  | cons c tl =>
    have hc : safeChar c = true := h c rfl
    rw [show pctEncodeChars (c :: tl) = c :: pctEncodeChars tl from by
      simp only [pctEncodeChars, List.flatMap_cons, safeChar_enc hc,
        List.singleton_append]]
    exact tripletAt_cons_ne _ (safeChar_ne_pct hc)

theorem unquoteGo_cons_ne {c : Char} (h : c ≠ '%') (fuel : Nat) (rest : List Char) :
    unquoteGo (fuel + 1) (c :: rest) = c :: unquoteGo fuel rest := by
  conv_lhs => unfold unquoteGo
  split
  · rename_i heq
    exact absurd heq (Nat.succ_ne_zero fuel)
  · rename_i heq1 heq2
    exact absurd heq2 (List.cons_ne_nil c rest)
  · rename_i heq1 heq2
    injection heq2 with e1 e2
    exact absurd e1 h
  · rename_i heq1 heq2
    injection heq1 with e0
    injection heq2 with e1 e2
    subst e0; subst e1; subst e2
    rfl

theorem unquoteGo_pct (fuel : Nat) (w : List Char) {bs : List Nat} {b0 : Nat}
    {btl : List Nat} {r : List Char}
    (hrun : pctRun (w.length + 1) ('%' :: w) = (bs, r)) (hbs : bs = b0 :: btl) :
    unquoteGo (fuel + 1) ('%' :: w) = utf8DecodeIgnore bs ++ unquoteGo fuel r := by
  rw [show unquoteGo (fuel + 1) ('%' :: w) =
    (match pctRun (w.length + 1) ('%' :: w) with
     | ([], _) => '%' :: unquoteGo fuel w
     | (b :: bs, r) => utf8DecodeIgnore (b :: bs) ++ unquoteGo fuel r) from rfl]
  rw [hrun, hbs]

theorem encTriplets_length (bs : List Nat) :
    (encTriplets bs).length = 3 * bs.length := by
  induction bs with
  | nil => rfl
  | cons b tl ih =>
    simp only [encTriplets, List.flatMap_cons, List.length_append, List.length_cons,
      List.length_nil] at ih ⊢
    omega

theorem takeWhile_mem {p : Char → Bool} :
    ∀ {l : List Char}, ∀ c ∈ l.takeWhile p, p c = true := by
  intro l
  induction l with
  | nil => intro c hc; simp at hc
  | cons a tl ih =>
    intro c hc
    by_cases ha : p a
    · rw [List.takeWhile_cons_of_pos ha] at hc
      rcases List.mem_cons.mp hc with rfl | hc
      · exact ha
      · exact ih c hc
    · rw [List.takeWhile_cons_of_neg ha] at hc
      simp at hc

/-- Round trip of `quote`/`unquote`: the key fact behind the carried-tag
invariant. -/
theorem unquoteGo_pctEncodeChars :
    ∀ n cs fuel, cs.length ≤ n → (pctEncodeChars cs).length ≤ fuel →
      unquoteGo fuel (pctEncodeChars cs) = cs := by
  intro n
  induction n with
  | zero =>
    intro cs fuel hn _
    have hnil : cs = [] := List.length_eq_zero.mp (Nat.le_zero.mp hn)
    subst hnil
    cases fuel <;> rfl
  | succ n ih =>
    intro cs fuel hn hf
    match cs, hn with
    | [], _ => cases fuel <;> rfl
    | c :: tl, hn =>
      by_cases hsafe : safeChar c = true
      · have henc : pctEncodeChars (c :: tl) = c :: pctEncodeChars tl := by
          simp only [pctEncodeChars, List.flatMap_cons, safeChar_enc hsafe,
            List.singleton_append]
        rw [henc] at hf ⊢
        match fuel, hf with
        | 0, hf => simp at hf
        | fuel + 1, hf =>
          rw [unquoteGo_cons_ne (safeChar_ne_pct hsafe) fuel _]
          rw [ih tl fuel (by simpa using hn) (by simpa using hf)]
      · have hsf : safeChar c = false := by
          cases hx : safeChar c with
          | false => rfl
          | true => exact absurd hx hsafe
        have hdecomp := List.takeWhile_append_dropWhile
          (p := fun x => !safeChar x) (l := c :: tl)
        set B := (c :: tl).takeWhile (fun x => !safeChar x) with hB
        set R := (c :: tl).dropWhile (fun x => !safeChar x) with hR
        have hBcons : B = c :: tl.takeWhile (fun x => !safeChar x) := by
          rw [hB, List.takeWhile_cons_of_pos (by simp [hsf])]
        have hBunsafe : ∀ x ∈ B, safeChar x = false := by
          intro x hx
          have := takeWhile_mem x hx
          simpa using this
        have hRhead : ∀ x, R.head? = some x → safeChar x = true := by
          intro x hx
          have h0 := List.head?_dropWhile_not (fun x => !safeChar x) (c :: tl)
          rw [← hR, hx] at h0
          simpa using h0
        have henc : pctEncodeChars (c :: tl) =
            encTriplets (B.flatMap utf8EncodeChar) ++ pctEncodeChars R := by
          conv_lhs => rw [← hdecomp]
          rw [show pctEncodeChars (B ++ R) = pctEncodeChars B ++ pctEncodeChars R from by
            simp [pctEncodeChars]]
          rw [pctEncodeChars_unsafe_block hBunsafe]
        -- the byte block is nonempty
        obtain ⟨b0, btl, hbytes⟩ : ∃ b0 btl,
            B.flatMap utf8EncodeChar = b0 :: btl := by
          rw [hBcons, List.flatMap_cons]
          cases he : utf8EncodeChar c with
          | nil => exact absurd he (utf8EncodeChar_ne_nil c)
          | cons x xs =>
            exact ⟨x, xs ++ (List.takeWhile (fun y => !safeChar y)
              tl).flatMap utf8EncodeChar, by simp⟩
        have hlt : ∀ b ∈ B.flatMap utf8EncodeChar, b < 256 := by
          intro b hb
          rcases List.mem_flatMap.mp hb with ⟨x, _, hxb⟩
          exact utf8EncodeChar_lt x b hxb
        have htrip : tripletAt (pctEncodeChars R) = false :=
          tripletAt_pctEncodeChars hRhead
        -- shape of the encoded list
        have hshape : encTriplets (B.flatMap utf8EncodeChar) ++ pctEncodeChars R =
            '%' :: (hexUpperOfNat (b0 / 16 % 16) :: hexUpperOfNat (b0 % 16) ::
              (encTriplets btl ++ pctEncodeChars R)) := by
          rw [hbytes]
          simp only [encTriplets, List.flatMap_cons, List.cons_append,
            List.nil_append, List.append_assoc]
        rw [henc, hshape]
        set w := hexUpperOfNat (b0 / 16 % 16) :: hexUpperOfNat (b0 % 16) ::
          (encTriplets btl ++ pctEncodeChars R) with hw
        have hwlen : ('%' :: w).length = 3 * (b0 :: btl).length +
            (pctEncodeChars R).length := by
          rw [show ('%' : Char) :: w =
            encTriplets (b0 :: btl) ++ pctEncodeChars R from by
            rw [← hshape, hbytes]]
          rw [List.length_append, encTriplets_length]
        have hrun : pctRun (w.length + 1) ('%' :: w) =
            (b0 :: btl, pctEncodeChars R) := by
          rw [show ('%' : Char) :: w =
            encTriplets (b0 :: btl) ++ pctEncodeChars R from by
            rw [← hshape, hbytes]]
          apply pctRun_triplets
          · rw [← hbytes]; exact hlt
          · exact htrip
          · have := hwlen
            simp only [List.length_cons] at this ⊢
            omega
        match fuel, hf with
        | 0, hf =>
          rw [henc, hshape] at hf
          simp at hf
        | fuel + 1, hf =>
          rw [unquoteGo_pct fuel w hrun rfl]
          rw [← hbytes]
          rw [show utf8DecodeIgnore (B.flatMap utf8EncodeChar) = B from
            utf8DecodeGo_encode B _ le_rfl]
          have hRlen : R.length ≤ n := by
            have h1 : B.length + R.length = (c :: tl).length := by
              rw [← List.length_append, hdecomp]
            have h2 : 1 ≤ B.length := by rw [hBcons]; simp
            have hn' : tl.length + 1 ≤ n + 1 := by simpa using hn
            simp only [List.length_cons] at h1
            omega
          have hfR : (pctEncodeChars R).length ≤ fuel := by
            have h1 : ('%' :: w).length ≤ fuel + 1 := by
              rw [henc, hshape] at hf
              exact hf
            rw [hwlen] at h1
            simp only [List.length_cons] at h1
            omega
          rw [ih R fuel hRlen hfR]
          conv_rhs => rw [← hdecomp]

/-- `unquote (quote s) = s` for every string. -/
theorem unquote_pctEncode (s : String) :
    unquote ⟨pctEncode s⟩ = s := by
  unfold unquote
  rw [show (String.mk (pctEncode s)).toList = pctEncode s from rfl]
  rw [pctEncode_eq]
  rw [show (String.mk (pctEncodeChars s.toList)).length
      = (pctEncodeChars s.toList).length from rfl]
  rw [unquoteGo_pctEncodeChars s.toList.length s.toList _ le_rfl le_rfl]
  cases s with | mk l => rfl

/-! ### Decimal printing round trip -/

theorem char_digit_isDigit {d : Nat} (h : d < 10) :
    (Char.ofNat ('0'.toNat + d)).isDigit = true := by
  have h10 : ∀ x : Fin 10, (Char.ofNat ('0'.toNat + x.val)).isDigit = true := by decide
  exact h10 ⟨d, h⟩

theorem char_digit_toNat {d : Nat} (h : d < 10) :
    (Char.ofNat ('0'.toNat + d)).toNat = '0'.toNat + d := by
  have h10 : ∀ x : Fin 10, (Char.ofNat ('0'.toNat + x.val)).toNat = '0'.toNat + x.val := by
    decide
  exact h10 ⟨d, h⟩

theorem char_digit_ne_dash {d : Nat} (h : d < 10) :
    Char.ofNat ('0'.toNat + d) ≠ '-' := by
  have h10 : ∀ x : Fin 10, Char.ofNat ('0'.toNat + x.val) ≠ '-' := by decide
  exact h10 ⟨d, h⟩

theorem char_digit_ne_zero {d : Nat} (h1 : 1 ≤ d) (h2 : d < 10) :
    Char.ofNat ('0'.toNat + d) ≠ '0' := by
  have h10 : ∀ x : Fin 10, 1 ≤ x.val → Char.ofNat ('0'.toNat + x.val) ≠ '0' := by decide
  exact h10 ⟨d, h2⟩ h1

theorem natDecimalGo_digits (fuel : Nat) :
    ∀ n, ∀ c ∈ natDecimalGo fuel n, c.isDigit = true := by
  induction fuel with
  | zero => intro n c hc; simp [natDecimalGo] at hc
  | succ fuel ih =>
    intro n c hc
    unfold natDecimalGo at hc
    split at hc
    · simp at hc; subst hc; exact char_digit_isDigit (by omega)
    · rw [List.mem_append] at hc
      rcases hc with hc | hc
      · exact ih _ c hc
      · simp at hc; subst hc; exact char_digit_isDigit (by omega)

theorem natDecimalGo_foldl (fuel : Nat) :
    ∀ n a, n < 10 ^ fuel →
      (natDecimalGo fuel n).foldl (fun acc c => acc * 10 + (c.toNat - '0'.toNat)) a =
        a * 10 ^ (natDecimalGo fuel n).length + n := by
  induction fuel with
  | zero =>
    intro n a h
    have : n = 0 := by simpa using Nat.lt_one_iff.mp h
    subst this
    simp [natDecimalGo]
  | succ fuel ih =>
    intro n a h
    by_cases hn : n < 10
    · rw [show natDecimalGo (fuel + 1) n = [Char.ofNat ('0'.toNat + n)] from by
        unfold natDecimalGo; rw [if_pos hn]]
      simp only [List.foldl_cons, List.foldl_nil, List.length_cons, List.length_nil,
        char_digit_toNat hn]
      have : '0'.toNat + n - '0'.toNat = n := by omega
      rw [this]
      ring
    · rw [show natDecimalGo (fuel + 1) n =
        natDecimalGo fuel (n / 10) ++ [Char.ofNat ('0'.toNat + n % 10)] from by
        conv_lhs => unfold natDecimalGo
        rw [if_neg hn]]
      have hdiv : n / 10 < 10 ^ fuel := by
        have h1 : 10 ^ (fuel + 1) = 10 ^ fuel * 10 := by ring
        rw [h1] at h
        omega
      rw [List.foldl_append, ih (n / 10) a hdiv]
      simp only [List.foldl_cons, List.foldl_nil, List.length_append, List.length_cons,
        List.length_nil, char_digit_toNat (show n % 10 < 10 by omega)]
      have h2 : '0'.toNat + n % 10 - '0'.toNat = n % 10 := by omega
      rw [h2]
      have h3 : 10 ^ ((natDecimalGo fuel (n / 10)).length + (0 + 1)) =
          10 ^ (natDecimalGo fuel (n / 10)).length * 10 := by ring
      rw [h3]
      have h4 : n / 10 * 10 + n % 10 = n := by omega
      calc (a * 10 ^ (natDecimalGo fuel (n / 10)).length + n / 10) * 10 + n % 10
          = a * 10 ^ (natDecimalGo fuel (n / 10)).length * 10 + (n / 10 * 10 + n % 10) := by
            ring
        _ = a * (10 ^ (natDecimalGo fuel (n / 10)).length * 10) + n := by rw [h4]; ring

theorem nat_lt_ten_pow (n : Nat) : n < 10 ^ (n + 1) := by
  calc n < 2 ^ n := Nat.lt_two_pow n
    _ ≤ 10 ^ n := Nat.pow_le_pow_left (by omega) n
    _ ≤ 10 ^ (n + 1) := Nat.pow_le_pow_right (by omega) (by omega)

theorem natDecimal_foldl (n : Nat) :
    (natDecimal n).foldl (fun acc c => acc * 10 + (c.toNat - '0'.toNat)) 0 = n := by
  have h := natDecimalGo_foldl (n + 1) n 0 (nat_lt_ten_pow n)
  simpa [natDecimal] using h

theorem natDecimalGo_head_pos (fuel : Nat) :
    ∀ n, 1 ≤ n → n < 10 ^ fuel →
      ∃ d tl, 1 ≤ d ∧ d < 10 ∧
        natDecimalGo fuel n = Char.ofNat ('0'.toNat + d) :: tl := by
  induction fuel with
  | zero => intro n h1 h2; simp at h2; omega
  | succ fuel ih =>
    intro n h1 h2
    by_cases hn : n < 10
    · exact ⟨n, [], h1, hn, by unfold natDecimalGo; rw [if_pos hn]⟩
    · have hdiv : n / 10 < 10 ^ fuel := by
        have he : 10 ^ (fuel + 1) = 10 ^ fuel * 10 := by ring
        rw [he] at h2
        omega
      obtain ⟨d, tl, hd1, hd2, heq⟩ := ih (n / 10) (by omega) hdiv
      refine ⟨d, tl ++ [Char.ofNat ('0'.toNat + n % 10)], hd1, hd2, ?_⟩
      conv_lhs => unfold natDecimalGo
      rw [if_neg hn, heq]
      rfl

theorem natDecimal_shape (n : Nat) :
    ∃ d tl, d < 10 ∧ natDecimal n = Char.ofNat ('0'.toNat + d) :: tl := by
  by_cases hn : n < 10
  · exact ⟨n, [], hn, by unfold natDecimal natDecimalGo; rw [if_pos hn]⟩
  · obtain ⟨d, tl, _, hd2, heq⟩ :=
      natDecimalGo_head_pos (n + 1) n (by omega) (nat_lt_ten_pow n)
    exact ⟨d, tl, hd2, heq⟩

theorem natDecimal_ne_nil (n : Nat) : natDecimal n ≠ [] := by
  obtain ⟨d, tl, _, heq⟩ := natDecimal_shape n
  rw [heq]
  simp

theorem natDecimal_digits (n : Nat) : ∀ c ∈ natDecimal n, c.isDigit = true :=
  natDecimalGo_digits (n + 1) n

/-- Splitting a digit run followed by a non-digit continuation. -/
theorem scan_digits_append {l r : List Char}
    (hl : ∀ c ∈ l, c.isDigit = true)
    (hr : r = [] ∨ ∃ c cs, r = c :: cs ∧ c.isDigit = false) :
    (l ++ r).takeWhile Char.isDigit = l ∧ (l ++ r).dropWhile Char.isDigit = r := by
  induction l with
  | nil =>
    rcases hr with rfl | ⟨c, cs, rfl, hc⟩
    · simp
    · simp only [List.nil_append]
      constructor
      · rw [List.takeWhile_cons_of_neg (by simp [hc])]
      · rw [List.dropWhile_cons_of_neg (by simp [hc])]
  | cons c tl ih =>
    have hc : c.isDigit = true := hl c (by simp)
    obtain ⟨h1, h2⟩ := ih fun x hx => hl x (by simp [hx])
    constructor
    · rw [List.cons_append, List.takeWhile_cons_of_pos hc, h1]
    · rw [List.cons_append, List.dropWhile_cons_of_pos hc, h2]

theorem restOk_cases {rest : List Char} (h : restOk rest = true) :
    rest = [] ∨ ∃ c cs, rest = c :: cs ∧ c.isDigit = false := by
  cases rest with
  | nil => left; rfl
  | cons c cs =>
    right
    refine ⟨c, cs, rfl, ?_⟩
    simp only [restOk, Bool.not_eq_true'] at h
    exact h

theorem parseJsonNum_natDecimal (n : Nat) (rest : List Char) (hr : restOk rest = true) :
    parseJsonNum (natDecimal n ++ rest) = some ((n : Int), rest) := by
  obtain ⟨d, tl, hd, hshape⟩ := natDecimal_shape n
  obtain ⟨htake, hdrop⟩ := scan_digits_append (natDecimal_digits n) (restOk_cases hr)
  unfold parseJsonNum
  rw [hshape] at htake hdrop ⊢
  rw [show (match (Char.ofNat ('0'.toNat + d) :: tl) ++ rest with
    | '-' :: rest => (true, rest)
    | _ => (false, (Char.ofNat ('0'.toNat + d) :: tl) ++ rest)) =
      (false, (Char.ofNat ('0'.toNat + d) :: tl) ++ rest) from by
    split
    · rename_i heq
      rw [List.cons_append] at heq
      injection heq with e1 _
      exact absurd e1 (char_digit_ne_dash hd)
    · rfl]
  dsimp only
  rw [htake, hdrop]
  rw [if_neg (by simp)]
  rw [if_neg ?hlz]
  case hlz =>
    intro ⟨hlen, hhead⟩
    simp only [List.headD_cons] at hhead
    rcases Nat.lt_or_ge n 10 with hn | hn
    · have h1 : natDecimal n = [Char.ofNat ('0'.toNat + n)] := by
        unfold natDecimal natDecimalGo
        rw [if_pos hn]
      rw [hshape] at h1
      injection h1 with _ e2
      rw [e2] at hlen
      simp at hlen
    · obtain ⟨d2, tl2, hd21, hd22, heq2⟩ :=
        natDecimalGo_head_pos (n + 1) n (by omega) (nat_lt_ten_pow n)
      rw [show natDecimalGo (n + 1) n = natDecimal n from rfl, hshape] at heq2
      injection heq2 with e1 _
      rw [e1] at hhead
      exact char_digit_ne_zero hd21 hd22 hhead
  have hfold := natDecimal_foldl n
  rw [hshape] at hfold
  rw [hfold]
  simp

theorem parseJsonNum_neg (cs : List Char) :
    parseJsonNum ('-' :: cs) =
      (let digits := cs.takeWhile Char.isDigit
       let rest := cs.dropWhile Char.isDigit
       if digits = [] then none
       else if digits.length > 1 ∧ digits.headD '0' = '0' then none
       else some
         (-((digits.foldl (fun a c => a * 10 + (c.toNat - '0'.toNat)) 0 : Nat) : Int),
          rest)) := rfl

theorem parseJsonNum_intDecimal (i : Int) (rest : List Char) (hr : restOk rest = true) :
    parseJsonNum (intDecimal i ++ rest) = some (i, rest) := by
  by_cases hi : i < 0
  · unfold intDecimal
    rw [if_pos hi]
    obtain ⟨htake, hdrop⟩ :=
      scan_digits_append (natDecimal_digits i.natAbs) (restOk_cases hr)
    rw [List.cons_append, parseJsonNum_neg]
    dsimp only
    rw [htake, hdrop]
    rw [if_neg (natDecimal_ne_nil i.natAbs)]
    rw [if_neg ?hlz2]
    case hlz2 =>
      intro ⟨hlen, hhead⟩
      obtain ⟨d, tl, hd, hshape⟩ := natDecimal_shape i.natAbs
      rw [hshape] at hlen hhead
      simp only [List.headD_cons] at hhead
      rcases Nat.lt_or_ge i.natAbs 10 with hn | hn
      · have h1 : natDecimal i.natAbs = [Char.ofNat ('0'.toNat + i.natAbs)] := by
          unfold natDecimal natDecimalGo
          rw [if_pos hn]
        rw [hshape] at h1
        injection h1 with _ e2
        rw [e2] at hlen
        simp at hlen
      · obtain ⟨d2, tl2, hd21, hd22, heq2⟩ :=
          natDecimalGo_head_pos (i.natAbs + 1) i.natAbs (by omega) (nat_lt_ten_pow _)
        rw [show natDecimalGo (i.natAbs + 1) i.natAbs = natDecimal i.natAbs from rfl,
          hshape] at heq2
        injection heq2 with e1 _
        rw [e1] at hhead
        exact char_digit_ne_zero hd21 hd22 hhead
    rw [natDecimal_foldl i.natAbs]
    have hnegabs : -((i.natAbs : Nat) : Int) = i := by omega
    rw [hnegabs]
  · unfold intDecimal
    rw [if_neg hi]
    rw [parseJsonNum_natDecimal i.toNat rest hr]
    have h2 : ((i.toNat : Nat) : Int) = i := Int.toNat_of_nonneg (by omega)
    rw [h2]

/-! ### JSON string literal round trip -/

theorem hexCharOfNat_val {v : Nat} (h : v < 16) :
    hexDigitVal? (hexCharOfNat v) = some v := by
  have h16 : ∀ x : Fin 16, hexDigitVal? (hexCharOfNat x.val) = some x.val := by decide
  exact h16 ⟨v, h⟩

theorem parseStrBody_close (f : Nat) (X : List Char) :
    parseStrBody (f + 1) ('"' :: X) = some ([], X) := rfl

theorem parseStrBody_raw (f : Nat) (c : Char) (X : List Char)
    (h1 : c ≠ '"') (h2 : c ≠ '\\') (h3 : ¬c.toNat < 0x20) :
    parseStrBody (f + 1) (c :: X) =
      (parseStrBody f X).map fun p => (c :: p.1, p.2) := by
  conv_lhs => unfold parseStrBody
  rw [if_neg h1, if_neg h2, if_neg h3]

theorem parseStrBody_escape (f : Nat) (e d : Char) (X : List Char)
    (he : (if e = '"' then some '"' else if e = '\\' then some '\\'
           else if e = '/' then some '/' else if e = 'b' then some (Char.ofNat 8)
           else if e = 'f' then some (Char.ofNat 12) else if e = 'n' then some '\n'
           else if e = 'r' then some '\r' else if e = 't' then some '\t'
           else none) = some d) (hne : e ≠ 'u') :
    parseStrBody (f + 1) ('\\' :: e :: X) =
      (parseStrBody f X).map fun p => (d :: p.1, p.2) := by
  conv_lhs => unfold parseStrBody
  rw [if_neg (by decide), if_pos rfl]
  split
  · rename_i heq
    injection heq with e1 _
    exact absurd e1 hne
  · rename_i e2 cs1 heq
    injection heq with e1 e2eq
    subst e1
    subst e2eq
    rw [he]
  · rename_i heq
    cases heq

theorem parseStrBody_u (f : Nat) (h3 h4 : Char) (a b : Nat) (X : List Char)
    (ha : hexDigitVal? h3 = some a) (hb : hexDigitVal? h4 = some b)
    (hab : ((0 * 16 + 0) * 16 + a) * 16 + b < 0x20) :
    parseStrBody (f + 1) ('\\' :: 'u' :: '0' :: '0' :: h3 :: h4 :: X) =
      (parseStrBody f X).map
        fun p => (Char.ofNat (((0 * 16 + 0) * 16 + a) * 16 + b) :: p.1, p.2) := by
  conv_lhs => unfold parseStrBody
  rw [if_neg (by decide), if_pos rfl]
  split
  · rename_i heq
    injection heq with _ heq
    injection heq with e1 heq
    injection heq with e2 heq
    injection heq with e3 heq
    injection heq with e4 e5
    subst e1; subst e2; subst e3; subst e4; subst e5
    rw [show hexDigitVal? '0' = some 0 from by decide, ha, hb]
    dsimp only
    rw [if_neg (by omega)]
  · rename_i hno heq
    injection heq with he1 he2
    exact absurd (hno '0' '0' h3 h4 X he1.symm he2.symm) not_false
  · rename_i heq
    cases heq

theorem parseStrBody_quote :
    ∀ (l : List Char) (fuel : Nat) (rest : List Char), l.length < fuel →
      parseStrBody fuel (l.flatMap jsonEscapeChar ++ '"' :: rest) = some (l, rest) := by
  intro l
  induction l with
  | nil =>
    intro fuel rest hf
    match fuel, hf with
    | f + 1, _ =>
      rw [show ([] : List Char).flatMap jsonEscapeChar ++ '"' :: rest = '"' :: rest from
        rfl]
      exact parseStrBody_close f rest
  | cons c tl ih =>
    intro fuel rest hf
    match fuel, hf with
    | f + 1, hf =>
      have hfb : tl.length < f := by
        simp only [List.length_cons] at hf
        omega
      have hih := ih f rest hfb
      rw [show ((c :: tl).flatMap jsonEscapeChar ++ '"' :: rest) =
        jsonEscapeChar c ++ (tl.flatMap jsonEscapeChar ++ '"' :: rest) from by
        simp [List.flatMap_cons]]
      set X := tl.flatMap jsonEscapeChar ++ '"' :: rest with hX
      unfold jsonEscapeChar
      by_cases h1 : c = '"'
      · rw [if_pos h1, show (['\\', '"'] : List Char) ++ X = '\\' :: '"' :: X from rfl,
          parseStrBody_escape f '"' '"' X (by decide) (by decide), hih]
        rw [h1]
        rfl
      rw [if_neg h1]
      by_cases h2 : c = '\\'
      · rw [if_pos h2, show (['\\', '\\'] : List Char) ++ X = '\\' :: '\\' :: X from rfl,
          parseStrBody_escape f '\\' '\\' X (by decide) (by decide), hih]
        rw [h2]
        rfl
      rw [if_neg h2]
      by_cases h3 : c = '\n'
      · rw [if_pos h3, show (['\\', 'n'] : List Char) ++ X = '\\' :: 'n' :: X from rfl,
          parseStrBody_escape f 'n' '\n' X (by decide) (by decide), hih]
        rw [h3]
        rfl
      rw [if_neg h3]
      by_cases h4 : c = '\t'
      · rw [if_pos h4, show (['\\', 't'] : List Char) ++ X = '\\' :: 't' :: X from rfl,
          parseStrBody_escape f 't' '\t' X (by decide) (by decide), hih]
        rw [h4]
        rfl
      rw [if_neg h4]
      by_cases h5 : c = '\r'
      · rw [if_pos h5, show (['\\', 'r'] : List Char) ++ X = '\\' :: 'r' :: X from rfl,
          parseStrBody_escape f 'r' '\r' X (by decide) (by decide), hih]
        rw [h5]
        rfl
      rw [if_neg h5]
      by_cases h6 : c.toNat = 8
      · rw [if_pos h6, show (['\\', 'b'] : List Char) ++ X = '\\' :: 'b' :: X from rfl,
          parseStrBody_escape f 'b' (Char.ofNat 8) X (by decide) (by decide), hih]
        have : Char.ofNat 8 = c := by
          rw [← h6]
          exact Char.ofNat_toNat c
        rw [this]
        rfl
      rw [if_neg h6]
      by_cases h7 : c.toNat = 12
      · rw [if_pos h7, show (['\\', 'f'] : List Char) ++ X = '\\' :: 'f' :: X from rfl,
          parseStrBody_escape f 'f' (Char.ofNat 12) X (by decide) (by decide), hih]
        have : Char.ofNat 12 = c := by
          rw [← h7]
          exact Char.ofNat_toNat c
        rw [this]
        rfl
      rw [if_neg h7]
      by_cases h8 : c.toNat < 0x20
      · rw [if_pos h8]
        rw [show (['\\', 'u', '0', '0', hexCharOfNat (c.toNat / 16),
          hexCharOfNat (c.toNat % 16)] : List Char) ++ X =
            '\\' :: 'u' :: '0' :: '0' :: hexCharOfNat (c.toNat / 16) ::
              hexCharOfNat (c.toNat % 16) :: X from rfl]
        rw [parseStrBody_u f _ _ (c.toNat / 16) (c.toNat % 16) X
          (hexCharOfNat_val (by omega)) (hexCharOfNat_val (by omega)) (by omega)]
        rw [hih]
        have harg : ((0 * 16 + 0) * 16 + c.toNat / 16) * 16 + c.toNat % 16 = c.toNat := by
          omega
        rw [harg, Char.ofNat_toNat c]
        rfl
      rw [if_neg h8]
      rw [show ([c] : List Char) ++ X = c :: X from rfl]
      rw [parseStrBody_raw f c X h1 h2 h8, hih]
      rfl

/-! ### JSON print/parse round trip -/

theorem strEta (s : String) : (⟨s.toList⟩ : String) = s := by
  cases s with | mk l => rfl

theorem jsonSkipWs_cons {c : Char} (h : jsonWs c = false) (l : List Char) :
    jsonSkipWs (c :: l) = c :: l := by
  unfold jsonSkipWs
  rw [List.dropWhile_cons_of_neg (by simp [h])]

theorem jsonEscapeChar_ne_nil (c : Char) : jsonEscapeChar c ≠ [] := by
  unfold jsonEscapeChar
  repeat' split
  all_goals simp

theorem flatMap_escape_len (l : List Char) :
    l.length ≤ (l.flatMap jsonEscapeChar).length := by
  induction l with
  | nil => simp
  | cons c tl ih =>
    rw [List.flatMap_cons, List.length_append, List.length_cons]
    have h1 : 1 ≤ (jsonEscapeChar c).length := by
      cases he : jsonEscapeChar c with
      | nil => exact absurd he (jsonEscapeChar_ne_nil c)
      | cons a b => simp
    omega

theorem sizeJ_pos (v : Json) : 1 ≤ sizeJ v := by
  cases v <;> simp [sizeJ]

theorem memJL_size {x : Json} : ∀ {xs : JsonList}, memJL x xs → sizeJ x < sizeJL xs
  | .nil, h => h.elim
  | .cons y t, h => by
    rcases (show x = y ∨ memJL x t from h) with rfl | h
    · simp [sizeJL]; omega
    · have := memJL_size h
      simp [sizeJL]
      omega

theorem memJKv_size {x : Json} : ∀ {kvs : JsonKVs},
    memJKv x kvs → sizeJ x < sizeJK kvs
  | .nil, h => h.elim
  | .cons k v t, h => by
    rcases (show x = v ∨ memJKv x t from h) with rfl | h
    · simp [sizeJK]; omega
    · have := memJKv_size h
      simp [sizeJK]
      omega

theorem printJson_shape (v : Json) :
    ∃ c tl, printJson v = c :: tl ∧ jsonWs c = false ∧ c ≠ ']' := by
  cases v with
  | null => exact ⟨'n', _, rfl, by decide, by decide⟩
  | bool b =>
    cases b with
    | false => exact ⟨'f', _, rfl, by decide, by decide⟩
    | true => exact ⟨'t', _, rfl, by decide, by decide⟩
  | num i =>
    by_cases hi : i < 0
    · refine ⟨'-', natDecimal i.natAbs, ?_, by decide, by decide⟩
      unfold printJson intDecimal
      rw [if_pos hi]
    · obtain ⟨d, tl, hd, hshape⟩ := natDecimal_shape i.toNat
      refine ⟨Char.ofNat ('0'.toNat + d), tl, ?_, ?_, ?_⟩
      · unfold printJson intDecimal
        rw [if_neg hi, hshape]
      · have h10 : ∀ x : Fin 10, jsonWs (Char.ofNat ('0'.toNat + x.val)) = false := by
          decide
        exact h10 ⟨d, hd⟩
      · have h10 : ∀ x : Fin 10, Char.ofNat ('0'.toNat + x.val) ≠ ']' := by decide
        exact h10 ⟨d, hd⟩
  | str s => exact ⟨'"', _, rfl, by decide, by decide⟩
  | arr xs => exact ⟨'[', _, rfl, by decide, by decide⟩
  | obj kvs => exact ⟨Char.ofNat 0x7b, _, rfl, by decide, by decide⟩

theorem jsonArrLoop_print (pv : List Char → Option (Json × List Char)) :
    ∀ (xs : JsonList) (fuelL : Nat) (rest : List Char),
      xs ≠ .nil → sizeJL xs ≤ fuelL →
      (∀ x, memJL x xs → ∀ s, restOk s = true → pv (printJson x ++ s) = some (x, s)) →
      jsonArrLoop pv fuelL (printJsonList xs ++ ']' :: rest) = some (xs, rest)
  | .nil, _, _, hne, _, _ => absurd rfl hne
  | .cons x tail, fuelL, rest, _, hsz, hpv => by
    have h1 : 1 ≤ fuelL := by
      simp only [sizeJL] at hsz
      have := sizeJ_pos x
      omega
    match fuelL, h1 with
    | f + 1, _ =>
      cases tail with
      | nil =>
        rw [show printJsonList (.cons x .nil) = printJson x from rfl]
        conv_lhs => unfold jsonArrLoop
        rw [hpv x (Or.inl rfl) (']' :: rest) (by rfl)]
        dsimp only
        rw [jsonSkipWs_cons (by decide)]
        rfl
      | cons y t2 =>
        rw [show printJsonList (.cons x (.cons y t2)) ++ ']' :: rest =
          printJson x ++ (',' :: (printJsonList (.cons y t2) ++ ']' :: rest)) from by
          rw [show printJsonList (.cons x (.cons y t2)) =
            printJson x ++ ',' :: printJsonList (.cons y t2) from rfl]
          simp]
        conv_lhs => unfold jsonArrLoop
        rw [hpv x (Or.inl rfl) _ (by rfl)]
        dsimp only
        rw [jsonSkipWs_cons (by decide)]
        have hrec := jsonArrLoop_print pv (.cons y t2) f rest (by intro h; cases h)
          (by
            simp only [sizeJL] at hsz ⊢
            have := sizeJ_pos x
            omega)
          (fun z hz s hs => hpv z (Or.inr hz) s hs)
        show (match jsonArrLoop pv f (printJsonList (.cons y t2) ++ ']' :: rest) with
          | some (tail, r) => some (JsonList.cons x tail, r)
          | none => none) = some (.cons x (.cons y t2), rest)
        rw [hrec]

theorem kvAppend_nil : ∀ (a : JsonKVs), kvAppend a .nil = a
  | .nil => rfl
  | .cons k v t => by
    rw [show kvAppend (.cons k v t) .nil = .cons k v (kvAppend t .nil) from rfl,
      kvAppend_nil t]

theorem kvAppend_assoc : ∀ (a b c : JsonKVs),
    kvAppend (kvAppend a b) c = kvAppend a (kvAppend b c)
  | .nil, _, _ => rfl
  | .cons k v t, b, c => by
    rw [show kvAppend (.cons k v t) b = .cons k v (kvAppend t b) from rfl]
    rw [show kvAppend (.cons k v (kvAppend t b)) c =
      .cons k v (kvAppend (kvAppend t b) c) from rfl]
    rw [kvAppend_assoc t b c]
    rfl

theorem kvsHasKey_append : ∀ (a b : JsonKVs) (key : String),
    kvsHasKey (kvAppend a b) key = (kvsHasKey a key || kvsHasKey b key)
  | .nil, b, key => rfl
  | .cons k v t, b, key => by
    simp only [kvAppend, kvsHasKey, kvsHasKey_append t b key, Bool.or_assoc]

theorem kvStore_not_mem : ∀ (a : JsonKVs) (k : String) (v : Json),
    kvsHasKey a k = false → kvStore a k v = kvAppend a (.cons k v .nil)
  | .nil, k, v, _ => rfl
  | .cons k2 w t, k, v, h => by
    simp only [kvsHasKey, Bool.or_eq_false_iff, decide_eq_false_iff_not] at h
    rw [show kvStore (.cons k2 w t) k v =
      if k2 = k then .cons k2 v t else .cons k2 w (kvStore t k v) from rfl]
    rw [if_neg h.1, kvStore_not_mem t k v h.2]
    rfl

theorem kvFoldStore_append : ∀ (kvs acc : JsonKVs),
    wfJsonKVs kvs = true →
    (∀ k, kvsHasKey kvs k = true → kvsHasKey acc k = false) →
    kvFoldStore acc kvs = kvAppend acc kvs
  | .nil, acc, _, _ => (kvAppend_nil acc).symm
  | .cons k v t, acc, hwf, hdis => by
    rw [show kvFoldStore acc (.cons k v t) = kvFoldStore (kvStore acc k v) t from rfl]
    simp only [wfJsonKVs, Bool.and_eq_true, Bool.not_eq_true'] at hwf
    obtain ⟨⟨hnk, hv⟩, ht⟩ := hwf
    have hk : kvsHasKey acc k = false := hdis k (by simp [kvsHasKey])
    rw [kvStore_not_mem acc k v hk]
    rw [kvFoldStore_append t _ ht ?hdis2]
    case hdis2 =>
      intro k2 hk2
      rw [kvsHasKey_append]
      have hd1 : kvsHasKey acc k2 = false := by
        apply hdis k2
        simp [kvsHasKey, hk2]
      have hd2 : k ≠ k2 := by
        intro he
        rw [he] at hnk
        rw [hnk] at hk2
        cases hk2
      simp [hd1, kvsHasKey, hd2]
    rw [kvAppend_assoc]
    rfl

theorem kvFoldStore_of_nil {kvs : JsonKVs} (h : wfJsonKVs kvs = true) :
    kvFoldStore .nil kvs = kvs := by
  rw [kvFoldStore_append kvs .nil h (fun k _ => rfl)]
  rfl

theorem kvLookup_store_self : ∀ (a : JsonKVs) (k : String) (v : Json),
    kvLookup (kvStore a k v) k = some v
  | .nil, k, v => by simp [kvStore, kvLookup]
  | .cons k2 w t, k, v => by
    by_cases h : k2 = k
    · subst h
      simp [kvStore, kvLookup]
    · simp [kvStore, kvLookup, h, kvLookup_store_self t k v]

theorem kvsHasKey_store : ∀ (a : JsonKVs) (k : String) (v : Json) (key : String),
    kvsHasKey (kvStore a k v) key = (kvsHasKey a key || decide (k = key))
  | .nil, k, v, key => by simp [kvStore, kvsHasKey]
  | .cons k2 w t, k, v, key => by
    by_cases h : k2 = k
    · subst h
      simp only [kvStore, if_pos rfl, kvsHasKey]
      cases hd : decide (k2 = key) <;> simp [hd]
    · simp only [kvStore, if_neg h, kvsHasKey, kvsHasKey_store t k v key, Bool.or_assoc]

theorem kvStore_wf : ∀ (a : JsonKVs) (k : String) (v : Json),
    wfJsonKVs a = true → wfJson v = true → wfJsonKVs (kvStore a k v) = true
  | .nil, k, v, _, hv => by simp [kvStore, wfJsonKVs, kvsHasKey, hv]
  | .cons k2 w t, k, v, ha, hv => by
    simp only [wfJsonKVs, Bool.and_eq_true, Bool.not_eq_true'] at ha
    obtain ⟨⟨hn, hw⟩, ht⟩ := ha
    by_cases h : k2 = k
    · subst h
      simp only [kvStore, if_pos rfl, wfJsonKVs, Bool.and_eq_true, Bool.not_eq_true']
      exact ⟨⟨hn, hv⟩, ht⟩
    · simp only [kvStore, if_neg h]
      simp only [wfJsonKVs, Bool.and_eq_true, Bool.not_eq_true']
      refine ⟨⟨?_, hw⟩, kvStore_wf t k v ht hv⟩
      rw [kvsHasKey_store]
      have h2 : decide (k = k2) = false := by
        simp
        exact fun he => h he.symm
      simp [hn, h2]

theorem jsonObjLoop_print (pv : List Char → Option (Json × List Char)) :
    ∀ (kvs : JsonKVs) (fuelL : Nat) (rest : List Char) (acc : JsonKVs),
      kvs ≠ .nil → sizeJK kvs ≤ fuelL →
      (∀ v, memJKv v kvs → ∀ s, restOk s = true → pv (printJson v ++ s) = some (v, s)) →
      jsonObjLoop pv fuelL (printJsonKVs kvs ++ Char.ofNat 0x7d :: rest) acc =
        some (kvFoldStore acc kvs, rest)
  | .nil, _, _, _, hne, _, _ => absurd rfl hne
  | .cons k v t, fuelL, rest, acc, _, hsz, hpv => by
    have h1 : 1 ≤ fuelL := by
      simp only [sizeJK] at hsz
      have := sizeJ_pos v
      omega
    match fuelL, h1 with
    | f + 1, _ =>
      cases t with
      | nil =>
        set P := printJson v ++ Char.ofNat 0x7d :: rest with hP
        set Y := k.toList.flatMap jsonEscapeChar ++ '"' :: (':' :: P) with hY
        have hcs : printJsonKVs (.cons k v .nil) ++ Char.ofNat 0x7d :: rest =
            '"' :: Y := by
          rw [show printJsonKVs (.cons k v .nil) =
            jsonQuote k ++ ':' :: printJson v from rfl]
          rw [hY, hP]
          simp [jsonQuote]
        rw [hcs]
        show (match parseStrBody (Y.length + 1) Y with
          | some (kChars, cs2) =>
            (match jsonSkipWs cs2 with
             | ':' :: cs3 =>
               (match pv cs3 with
                | some (v2, cs4) =>
                  (match jsonSkipWs cs4 with
                   | ',' :: cs5 => jsonObjLoop pv f cs5 (kvStore acc ⟨kChars⟩ v2)
                   | c :: cs5 =>
                     if c = Char.ofNat 0x7d then some (kvStore acc ⟨kChars⟩ v2, cs5)
                     else none
                   | [] => none)
                | none => none)
             | _ => none)
          | none => none) = some (kvFoldStore acc (.cons k v .nil), rest)
        rw [show parseStrBody (Y.length + 1) Y = some (k.toList, ':' :: P) from by
          rw [hY]
          apply parseStrBody_quote k.toList _ (':' :: P)
          have := flatMap_escape_len k.toList
          simp only [List.length_append, List.length_cons]
          omega]
        show (match pv P with
          | some (v2, cs4) =>
            (match jsonSkipWs cs4 with
             | ',' :: cs5 => jsonObjLoop pv f cs5 (kvStore acc k v2)
             | c :: cs5 =>
               if c = Char.ofNat 0x7d then some (kvStore acc k v2, cs5)
               else none
             | [] => none)
          | none => none) = some (kvFoldStore acc (.cons k v .nil), rest)
        rw [hP, hpv v (Or.inl rfl) _ (by rfl)]
        rfl
      | cons k2 v2 t2 =>
        set Q := printJsonKVs (.cons k2 v2 t2) ++ Char.ofNat 0x7d :: rest with hQ
        set P := printJson v ++ ',' :: Q with hP
        set Y := k.toList.flatMap jsonEscapeChar ++ '"' :: (':' :: P) with hY
        have hcs : printJsonKVs (.cons k v (.cons k2 v2 t2)) ++
            Char.ofNat 0x7d :: rest = '"' :: Y := by
          rw [show printJsonKVs (.cons k v (.cons k2 v2 t2)) =
            jsonQuote k ++ ':' :: printJson v ++ ',' ::
              printJsonKVs (.cons k2 v2 t2) from rfl]
          rw [hY, hP, hQ]
          simp [jsonQuote]
        rw [hcs]
        show (match parseStrBody (Y.length + 1) Y with
          | some (kChars, cs2) =>
            (match jsonSkipWs cs2 with
             | ':' :: cs3 =>
               (match pv cs3 with
                | some (v3, cs4) =>
                  (match jsonSkipWs cs4 with
                   | ',' :: cs5 => jsonObjLoop pv f cs5 (kvStore acc ⟨kChars⟩ v3)
                   | c :: cs5 =>
                     if c = Char.ofNat 0x7d then some (kvStore acc ⟨kChars⟩ v3, cs5)
                     else none
                   | [] => none)
                | none => none)
             | _ => none)
          | none => none) =
            some (kvFoldStore acc (.cons k v (.cons k2 v2 t2)), rest)
        rw [show parseStrBody (Y.length + 1) Y = some (k.toList, ':' :: P) from by
          rw [hY]
          apply parseStrBody_quote k.toList _ (':' :: P)
          have := flatMap_escape_len k.toList
          simp only [List.length_append, List.length_cons]
          omega]
        show (match pv P with
          | some (v3, cs4) =>
            (match jsonSkipWs cs4 with
             | ',' :: cs5 => jsonObjLoop pv f cs5 (kvStore acc k v3)
             | c :: cs5 =>
               if c = Char.ofNat 0x7d then some (kvStore acc k v3, cs5)
               else none
             | [] => none)
          | none => none) =
            some (kvFoldStore acc (.cons k v (.cons k2 v2 t2)), rest)
        rw [hP, hpv v (Or.inl rfl) _ (by rfl)]
        show jsonObjLoop pv f Q (kvStore acc k v) =
          some (kvFoldStore acc (.cons k v (.cons k2 v2 t2)), rest)
        rw [hQ]
        rw [jsonObjLoop_print pv (.cons k2 v2 t2) f rest (kvStore acc k v)
          (by intro h; cases h)
          (by
            simp only [sizeJK] at hsz ⊢
            have := sizeJ_pos v
            omega)
          (fun z hz s hs => hpv z (Or.inr hz) s hs)]
        rfl

theorem memJL_wf {x : Json} : ∀ {xs : JsonList},
    memJL x xs → wfJsonList xs = true → wfJson x = true
  | .nil, h, _ => h.elim
  | .cons y t, h, hwf => by
    simp only [wfJsonList, Bool.and_eq_true] at hwf
    rcases (show x = y ∨ memJL x t from h) with rfl | h
    · exact hwf.1
    · exact memJL_wf h hwf.2

theorem memJKv_wf {x : Json} : ∀ {kvs : JsonKVs},
    memJKv x kvs → wfJsonKVs kvs = true → wfJson x = true
  | .nil, h, _ => h.elim
  | .cons k v t, h, hwf => by
    simp only [wfJsonKVs, Bool.and_eq_true] at hwf
    rcases (show x = v ∨ memJKv x t from h) with rfl | h
    · exact hwf.1.2
    · exact memJKv_wf h hwf.2

theorem startsWithChars_cons_ne {n c : Char} (h : n ≠ c) (ns cs : List Char) :
    startsWithChars (n :: ns) (c :: cs) = false := by
  simp [startsWithChars, h]

/-- One step of `jsonP` at a non-whitespace head character. -/
theorem jsonP_cons (fuel : Nat) (c : Char) (cs : List Char) (h : jsonWs c = false) :
    jsonP (fuel + 1) (c :: cs) =
      (if c = '"' then
        (parseStrBody (cs.length + 1) cs).map fun p => (Json.str ⟨p.1⟩, p.2)
      else if c = '[' then
        match jsonSkipWs cs with
        | ']' :: r2 => some (.arr .nil, r2)
        | _ => (jsonArrLoop (jsonP fuel) fuel cs).map fun p => (Json.arr p.1, p.2)
      else if c = Char.ofNat 0x7b then
        match jsonSkipWs cs with
        | r0 :: r2 =>
          if r0 = Char.ofNat 0x7d then some (.obj .nil, r2)
          else (jsonObjLoop (jsonP fuel) fuel cs .nil).map fun p => (Json.obj p.1, p.2)
        | [] => none
      else if startsWithChars "true".toList (c :: cs) then
        some (.bool true, cs.drop 3)
      else if startsWithChars "false".toList (c :: cs) then
        some (.bool false, cs.drop 4)
      else if startsWithChars "null".toList (c :: cs) then
        some (.null, cs.drop 3)
      else
        (parseJsonNum (c :: cs)).map fun p => (Json.num p.1, p.2)) := by
  conv_lhs => unfold jsonP
  rw [jsonSkipWs_cons h]

/-- The central round trip: the parser inverts the printer on well-formed
values, at any fuel at least the node count, for any legal continuation. -/
theorem jsonP_print :
    ∀ (fuel : Nat) (v : Json) (rest : List Char), sizeJ v ≤ fuel →
      wfJson v = true → restOk rest = true →
      jsonP fuel (printJson v ++ rest) = some (v, rest) := by
  intro fuel
  induction fuel with
  | zero =>
    intro v rest hs _ _
    have := sizeJ_pos v
    omega
  | succ fuel ih =>
    intro v rest hs hwf hr
    cases v with
    | null => rfl
    | bool b => cases b <;> rfl
    | num i =>
      by_cases hi : i < 0
      · rw [show printJson (.num i) = intDecimal i from rfl]
        rw [show intDecimal i = '-' :: natDecimal i.natAbs from by
          unfold intDecimal; rw [if_pos hi]]
        rw [List.cons_append]
        show (parseJsonNum ('-' :: (natDecimal i.natAbs ++ rest))).map
          (fun p => (Json.num p.1, p.2)) = some (.num i, rest)
        rw [show ('-' :: (natDecimal i.natAbs ++ rest)) = intDecimal i ++ rest from by
          unfold intDecimal
          rw [if_pos hi, List.cons_append]]
        rw [parseJsonNum_intDecimal i rest hr]
        rfl
      · obtain ⟨d, tl, hd, hshape⟩ := natDecimal_shape i.toNat
        rw [show printJson (.num i) = natDecimal i.toNat from by
          unfold printJson intDecimal
          rw [if_neg hi]]
        rw [show natDecimal i.toNat ++ rest =
          Char.ofNat ('0'.toNat + d) :: (tl ++ rest) from by
          rw [hshape, List.cons_append]]
        rw [jsonP_cons fuel _ _ (by
          have h10 : ∀ x : Fin 10, jsonWs (Char.ofNat ('0'.toNat + x.val)) = false := by
            decide
          exact h10 ⟨d, hd⟩)]
        rw [if_neg (by
          have h10 : ∀ x : Fin 10, Char.ofNat ('0'.toNat + x.val) ≠ '"' := by decide
          exact h10 ⟨d, hd⟩)]
        rw [if_neg (by
          have h10 : ∀ x : Fin 10, Char.ofNat ('0'.toNat + x.val) ≠ '[' := by decide
          exact h10 ⟨d, hd⟩)]
        rw [if_neg (by
          have h10 : ∀ x : Fin 10, Char.ofNat ('0'.toNat + x.val) ≠ Char.ofNat 0x7b := by
            decide
          exact h10 ⟨d, hd⟩)]
        rw [show ("true".toList : List Char) = 't' :: ['r', 'u', 'e'] from rfl]
        rw [startsWithChars_cons_ne (by
          have h10 : ∀ x : Fin 10, ('t' : Char) ≠ Char.ofNat ('0'.toNat + x.val) := by
            decide
          exact h10 ⟨d, hd⟩)]
        rw [show ("false".toList : List Char) = 'f' :: ['a', 'l', 's', 'e'] from rfl]
        rw [startsWithChars_cons_ne (by
          have h10 : ∀ x : Fin 10, ('f' : Char) ≠ Char.ofNat ('0'.toNat + x.val) := by
            decide
          exact h10 ⟨d, hd⟩)]
        rw [show ("null".toList : List Char) = 'n' :: ['u', 'l', 'l'] from rfl]
        rw [startsWithChars_cons_ne (by
          have h10 : ∀ x : Fin 10, ('n' : Char) ≠ Char.ofNat ('0'.toNat + x.val) := by
            decide
          exact h10 ⟨d, hd⟩)]
        rw [show (Char.ofNat ('0'.toNat + d) :: (tl ++ rest)) =
          natDecimal i.toNat ++ rest from by rw [hshape, List.cons_append]]
        rw [parseJsonNum_natDecimal i.toNat rest hr]
        rw [show ((i.toNat : Nat) : Int) = i from Int.toNat_of_nonneg (by omega)]
        rfl
    | str s =>
      rw [show printJson (.str s) ++ rest =
        '"' :: (s.toList.flatMap jsonEscapeChar ++ '"' :: rest) from by
        rw [show printJson (.str s) = jsonQuote s from rfl]
        unfold jsonQuote
        simp]
      show (parseStrBody ((s.toList.flatMap jsonEscapeChar ++ '"' :: rest).length + 1)
          (s.toList.flatMap jsonEscapeChar ++ '"' :: rest)).map
        (fun p => (Json.str ⟨p.1⟩, p.2)) = some (.str s, rest)
      rw [parseStrBody_quote s.toList _ rest (by
        have := flatMap_escape_len s.toList
        simp only [List.length_append, List.length_cons]
        omega)]
      rfl
    | arr xs =>
      cases xs with
      | nil => rfl
      | cons x t =>
        obtain ⟨c0, tl0, hshape0, hws0, hne0⟩ := printJson_shape x
        rw [show printJson (.arr (.cons x t)) ++ rest =
          '[' :: (printJsonList (.cons x t) ++ ']' :: rest) from by
          rw [show printJson (.arr (.cons x t)) =
            '[' :: printJsonList (.cons x t) ++ [']'] from rfl]
          simp]
        obtain ⟨W, hW⟩ : ∃ W, printJsonList (.cons x t) ++ ']' :: rest = c0 :: W := by
          cases t with
          | nil =>
            rw [show printJsonList (.cons x .nil) = printJson x from rfl, hshape0]
            exact ⟨tl0 ++ ']' :: rest, by simp⟩
          | cons y t2 =>
            rw [show printJsonList (.cons x (.cons y t2)) =
              printJson x ++ ',' :: printJsonList (.cons y t2) from rfl, hshape0]
            exact ⟨tl0 ++ ',' :: printJsonList (.cons y t2) ++ ']' :: rest, by simp⟩
        show (match jsonSkipWs (printJsonList (.cons x t) ++ ']' :: rest) with
          | ']' :: r2 => some (Json.arr .nil, r2)
          | _ =>
            (jsonArrLoop (jsonP fuel) fuel
              (printJsonList (.cons x t) ++ ']' :: rest)).map
              fun p => (Json.arr p.1, p.2)) = some (.arr (.cons x t), rest)
        rw [hW, jsonSkipWs_cons hws0]
        have hloop := jsonArrLoop_print (jsonP fuel) (.cons x t) fuel rest
          (by intro h; cases h)
          (by
            simp only [sizeJ] at hs
            omega)
          (fun z hz s hsr => ih z s
            (by
              have := memJL_size hz
              simp only [sizeJ] at hs
              omega)
            (memJL_wf hz hwf) hsr)
        rw [hW] at hloop
        split
        · rename_i heq
          injection heq with e1 _
          exact absurd e1 hne0
        · rw [hloop]
          rfl
    | obj kvs =>
      cases kvs with
      | nil => rfl
      | cons k v t =>
        rw [show printJson (.obj (.cons k v t)) ++ rest =
          Char.ofNat 0x7b :: (printJsonKVs (.cons k v t) ++ Char.ofNat 0x7d :: rest)
            from by
          rw [show printJson (.obj (.cons k v t)) =
            Char.ofNat 0x7b :: printJsonKVs (.cons k v t) ++ [Char.ofNat 0x7d] from rfl]
          simp]
        obtain ⟨W, hW⟩ : ∃ W, printJsonKVs (.cons k v t) ++ Char.ofNat 0x7d :: rest =
            '"' :: W := by
          cases t with
          | nil =>
            rw [show printJsonKVs (.cons k v .nil) =
              jsonQuote k ++ ':' :: printJson v from rfl]
            unfold jsonQuote
            exact ⟨k.toList.flatMap jsonEscapeChar ++ '"' :: ':' ::
              (printJson v ++ Char.ofNat 0x7d :: rest), by simp⟩
          | cons k2 v2 t2 =>
            rw [show printJsonKVs (.cons k v (.cons k2 v2 t2)) =
              jsonQuote k ++ ':' :: printJson v ++ ',' ::
                printJsonKVs (.cons k2 v2 t2) from rfl]
            unfold jsonQuote
            exact ⟨k.toList.flatMap jsonEscapeChar ++ '"' :: ':' ::
              (printJson v ++ ',' ::
                (printJsonKVs (.cons k2 v2 t2) ++ Char.ofNat 0x7d :: rest)), by simp⟩
        rw [hW]
        show (jsonObjLoop (jsonP fuel) fuel ('"' :: W) .nil).map
          (fun p => (Json.obj p.1, p.2)) = some (.obj (.cons k v t), rest)
        rw [← hW]
        rw [jsonObjLoop_print (jsonP fuel) (.cons k v t) fuel rest .nil
          (by intro h; cases h)
          (by
            simp only [sizeJ] at hs
            omega)
          (fun z hz s hsr => ih z s
            (by
              have := memJKv_size hz
              simp only [sizeJ] at hs
              omega)
            (memJKv_wf hz hwf) hsr)]
        rw [kvFoldStore_of_nil (show wfJsonKVs (.cons k v t) = true from hwf)]
        rfl

theorem intDecimal_ne_nil (i : Int) : intDecimal i ≠ [] := by
  unfold intDecimal
  split
  · simp
  · exact natDecimal_ne_nil i.toNat

mutual

theorem sizeJ_le_print : ∀ (v : Json), sizeJ v ≤ (printJson v).length
  | .null => by simp [sizeJ, printJson]
  | .bool b => by cases b <;> simp [sizeJ, printJson]
  | .num i => by
    have h := intDecimal_ne_nil i
    have : 1 ≤ (intDecimal i).length := by
      cases he : intDecimal i with
      | nil => exact absurd he h
      | cons a b => simp
    simpa [sizeJ, printJson] using this
  | .str s => by simp [sizeJ, printJson, jsonQuote]
  | .arr xs => by
    have h := sizeJL_le_print xs
    simp only [sizeJ, printJson, List.length_append, List.length_cons,
      List.length_nil]
    omega
  | .obj kvs => by
    have h := sizeJK_le_print kvs
    simp only [sizeJ, printJson, List.length_append, List.length_cons,
      List.length_nil]
    omega

theorem sizeJL_le_print : ∀ (xs : JsonList), sizeJL xs ≤ (printJsonList xs).length + 1
  | .nil => by simp [sizeJL]
  | .cons x .nil => by
    have h := sizeJ_le_print x
    simp only [sizeJL, printJsonList]
    omega
  | .cons x (.cons y t) => by
    have h1 := sizeJ_le_print x
    have h2 := sizeJL_le_print (.cons y t)
    simp only [sizeJL] at h2 ⊢
    simp only [printJsonList, List.length_append, List.length_cons]
    omega

theorem sizeJK_le_print : ∀ (kvs : JsonKVs), sizeJK kvs ≤ (printJsonKVs kvs).length + 1
  | .nil => by simp [sizeJK]
  | .cons k v .nil => by
    have h := sizeJ_le_print v
    simp only [sizeJK, printJsonKVs, List.length_append, List.length_cons]
    omega
  | .cons k v (.cons k2 v2 t) => by
    have h1 := sizeJ_le_print v
    have h2 := sizeJK_le_print (.cons k2 v2 t)
    simp only [sizeJK] at h2 ⊢
    simp only [printJsonKVs, List.length_append, List.length_cons]
    omega

end

/-- `json.loads (json.dumps v) = v` for well-formed values. -/
theorem jsonLoads_print (v : Json) (hwf : wfJson v = true) :
    jsonLoads ⟨printJson v⟩ = some v := by
  unfold jsonLoads
  rw [show (String.mk (printJson v)).toList = printJson v from rfl]
  rw [show (String.mk (printJson v)).length = (printJson v).length from rfl]
  have hp := jsonP_print ((printJson v).length + 1) v []
    (by have := sizeJ_le_print v; omega) hwf rfl
  rw [List.append_nil] at hp
  rw [hp]
  rfl

theorem jsonArrLoop_wf (pv : List Char → Option (Json × List Char))
    (hpv : ∀ cs v r, pv cs = some (v, r) → wfJson v = true) :
    ∀ (fuelL : Nat) (cs : List Char) (xs : JsonList) (r : List Char),
      jsonArrLoop pv fuelL cs = some (xs, r) → wfJsonList xs = true := by
  intro fuelL
  induction fuelL with
  | zero => intro cs xs r h; cases h
  | succ f ih =>
    intro cs xs r h
    unfold jsonArrLoop at h
    cases hpv0 : pv cs with
    | none => rw [hpv0] at h; cases h
    | some p =>
      obtain ⟨v, cs1⟩ := p
      rw [hpv0] at h
      dsimp only at h
      have hv : wfJson v = true := hpv cs v cs1 hpv0
      split at h
      · split at h
        · rename_i tail rest2 hrec
          injection h with h1
          injection h1 with h2 h3
          subst h2
          simp only [wfJsonList, Bool.and_eq_true]
          exact ⟨hv, ih _ _ _ hrec⟩
        · cases h
      · injection h with h1
        injection h1 with h2 h3
        subst h2
        simp [wfJsonList, hv]
      · cases h

theorem jsonObjLoop_wf (pv : List Char → Option (Json × List Char))
    (hpv : ∀ cs v r, pv cs = some (v, r) → wfJson v = true) :
    ∀ (fuelL : Nat) (cs : List Char) (acc kvs : JsonKVs) (r : List Char),
      wfJsonKVs acc = true →
      jsonObjLoop pv fuelL cs acc = some (kvs, r) → wfJsonKVs kvs = true := by
  intro fuelL
  induction fuelL with
  | zero => intro cs acc kvs r _ h; cases h
  | succ f ih =>
    intro cs acc kvs r hacc h
    unfold jsonObjLoop at h
    split at h
    · split at h
      · split at h
        · split at h
          · rename_i v cs4 hpv0
            have hv : wfJson v = true := hpv _ v cs4 hpv0
            split at h
            · exact ih _ _ _ _ (kvStore_wf acc _ v hacc hv) h
            · split at h
              · injection h with h1
                injection h1 with h2 h3
                subst h2
                exact kvStore_wf acc _ v hacc hv
              · cases h
            · cases h
          · cases h
        · cases h
      · cases h
    · cases h

theorem jsonP_wf : ∀ (fuel : Nat) (cs : List Char) (v : Json) (r : List Char),
    jsonP fuel cs = some (v, r) → wfJson v = true := by
  intro fuel
  induction fuel with
  | zero => intro cs v r h; cases h
  | succ fuel ih =>
    intro cs v r h
    unfold jsonP at h
    split at h
    · cases h
    · rename_i c rest' heq
      split at h
      · cases hp : parseStrBody (rest'.length + 1) rest' with
        | none => rw [hp] at h; cases h
        | some p =>
          rw [hp] at h
          obtain ⟨body, r2⟩ := p
          injection h with h1
          injection h1 with h2 h3
          subst h2
          rfl
      · split at h
        · split at h
          · injection h with h1
            injection h1 with h2 h3
            subst h2
            rfl
          · cases hl : jsonArrLoop (jsonP fuel) fuel rest' with
            | none => rw [hl] at h; cases h
            | some p =>
              rw [hl] at h
              obtain ⟨xs, r2⟩ := p
              injection h with h1
              injection h1 with h2 h3
              subst h2
              exact jsonArrLoop_wf (jsonP fuel) (fun a b c hh => ih a b c hh)
                fuel rest' xs r2 hl
        · split at h
          · split at h
            · split at h
              · injection h with h1
                injection h1 with h2 h3
                subst h2
                rfl
              · cases ho : jsonObjLoop (jsonP fuel) fuel rest' .nil with
                | none => rw [ho] at h; cases h
                | some p =>
                  rw [ho] at h
                  obtain ⟨kvs, r2⟩ := p
                  injection h with h1
                  injection h1 with h2 h3
                  subst h2
                  exact jsonObjLoop_wf (jsonP fuel) (fun a b c hh => ih a b c hh)
                    fuel rest' .nil kvs r2 rfl ho
            · cases h
          · split at h
            · injection h with h1
              injection h1 with h2 h3
              subst h2
              rfl
            · split at h
              · injection h with h1
                injection h1 with h2 h3
                subst h2
                rfl
              · split at h
                · injection h with h1
                  injection h1 with h2 h3
                  subst h2
                  rfl
                · cases hn : parseJsonNum (c :: rest') with
                  | none => rw [hn] at h; cases h
                  | some p =>
                    rw [hn] at h
                    obtain ⟨n, r2⟩ := p
                    injection h with h1
                    injection h1 with h2 h3
                    subst h2
                    rfl

theorem jsonLoads_wf {s : String} {v : Json} (h : jsonLoads s = some v) :
    wfJson v = true := by
  unfold jsonLoads at h
  cases hp : jsonP (s.length + 1) s.toList with
  | none => rw [hp] at h; cases h
  | some p =>
    obtain ⟨w, rest⟩ := p
    rw [hp] at h
    dsimp only at h
    by_cases hc : jsonSkipWs rest = []
    · rw [if_pos hc] at h
      injection h with h1
      subst h1
      exact jsonP_wf _ _ _ _ hp
    · rw [if_neg hc] at h
      cases h

/-! ### The constructed remark matches the OpenRay pattern -/

theorem toList_append (s t : String) : (s ++ t).toList = s.toList ++ t.toList :=
  String.data_append s t

theorem startsWithChars_self_append : ∀ (l r : List Char),
    startsWithChars l (l ++ r) = true
  | [], _ => rfl
  | c :: l, r => by simp [startsWithChars, startsWithChars_self_append l r]

theorem startsWithChars_exists : ∀ {p cs : List Char},
    startsWithChars p cs = true → ∃ r, cs = p ++ r
  | [], cs, _ => ⟨cs, rfl⟩
  | n :: p, [], h => by cases h
  | n :: p, c :: cs, h => by
    simp only [startsWithChars, Bool.and_eq_true, decide_eq_true_eq] at h
    obtain ⟨rfl, h2⟩ := h
    obtain ⟨r, hr⟩ := startsWithChars_exists h2
    exact ⟨r, by rw [hr]; rfl⟩

theorem uint32_ofNat_le {m : Nat} {v : UInt32} (hm : m < UInt32.size) :
    (UInt32.ofNat m ≤ v) ↔ m ≤ v.toNat := by
  rw [UInt32.le_def, BitVec.le_def, UInt32.toBitVec_eq_of_lt hm]
  exact Iff.rfl

theorem uint32_le_ofNat {m : Nat} {v : UInt32} (hm : m < UInt32.size) :
    (v ≤ UInt32.ofNat m) ↔ v.toNat ≤ m := by
  rw [UInt32.le_def, BitVec.le_def, UInt32.toBitVec_eq_of_lt hm]
  exact Iff.rfl

theorem isUpperAZ_toNat {c : Char} (h : isUpperAZ c = true) :
    65 ≤ c.toNat ∧ c.toNat ≤ 90 := by
  simp only [isUpperAZ, Bool.and_eq_true, decide_eq_true_eq] at h
  obtain ⟨h1, h2⟩ := h
  rw [Char.le_def] at h1 h2
  exact ⟨(uint32_ofNat_le (by decide)).mp h1, (uint32_le_ofNat (by decide)).mp h2⟩

theorem isUpperAZ_ne_nl {c : Char} (h : isUpperAZ c = true) : c ≠ '\n' := by
  obtain ⟨h1, _⟩ := isUpperAZ_toNat h
  intro he
  rw [he] at h1
  exact absurd h1 (by decide)

theorem isUpperAZ_toUpper {c : Char} (h : isUpperAZ c = true) : c.toUpper = c := by
  obtain ⟨_, h2⟩ := isUpperAZ_toNat h
  unfold Char.toUpper
  rw [if_neg (by omega)]

theorem isUpperAZ_isAlpha {c : Char} (h : isUpperAZ c = true) : c.isAlpha = true := by
  obtain ⟨h1, h2⟩ := isUpperAZ_toNat h
  unfold Char.isAlpha Char.isUpper
  have hv1 : (65 : UInt32) ≤ c.val := (uint32_ofNat_le (by decide)).mpr h1
  have hv2 : c.val ≤ (90 : UInt32) := (uint32_le_ofNat (by decide)).mpr h2
  simp [ge_iff_le, hv1, hv2]

theorem flag_char_ne_nl {d : Nat} (h : d < 26) :
    Char.ofNat (0x1F1E6 + d) ≠ '\n' := by
  have h26 : ∀ x : Fin 26, Char.ofNat (0x1F1E6 + x.val) ≠ '\n' := by decide
  exact h26 ⟨d, h⟩

/-- The flag emoji for a two-uppercase-letter code: nonempty, no newline. -/
theorem countryFlag_facts {a b : Char} (ha : isUpperAZ a = true)
    (hb : isUpperAZ b = true) :
    (countryFlag ⟨[a, b]⟩).toList ≠ [] ∧
      ∀ c ∈ (countryFlag ⟨[a, b]⟩).toList, c ≠ '\n' := by
  obtain ⟨ha1, ha2⟩ := isUpperAZ_toNat ha
  obtain ⟨hb1, hb2⟩ := isUpperAZ_toNat hb
  have heq : countryFlag ⟨[a, b]⟩ =
      ⟨[Char.ofNat (0x1F1E6 + a.toNat - 65), Char.ofNat (0x1F1E6 + b.toNat - 65)]⟩ := by
    unfold countryFlag
    rw [if_neg ?hcond]
    case hcond =>
      intro hor
      rcases hor with h2 | hal
      · exact h2 rfl
      · apply hal
        rw [show (String.mk [a, b]).toList = [a, b] from rfl]
        simp [isUpperAZ_isAlpha ha, isUpperAZ_isAlpha hb]
    show (⟨[Char.ofNat (0x1F1E6 +
        (((String.mk [a, b]).toList.map Char.toUpper).headD 'A').toNat - 65),
      Char.ofNat (0x1F1E6 +
        (((String.mk [a, b]).toList.map Char.toUpper).getD 1 'A').toNat - 65)]⟩ :
        String) = _
    rw [show ((String.mk [a, b]).toList.map Char.toUpper).headD 'A' = a.toUpper from rfl]
    rw [show ((String.mk [a, b]).toList.map Char.toUpper).getD 1 'A' = b.toUpper from rfl]
    rw [isUpperAZ_toUpper ha, isUpperAZ_toUpper hb]
  rw [heq]
  constructor
  · simp
  · intro c hc
    rw [show (String.mk [Char.ofNat (0x1F1E6 + a.toNat - 65),
      Char.ofNat (0x1F1E6 + b.toNat - 65)]).toList =
        [Char.ofNat (0x1F1E6 + a.toNat - 65),
          Char.ofNat (0x1F1E6 + b.toNat - 65)] from rfl] at hc
    rcases List.mem_cons.mp hc with rfl | hc2
    · rw [show 0x1F1E6 + a.toNat - 65 = 0x1F1E6 + (a.toNat - 65) from by omega]
      exact flag_char_ne_nl (by omega)
    · rcases List.mem_cons.mp hc2 with rfl | hc3
      · rw [show 0x1F1E6 + b.toNat - 65 = 0x1F1E6 + (b.toNat - 65) from by omega]
        exact flag_char_ne_nl (by omega)
      · simp at hc3

theorem midOk_build (flagL : List Char) (hne : flagL ≠ [])
    (hnl : ∀ c ∈ flagL, c ≠ '\n') :
    midOk (' ' :: (flagL ++ [' '])) = true := by
  have hlen : 1 ≤ flagL.length := List.length_pos.mpr hne
  unfold midOk
  rw [List.any_eq_true]
  refine ⟨1, ?_, ?_⟩
  · rw [List.mem_range]
    simp only [List.length_cons, List.length_append, List.length_singleton]
    omega
  · rw [Bool.and_eq_true, Bool.and_eq_true]
    refine ⟨⟨by decide, by rfl⟩, ?_⟩
    rw [List.any_eq_true]
    refine ⟨1 + flagL.length, ?_, ?_⟩
    · rw [List.mem_range]
      simp only [List.length_cons, List.length_append, List.length_singleton]
      omega
    · rw [Bool.and_eq_true, Bool.and_eq_true, Bool.and_eq_true]
      refine ⟨⟨⟨?_, ?_⟩, ?_⟩, ?_⟩
      · simp only [decide_eq_true_eq]
        omega
      · simp only [List.length_cons, List.length_append, List.length_singleton,
          decide_eq_true_eq]
        omega
      · rw [show (' ' :: (flagL ++ [' '])).drop 1 = flagL ++ [' '] from rfl]
        rw [show 1 + flagL.length - 1 = flagL.length from by omega]
        rw [List.take_left]
        rw [List.all_eq_true]
        intro c hc
        simp only [decide_eq_true_eq]
        exact hnl c hc
      · rw [show (' ' :: (flagL ++ [' '])).drop (1 + flagL.length) =
          (flagL ++ [' ']).drop flagL.length from by
          rw [show 1 + flagL.length = flagL.length + 1 from by omega]
          rfl]
        rw [List.drop_left]
        rfl

theorem decDigitsVal_natDecimal (n : Nat) : decDigitsVal (natDecimal n) = n :=
  natDecimal_foldl n

/-- The coordinator's remark construction matches the OpenRay tag
pattern, recovering the country code and the counter. -/
theorem matchOpenRayTag_build (flag cc : String) (n : Nat) (a b : Char)
    (hcc : cc.toList = [a, b]) (ha : isUpperAZ a = true) (hb : isUpperAZ b = true)
    (hflag : flag.toList ≠ []) (hfnl : ∀ c ∈ flag.toList, c ≠ '\n') :
    matchOpenRayTag
        ("[OpenRay] " ++ flag ++ " " ++ cc ++ "-" ++ (⟨natDecimal n⟩ : String)) =
      some (cc, n) := by
  set D := natDecimal n with hD
  have htl : ("[OpenRay] " ++ flag ++ " " ++ cc ++ "-" ++
      (⟨natDecimal n⟩ : String)).toList =
      "[OpenRay]".toList ++
        (' ' :: (flag.toList ++ (' ' :: (a :: b :: ('-' :: D))))) := by
    simp only [toList_append, hcc, ← hD]
    rw [show ("[OpenRay] " : String).toList =
      "[OpenRay]".toList ++ [' '] from rfl]
    rw [show ((" " : String).toList : List Char) = [' '] from rfl]
    rw [show (("-" : String).toList : List Char) = ['-'] from rfl]
    rw [show ((⟨D⟩ : String).toList : List Char) = D from rfl]
    simp [List.append_assoc]
  unfold matchOpenRayTag
  dsimp only
  rw [htl]
  rw [startsWithChars_self_append]
  rw [if_pos rfl]
  rw [List.drop_left' (show ("[OpenRay]".toList : List Char).length = 9 from rfl)]
  have hrev : (' ' :: (flag.toList ++ (' ' :: (a :: b :: ('-' :: D))))).reverse =
      D.reverse ++ '-' :: b :: a :: (' ' :: (flag.toList.reverse ++ [' '])) := by
    simp [List.reverse_cons, List.reverse_append, List.append_assoc]
  rw [hrev]
  obtain ⟨htake, _⟩ := scan_digits_append
    (l := D.reverse) (r := '-' :: b :: a :: (' ' :: (flag.toList.reverse ++ [' '])))
    (fun c hc => natDecimal_digits n c (List.mem_reverse.mp hc))
    (Or.inr ⟨'-', _, rfl, by decide⟩)
  rw [htake]
  rw [if_neg (by
    intro hnil
    exact natDecimal_ne_nil n (by
      have h2 := congrArg List.reverse hnil
      simpa using h2))]
  rw [List.drop_left]
  have hmid : midOk (' ' :: (flag.toList.reverse ++ [' '])).reverse = true := by
    rw [show (' ' :: (flag.toList.reverse ++ [' '])).reverse =
      ' ' :: (flag.toList ++ [' ']) from by simp]
    exact midOk_build flag.toList hflag hfnl
  show (if isUpperAZ a = true ∧ isUpperAZ b = true ∧
      midOk (' ' :: (flag.toList.reverse ++ [' '])).reverse = true then
      some ((⟨[a, b]⟩ : String), decDigitsVal (D.reverse).reverse)
    else none) = some (cc, n)
  rw [if_pos ⟨ha, hb, hmid⟩]
  rw [List.reverse_reverse]
  rw [hD, decDigitsVal_natDecimal]
  rw [show (⟨[a, b]⟩ : String) = cc from by rw [← hcc]; exact strEta cc]

/-! ### Base64 encode/decode round trip helpers -/

theorem b64CharVal_ofNat {v : Nat} (hv : v < 64) :
    b64CharVal? (b64CharOfNat v) = some v := by
  have h : ∀ w : Fin 64, b64CharVal? (b64CharOfNat w.val) = some w.val := by decide
  exact h ⟨v, hv⟩

theorem b64Char_good {v : Nat} (hv : v < 64) :
    b64CharOfNat v ≠ '=' ∧ pyIsSpace (b64CharOfNat v) = false ∧
      urlSafeMap (b64CharOfNat v) = b64CharOfNat v := by
  have h : ∀ w : Fin 64,
      b64CharOfNat w.val ≠ '=' ∧ pyIsSpace (b64CharOfNat w.val) = false ∧
        urlSafeMap (b64CharOfNat w.val) = b64CharOfNat w.val := by decide
  exact h ⟨v, hv⟩

/-- Core base64 round trip: the lenient decoder inverts encoding. -/
theorem a2b64_encode (x : List Nat) (hx : ∀ b ∈ x, b < 256) :
    a2b64Go (b64encode x) 0 0 0 = some x := by
  induction x using b64encode.induct with
  | case1 => decide
  | case2 a =>
    have ha : a < 256 := hx a (by simp)
    have h1 : a / 4 < 64 := by omega
    have h2 : a % 4 * 16 < 64 := by omega
    simp [b64encode, a2b64Go, b64CharVal_ofNat h1, b64CharVal_ofNat h2,
      (b64Char_good h1).1, (b64Char_good h2).1]
    omega
  | case3 a b =>
    have ha : a < 256 := hx a (by simp)
    have hb : b < 256 := hx b (by simp)
    have h1 : a / 4 < 64 := by omega
    have h2 : a % 4 * 16 + b / 16 < 64 := by omega
    have h3 : b % 16 * 4 < 64 := by omega
    simp [b64encode, a2b64Go, b64CharVal_ofNat h1, b64CharVal_ofNat h2,
      b64CharVal_ofNat h3, (b64Char_good h1).1, (b64Char_good h2).1,
      (b64Char_good h3).1]
    omega
  | case4 a b c rest ih =>
    have ha : a < 256 := hx a (by simp)
    have hb : b < 256 := hx b (by simp)
    have hc : c < 256 := hx c (by simp)
    have hrest : ∀ y ∈ rest, y < 256 := fun y hy => hx y (by simp [hy])
    have h1 : a / 4 < 64 := by omega
    have h2 : a % 4 * 16 + b / 16 < 64 := by omega
    have h3 : b % 16 * 4 + c / 64 < 64 := by omega
    have h4 : c % 64 < 64 := by omega
    simp [b64encode, a2b64Go, b64CharVal_ofNat h1, b64CharVal_ofNat h2,
      b64CharVal_ofNat h3, b64CharVal_ofNat h4, (b64Char_good h1).1,
      (b64Char_good h2).1, (b64Char_good h3).1, (b64Char_good h4).1, ih hrest]
    omega

/-- Every character of a base64 encoding survives the whitespace filter,
the URL-safe mapping and the alphabet filter of `safe_b64decode_to_bytes`. -/
theorem b64encode_chars_good (x : List Nat) (hx : ∀ b ∈ x, b < 256) :
    ∀ c ∈ b64encode x, pyIsSpace c = false ∧ urlSafeMap c = c ∧
      ((b64CharVal? c).isSome || c = '=') = true := by
  induction x using b64encode.induct with
  | case1 => intro c hc; cases hc
  | case2 a =>
    have ha : a < 256 := hx a (by simp)
    have h1 : a / 4 < 64 := by omega
    have h2 : a % 4 * 16 < 64 := by omega
    intro c hc
    simp only [b64encode, List.mem_cons, List.not_mem_nil, or_false] at hc
    rcases hc with rfl | rfl | rfl | rfl
    · exact ⟨(b64Char_good h1).2.1, (b64Char_good h1).2.2, by simp [b64CharVal_ofNat h1]⟩
    · exact ⟨(b64Char_good h2).2.1, (b64Char_good h2).2.2, by simp [b64CharVal_ofNat h2]⟩
    · exact ⟨by decide, by decide, by decide⟩
    · exact ⟨by decide, by decide, by decide⟩
  | case3 a b =>
    have ha : a < 256 := hx a (by simp)
    have hb : b < 256 := hx b (by simp)
    have h1 : a / 4 < 64 := by omega
    have h2 : a % 4 * 16 + b / 16 < 64 := by omega
    have h3 : b % 16 * 4 < 64 := by omega
    intro c hc
    simp only [b64encode, List.mem_cons, List.not_mem_nil, or_false] at hc
    rcases hc with rfl | rfl | rfl | rfl
    · exact ⟨(b64Char_good h1).2.1, (b64Char_good h1).2.2, by simp [b64CharVal_ofNat h1]⟩
    · exact ⟨(b64Char_good h2).2.1, (b64Char_good h2).2.2, by simp [b64CharVal_ofNat h2]⟩
    · exact ⟨(b64Char_good h3).2.1, (b64Char_good h3).2.2, by simp [b64CharVal_ofNat h3]⟩
    · exact ⟨by decide, by decide, by decide⟩
  | case4 a b c rest ih =>
    have ha : a < 256 := hx a (by simp)
    have hb : b < 256 := hx b (by simp)
    have hc : c < 256 := hx c (by simp)
    have hrest : ∀ y ∈ rest, y < 256 := fun y hy => hx y (by simp [hy])
    have h1 : a / 4 < 64 := by omega
    have h2 : a % 4 * 16 + b / 16 < 64 := by omega
    have h3 : b % 16 * 4 + c / 64 < 64 := by omega
    have h4 : c % 64 < 64 := by omega
    intro ch hch
    simp only [b64encode, List.mem_cons] at hch
    rcases hch with rfl | rfl | rfl | rfl | hmem
    · exact ⟨(b64Char_good h1).2.1, (b64Char_good h1).2.2, by simp [b64CharVal_ofNat h1]⟩
    · exact ⟨(b64Char_good h2).2.1, (b64Char_good h2).2.2, by simp [b64CharVal_ofNat h2]⟩
    · exact ⟨(b64Char_good h3).2.1, (b64Char_good h3).2.2, by simp [b64CharVal_ofNat h3]⟩
    · exact ⟨(b64Char_good h4).2.1, (b64Char_good h4).2.2, by simp [b64CharVal_ofNat h4]⟩
    · exact ih hrest ch hmem

theorem b64encode_length_mod4 (x : List Nat) : (b64encode x).length % 4 = 0 := by
  induction x using b64encode.induct with
  | case1 => rfl
  | case2 a => simp [b64encode]
  | case3 a b => simp [b64encode]
  | case4 a b c rest ih => simp [b64encode]; omega

theorem b64encode_ne_nil {x : List Nat} (hx : x ≠ []) : b64encode x ≠ [] := by
  match x, hx with
  | [a], _ => simp [b64encode]
  | [a, b], _ => simp [b64encode]
  | a :: b :: c :: rest, _ => simp [b64encode]

/-- Helper: a list is unchanged by `map f` when `f` fixes its members. -/
theorem map_eq_self_of_fix {α : Type} (f : α → α) (l : List α)
    (h : ∀ a ∈ l, f a = a) : l.map f = l := by
  induction l with
  | nil => rfl
  | cons a rest ih =>
    simp only [List.map_cons, h a (by simp), ih fun b hb => h b (by simp [hb])]

/-- C9, counterexample.  The claim quantifies over *every* byte payload,
but for the empty payload `b64encode(b'') = b''` and
`safe_b64decode_to_bytes('')` returns `None` (its `if not s` guard), not
`b''`. -/
theorem C9_counterexample :
    safeB64DecodeToBytes (b64encodeStr []) = none ∧
      safeB64DecodeToBytes (b64encodeStr []) ≠ some [] := by
  constructor <;> decide

/-- The lenient decode/encode round trip on nonempty byte payloads,
shared by the base64 and vmess developments. -/
theorem safeB64_roundtrip (x : List Nat) (hne : x ≠ []) (hx : ∀ b ∈ x, b < 256) :
    safeB64DecodeToBytes (b64encodeStr x) = some x := by
  have hnil : b64encode x ≠ [] := b64encode_ne_nil hne
  have hgood := b64encode_chars_good x hx
  have hs : b64encodeStr x ≠ "" := by
    intro h
    exact hnil (congrArg String.toList h)
  rw [safeB64DecodeToBytes, if_neg hs]
  have htl : (b64encodeStr x).toList = b64encode x := rfl
  rw [htl]
  rw [List.filter_eq_self.mpr fun c hc => by simp [(hgood c hc).1]]
  rw [map_eq_self_of_fix urlSafeMap _ fun c hc => (hgood c hc).2.1]
  dsimp only
  rw [b64encode_length_mod4 x]
  simp only [Nat.sub_zero, Nat.mod_self, List.replicate_zero, List.append_nil]
  exact a2b64_encode x hx

/-! Lenient-decoder boundary checks against CPython
(`base64.b64decode(…, validate=False)`): a stray `=` that does not
complete its quad is skipped (leading `=`, or `=` followed by more data),
while a leftover partial quad still fails. -/

example : safeB64DecodeToBytes "=eyJhIjoxfQ==" =
    some [123, 34, 97, 34, 58, 49, 125] := by decide

example : safeB64DecodeToBytes "fQ=XY==" = some [125, 5, 216] := by decide

example : safeB64DecodeToBytes "AB=C" = none := by decide

example : setRemark "vmess://=eyJhIjoxfQ==" "r" ≠ "vmess://=eyJhIjoxfQ==" := by
  decide

/-! ### The carried tag of appended entries -/

theorem splitOnce_single_not_mem {c : Char} : ∀ {cs l r : List Char},
    splitOnce [c] cs = some (l, r) → c ∉ l
  | [], l, r, h => by cases h
  | x :: xs, l, r, h => by
    unfold splitOnce at h
    by_cases hc : startsWithChars [c] (x :: xs) = true
    · rw [if_pos hc] at h
      injection h with h1
      injection h1 with h2 h3
      subst h2
      simp
    · rw [if_neg hc] at h
      cases hrec : splitOnce [c] xs with
      | none => rw [hrec] at h; cases h
      | some p =>
        obtain ⟨l2, r2⟩ := p
        rw [hrec] at h
        dsimp only at h
        injection h with h1
        injection h1 with h2 h3
        subst h2
        intro hmem
        rcases List.mem_cons.mp hmem with rfl | hmem2
        · exact hc (by simp [startsWithChars])
        · exact splitOnce_single_not_mem hrec hmem2

theorem splitOnce_none_not_mem {c : Char} : ∀ {cs : List Char},
    splitOnce [c] cs = none → c ∉ cs
  | [], _ => by simp
  | x :: xs, h => by
    unfold splitOnce at h
    by_cases hc : startsWithChars [c] (x :: xs) = true
    · rw [if_pos hc] at h; cases h
    · rw [if_neg hc] at h
      cases hrec : splitOnce [c] xs with
      | some p =>
        obtain ⟨l2, r2⟩ := p
        rw [hrec] at h
        dsimp only at h
        cases h
      | none =>
        intro hmem
        rcases List.mem_cons.mp hmem with rfl | hmem2
        · exact hc (by simp [startsWithChars])
        · exact splitOnce_none_not_mem hrec hmem2

theorem splitOnce_append_sep {c : Char} : ∀ (l r : List Char),
    c ∉ l → splitOnce [c] (l ++ c :: r) = some (l, r)
  | [], r, _ => by
    show splitOnce [c] (c :: r) = some ([], r)
    unfold splitOnce
    rw [if_pos (by simp [startsWithChars])]
    rfl
  | x :: l, r, hmem => by
    have hx : c ≠ x := fun he => hmem (by rw [he]; simp)
    show splitOnce [c] (x :: (l ++ c :: r)) = some (x :: l, r)
    unfold splitOnce
    rw [if_neg (by simp [startsWithChars, hx])]
    rw [splitOnce_append_sep l r (fun hm => hmem (by simp [hm]))]

theorem splitOnce_recover {c : Char} : ∀ {cs l r : List Char},
    splitOnce [c] cs = some (l, r) → cs = l ++ c :: r
  | [], l, r, h => by cases h
  | x :: xs, l, r, h => by
    unfold splitOnce at h
    by_cases hc : startsWithChars [c] (x :: xs) = true
    · rw [if_pos hc] at h
      injection h with h1
      injection h1 with h2 h3
      subst h2
      have hcx : c = x := by
        simp [startsWithChars] at hc
        exact hc
      have h4 : xs = r := h3
      rw [List.nil_append, ← hcx, h4]
    · rw [if_neg hc] at h
      cases hrec : splitOnce [c] xs with
      | none => rw [hrec] at h; cases h
      | some p =>
        obtain ⟨l2, r2⟩ := p
        rw [hrec] at h
        dsimp only at h
        injection h with h1
        injection h1 with h2 h3
        subst h2
        subst h3
        rw [show (x :: l2) ++ c :: r2 = x :: (l2 ++ c :: r2) from rfl]
        rw [← splitOnce_recover hrec]

theorem splitFirst_no_hash (u : String) : '#' ∉ (splitFirst "#" u).toList := by
  unfold splitFirst
  cases hs : splitOnce "#".toList u.toList with
  | some p =>
    obtain ⟨l, r⟩ := p
    exact fun hmem =>
      splitOnce_single_not_mem (show splitOnce ['#'] u.toList = some (l, r) from hs) hmem
  | none =>
    exact fun hmem =>
      splitOnce_none_not_mem (show splitOnce ['#'] u.toList = none from hs) hmem

theorem splitFirst_prefix_eq (u : String) :
    ∃ suffix, u.toList = (splitFirst "#" u).toList ++ suffix := by
  unfold splitFirst
  cases hs : splitOnce "#".toList u.toList with
  | some p =>
    obtain ⟨l, r⟩ := p
    exact ⟨'#' :: r, splitOnce_recover hs⟩
  | none => exact ⟨[], by simp⟩

theorem splitOnce_vmess (X : List Char) :
    splitOnce "://".toList
        ('v' :: 'm' :: 'e' :: 's' :: 's' :: ':' :: '/' :: '/' :: X) =
      some ("vmess".toList, X) := rfl

theorem schemeOf_vmess_head {u : String} {X : List Char}
    (h : u.toList = "vmess://".toList ++ X) : schemeOf u = "vmess" := by
  have h1 : schemeRaw u = ⟨"vmess".toList⟩ := by
    unfold schemeRaw
    rw [h]
    rw [show ("vmess://".toList : List Char) ++ X =
      'v' :: 'm' :: 'e' :: 's' :: 's' :: ':' :: '/' :: '/' :: X from rfl]
    rw [splitOnce_vmess]
  unfold schemeOf
  rw [h1]
  rfl

theorem vmess_prefix_split : ∀ {base : List Char} {z : List Char},
    startsWithChars "vmess://".toList (base ++ '#' :: z) = true →
    startsWithChars "vmess://".toList base = true := by
  intro base z h
  match base, h with
  | [], h => simp [startsWithChars] at h
  | [c1], h => simp [startsWithChars] at h
  | [c1, c2], h => simp [startsWithChars] at h
  | [c1, c2, c3], h => simp [startsWithChars] at h
  | [c1, c2, c3, c4], h => simp [startsWithChars] at h
  | [c1, c2, c3, c4, c5], h => simp [startsWithChars] at h
  | [c1, c2, c3, c4, c5, c6], h => simp [startsWithChars] at h
  | [c1, c2, c3, c4, c5, c6, c7], h => simp [startsWithChars] at h
  | c1 :: c2 :: c3 :: c4 :: c5 :: c6 :: c7 :: c8 :: rest, h =>
    simp only [List.cons_append] at h
    simp [startsWithChars] at h ⊢
    exact h

theorem not_vmess_prefix_entry {u : String} (hsch : schemeOf u ≠ "vmess")
    (z : List Char) :
    startsWithChars "vmess://".toList ((splitFirst "#" u).toList ++ '#' :: z) =
      false := by
  cases hsw : startsWithChars "vmess://".toList
      ((splitFirst "#" u).toList ++ '#' :: z) with
  | false => rfl
  | true =>
    exfalso
    have h1 := vmess_prefix_split hsw
    obtain ⟨r, hr⟩ := startsWithChars_exists h1
    obtain ⟨suffix, hsuf⟩ := splitFirst_prefix_eq u
    rw [hr] at hsuf
    rw [List.append_assoc] at hsuf
    exact hsch (schemeOf_vmess_head hsuf)

theorem pctByte_ne_nil (b : Nat) : pctByte b ≠ [] := by
  unfold pctByte
  split <;> simp

theorem pctEncode_ne_nil {s : String} (h : s ≠ "") : pctEncode s ≠ [] := by
  rw [pctEncode_eq]
  cases hcs : s.toList with
  | nil =>
    exfalso
    apply h
    cases s with | mk l =>
    rw [show (String.mk l).toList = l from rfl] at hcs
    rw [hcs]
  | cons c tl =>
    simp only [pctEncodeChars, List.flatMap_cons]
    intro happ
    rcases List.append_eq_nil.mp happ with ⟨h1, _⟩
    cases he : utf8EncodeChar c with
    | nil => exact utf8EncodeChar_ne_nil c he
    | cons e es =>
      rw [he, List.flatMap_cons] at h1
      rcases List.append_eq_nil.mp h1 with ⟨h2, _⟩
      exact pctByte_ne_nil e h2

/-- A non-vmess entry written by `_set_remark` carries exactly the
requested remark in its fragment. -/
theorem carriedTag_setRemark_nonvmess (u remark : String)
    (hsch : schemeOf u ≠ "vmess") (hrm : remark ≠ "") :
    carriedTag (setRemark u remark) = some remark := by
  rw [show setRemark u remark =
    splitFirst "#" u ++ "#" ++ (⟨pctEncode remark⟩ : String) from by
    unfold setRemark
    rw [if_neg hsch]]
  have htl : (splitFirst "#" u ++ "#" ++ (⟨pctEncode remark⟩ : String)).toList =
      (splitFirst "#" u).toList ++ '#' :: pctEncode remark := by
    rw [toList_append, toList_append]
    rw [show (("#" : String).toList : List Char) = ['#'] from rfl]
    rw [show ((⟨pctEncode remark⟩ : String).toList : List Char) =
      pctEncode remark from rfl]
    simp
  unfold carriedTag
  rw [htl]
  rw [not_vmess_prefix_entry hsch (pctEncode remark)]
  rw [if_neg (by simp)]
  rw [splitOnce_append_sep _ _ (splitFirst_no_hash u)]
  dsimp only
  rw [if_neg (pctEncode_ne_nil hrm)]
  rw [unquote_pctEncode remark]

theorem vmessObj?_wf {u : String} {o : JsonKVs} (h : vmessObj? u = some o) :
    wfJsonKVs o = true := by
  unfold vmessObj? at h
  cases hp : payloadOf u with
  | none => rw [hp] at h; cases h
  | some p =>
    rw [hp] at h
    dsimp only at h
    cases hd : safeB64DecodeToBytes p with
    | none => rw [hd] at h; cases h
    | some bs0 =>
      rw [hd] at h
      cases bs0 with
      | nil => cases h
      | cons b bs =>
        dsimp only at h
        cases hj : jsonLoads (if utf8DecodeIgnoreStr (b :: bs) = "" then "\x7b\x7d"
            else utf8DecodeIgnoreStr (b :: bs)) with
        | none => rw [hj] at h; cases h
        | some v =>
          rw [hj] at h
          cases v with
          | obj o2 =>
            injection h with h1
            subst h1
            exact jsonLoads_wf hj
          | null => cases h
          | bool b2 => cases h
          | num n2 => cases h
          | str s2 => cases h
          | arr xs => cases h

/-- A vmess entry written by `_set_remark` carries the requested remark
in the `ps` field of its re-encoded payload. -/
theorem carriedTag_setRemark_vmess (u remark : String) (o : JsonKVs)
    (hsch : schemeOf u = "vmess") (ho : vmessObj? u = some o) :
    carriedTag (setRemark u remark) = some remark := by
  have hwf : wfJsonKVs o = true := vmessObj?_wf ho
  rw [show setRemark u remark = "vmess://" ++
    b64encodeStr (utf8Encode ⟨printJson (.obj (kvStore o "ps" (.str remark)))⟩) from by
    unfold setRemark
    rw [if_pos hsch, ho]]
  set s : String := (⟨printJson (.obj (kvStore o "ps" (.str remark)))⟩ : String)
    with hs
  set bytes : List Nat := utf8Encode s with hb
  have hsne : s ≠ "" := by
    rw [hs]
    intro he
    have h2 := congrArg String.toList he
    rw [show (String.mk (printJson (.obj (kvStore o "ps" (.str remark))))).toList =
      printJson (.obj (kvStore o "ps" (.str remark))) from rfl] at h2
    rw [show ("" : String).toList = [] from rfl] at h2
    rw [show printJson (.obj (kvStore o "ps" (.str remark))) =
      Char.ofNat 0x7b :: (printJsonKVs (kvStore o "ps" (.str remark)) ++
        [Char.ofNat 0x7d]) from rfl] at h2
    cases h2
  have hbne : bytes ≠ [] := by rw [hb]; exact utf8Encode_ne_nil hsne
  have hblt : ∀ x ∈ bytes, x < 256 := by rw [hb]; exact utf8Encode_lt s
  have htl : ("vmess://" ++ b64encodeStr bytes).toList =
      'v' :: 'm' :: 'e' :: 's' :: 's' :: ':' :: '/' :: '/' :: b64encode bytes := by
    rw [toList_append]
    rfl
  unfold carriedTag
  rw [htl]
  rw [show startsWithChars "vmess://".toList
      ('v' :: 'm' :: 'e' :: 's' :: 's' :: ':' :: '/' :: '/' :: b64encode bytes) =
      true from startsWithChars_self_append "vmess://".toList (b64encode bytes)]
  rw [if_pos rfl]
  rw [show vmessObj? ("vmess://" ++ b64encodeStr bytes) =
    some (kvStore o "ps" (.str remark)) from ?hobj]
  · show (match kvLookup (kvStore o "ps" (.str remark)) "ps" with
      | some (Json.str s) => some s
      | _ => none) = some remark
    rw [kvLookup_store_self]
  case hobj =>
    unfold vmessObj?
    rw [show payloadOf ("vmess://" ++ b64encodeStr bytes) =
      some (b64encodeStr bytes) from by
      unfold payloadOf
      rw [htl]
      rw [show ('v' :: 'm' :: 'e' :: 's' :: 's' :: ':' :: '/' :: '/' ::
        b64encode bytes : List Char) =
          'v' :: 'm' :: 'e' :: 's' :: 's' :: ':' :: '/' :: '/' ::
            b64encode bytes from rfl]
      rw [splitOnce_vmess]
      rfl]
    dsimp only
    rw [safeB64_roundtrip bytes hbne hblt]
    obtain ⟨b0, btl, hbs⟩ : ∃ b0 btl, bytes = b0 :: btl := by
      cases hbb : bytes with
      | nil => exact absurd hbb hbne
      | cons x xs => exact ⟨x, xs, rfl⟩
    rw [hbs]
    show (match jsonLoads (if utf8DecodeIgnoreStr (b0 :: btl) = "" then "\x7b\x7d"
        else utf8DecodeIgnoreStr (b0 :: btl)) with
      | some (.obj o2) => some o2
      | _ => none) = some (kvStore o "ps" (.str remark))
    rw [← hbs]
    rw [show utf8DecodeIgnoreStr bytes = s from by rw [hb]; exact utf8_round_trip s]
    rw [if_neg hsne]
    rw [show jsonLoads s = some (.obj (kvStore o "ps" (.str remark))) from by
      rw [hs]
      exact jsonLoads_print _ (show wfJsonKVs (kvStore o "ps" (.str remark)) = true
        from kvStore_wf o "ps" (.str remark) hwf rfl)]

theorem formatLoop_cons (geo : String → Option String)
    (hostOf : String → Option String) (counters : List (String × Nat))
    (u : String) (rest : List String) :
    formatLoop geo hostOf counters (u :: rest) =
      setRemark u ("[OpenRay] " ++ countryFlag (ccOf geo hostOf u) ++ " " ++
        ccOf geo hostOf u ++ "-" ++
          (⟨natDecimal ((alookup counters (ccOf geo hostOf u)).getD 0 + 1)⟩ :
            String)) ::
        formatLoop geo hostOf
          (astore counters (ccOf geo hostOf u)
            ((alookup counters (ccOf geo hostOf u)).getD 0 + 1)) rest := rfl

theorem ccOf_facts (geo : String → Option String)
    (hostOf : String → Option String)
    (hgeo : ∀ h s, geo h = some s → s ≠ "" →
      ∃ a b, s.toList = [a, b] ∧ isUpperAZ a = true ∧ isUpperAZ b = true)
    (u : String) :
    ∃ a b, (ccOf geo hostOf u).toList = [a, b] ∧ isUpperAZ a = true ∧
      isUpperAZ b = true := by
  unfold ccOf
  cases hh : hostOf u with
  | none => exact ⟨'X', 'X', rfl, by decide, by decide⟩
  | some h =>
    dsimp only
    cases hg : geo h with
    | none => exact ⟨'X', 'X', rfl, by decide, by decide⟩
    | some c =>
      dsimp only
      by_cases hc : c = ""
      · rw [if_pos hc]
        exact ⟨'X', 'X', rfl, by decide, by decide⟩
      · rw [if_neg hc]
        exact hgeo h c hg hc

theorem vmessObj_of_host {u : String} (h : (hostFromVmess u).isSome = true) :
    ∃ o, vmessObj? u = some o := by
  unfold hostFromVmess at h
  cases ho : vmessObj? u with
  | none =>
    rw [ho] at h
    simp at h
  | some o => exact ⟨o, rfl⟩

/-- Every entry the formatting loop emits carries a matching remark. -/
theorem formatLoop_remarks (geo : String → Option String)
    (hostOf : String → Option String)
    (hgeo : ∀ h s, geo h = some s → s ≠ "" →
      ∃ a b, s.toList = [a, b] ∧ isUpperAZ a = true ∧ isUpperAZ b = true) :
    ∀ (us : List String) (counters : List (String × Nat)),
      (∀ u ∈ us, schemeOf u = "vmess" → (hostFromVmess u).isSome = true) →
      ∀ e ∈ formatLoop geo hostOf counters us, RemarkMatches e := by
  intro us
  induction us with
  | nil =>
    intro counters _ e he
    simp [formatLoop] at he
  | cons u rest ih =>
    intro counters hvm e he
    rw [formatLoop_cons] at he
    rcases List.mem_cons.mp he with rfl | he2
    · obtain ⟨a, b2, hab, ha, hb2⟩ := ccOf_facts geo hostOf hgeo u
      set cc := ccOf geo hostOf u with hcc
      set n := (alookup counters cc).getD 0 + 1 with hn
      set remark := "[OpenRay] " ++ countryFlag cc ++ " " ++ cc ++ "-" ++
        (⟨natDecimal n⟩ : String) with hrm
      obtain ⟨hfne, hfnl⟩ : (countryFlag cc).toList ≠ [] ∧
          ∀ c ∈ (countryFlag cc).toList, c ≠ '\n' := by
        rw [show cc = (⟨[a, b2]⟩ : String) from by rw [← hab]; exact (strEta cc).symm]
        exact countryFlag_facts ha hb2
      have hmatch : matchOpenRayTag remark = some (cc, n) :=
        matchOpenRayTag_build (countryFlag cc) cc n a b2 hab ha hb2 hfne hfnl
      by_cases hsch : schemeOf u = "vmess"
      · obtain ⟨o, ho⟩ := vmessObj_of_host (hvm u (by simp) hsch)
        exact ⟨remark, cc, n, carriedTag_setRemark_vmess u remark o hsch ho, hmatch⟩
      · have hrne : remark ≠ "" := by
          rw [hrm]
          intro he3
          have h3 := congrArg String.toList he3
          simp only [toList_append] at h3
          rw [show ("[OpenRay] " : String).toList =
            '[' :: "OpenRay] ".toList from rfl] at h3
          simp at h3
        exact ⟨remark, cc, n, carriedTag_setRemark_nonvmess u remark hsch hrne, hmatch⟩
    · exact ih (astore counters (ccOf geo hostOf u)
        ((alookup counters (ccOf geo hostOf u)).getD 0 + 1))
        (fun z hz => hvm z (by simp [hz])) e he2

/-- C4.  After the append step of a run (`main.py` 309-333), every entry
of the AvailableLedger carries a remark matching
`^\[OpenRay\] .+ [A-Z]{2}-\d+$`: the old entries by the run invariant,
and every newly formatted entry carries `[OpenRay] <flag> <CC>-<N>` with
`CC` two uppercase letters (the geo oracle's code, or `XX`) and `N` the
per-country counter value seeded from the file contents at append time.
Hypotheses: the geo oracle returns two-letter uppercase codes (or falsy
strings), the existing file satisfies the invariant, and every vmess URI
reaching the append step has an extractable host (the pipeline only
tests URIs whose host extraction succeeded). -/
theorem C4_remark_invariant (geo : String → Option String)
    (hostOf : String → Option String) (fileLines newUnique : List String)
    (hgeo : ∀ h s, geo h = some s → s ≠ "" →
      ∃ a b, s.toList = [a, b] ∧ isUpperAZ a = true ∧ isUpperAZ b = true)
    (hold : ∀ e ∈ fileLines, RemarkMatches e)
    (hvm : ∀ u ∈ newUnique, schemeOf u = "vmess" →
      (hostFromVmess u).isSome = true) :
    ∀ e ∈ appendStep geo hostOf fileLines newUnique, RemarkMatches e := by
  intro e he
  unfold appendStep at he
  rcases List.mem_append.mp he with h1 | h2
  · exact hold e h1
  · exact formatLoop_remarks geo hostOf hgeo newUnique
      (buildCountryCounters fileLines) hvm e h2

/-- C4, witness: the invariant at a concrete append of one trojan URI to
an empty ledger (oracle resolves no country), evaluated at the single
entry produced. -/
theorem C4_witness :
    RemarkMatches ((appendStep (fun _ => none) (fun _ => none) []
      ["trojan://x@y:443"]).headD "") :=
  C4_remark_invariant (fun _ => none) (fun _ => none) [] ["trojan://x@y:443"]
    (fun _ s hs _ => Option.noConfusion hs)
    (fun e he => absurd he (List.not_mem_nil e))
    (fun u hu hsch => by
      rcases List.mem_cons.mp hu with rfl | h0
      · exact absurd hsch (by decide)
      · exact absurd h0 (List.not_mem_nil u))
    _ (by decide)

/-! ### vmess remark setting on undecodable payloads (claim C10) -/

theorem portInRange_range {k n : Nat} (h : portInRange k = some n) :
    1 ≤ n ∧ n ≤ 65535 := by
  unfold portInRange at h
  split at h
  · cases h; omega
  · cases h

theorem urlsplitPort_le {u : String} {n : Nat}
    (h : urlsplitPort u = .ok (some n)) : n ≤ 65535 := by
  unfold urlsplitPort at h
  split at h
  · cases h
  · dsimp only at h
    split at h
    · cases h
    · split at h
      · cases h
      · split at h
        · rename_i v hv
          cases h
          omega
        · cases h

theorem portFromVmess_range {u : String} {n : Nat}
    (h : portFromVmess u = some n) : 1 ≤ n ∧ n ≤ 65535 := by
  unfold portFromVmess at h
  split at h
  · cases h
  · split at h
    · split at h
      · exact portInRange_range h
      · cases h
    · rename_i m hm
      split at h
      · cases h
        omega
      · cases h
    · rename_i b hb
      split at h
      · cases h
        omega
      · cases h
    · cases h

theorem ssColonPort_range {cs : List Char} {n : Nat}
    (h : ssColonPort cs = some n) : 1 ≤ n ∧ n ≤ 65535 := by
  unfold ssColonPort at h
  split at h
  · dsimp only at h
    split at h
    · cases h
    · split at h
      · exact portInRange_range h
      · cases h
  · cases h

theorem portFromSSText_range {cs : List Char} {n : Nat}
    (h : portFromSSText cs = some n) : 1 ≤ n ∧ n ≤ 65535 := by
  unfold portFromSSText at h
  dsimp only at h
  split at h
  · split at h
    · split at h
      · split at h
        · exact portInRange_range h
        · cases h
      · cases h
    · exact ssColonPort_range h
  · exact ssColonPort_range h

theorem portFromSS_range {u : String} {n : Nat}
    (h : portFromSS u = some n) : 1 ≤ n ∧ n ≤ 65535 := by
  unfold portFromSS at h
  split at h
  · cases h
  · dsimp only at h
    split at h
    · split at h
      · cases h
      · exact portFromSSText_range h
    · split at h
      · cases h
      · rename_i m hm
        split at h
        · cases h
          exact ⟨by omega, urlsplitPort_le hm⟩
        · cases h
      · cases h

theorem portFromSSR_range {u : String} {n : Nat}
    (h : portFromSSR u = some n) : 1 ≤ n ∧ n ≤ 65535 := by
  unfold portFromSSR at h
  split at h
  · cases h
  · split at h
    · dsimp only at h
      split at h
      · split at h
        · exact portInRange_range h
        · cases h
      · cases h
    · cases h

theorem portFromGenericQs_range {u : String} {q : List Char} {n : Nat}
    (h : portFromGenericQs u q = some n) : 1 ≤ n ∧ n ≤ 65535 := by
  unfold portFromGenericQs at h
  dsimp only at h
  split at h
  · rename_i r hr
    split at hr
    · cases hr
    · split at hr
      · cases hr
      · split at hr
        · cases hr
          exact portInRange_range h
        · cases hr
  · split at h
    · split at h
      · exact portInRange_range h
      · cases h
    · cases h

theorem portFromGeneric_range {u : String} {n : Nat}
    (h : portFromGeneric u = some n) : 1 ≤ n ∧ n ≤ 65535 := by
  unfold portFromGeneric at h
  split at h
  · cases h
  · split at h
    · rename_i m hm
      split at h
      · cases h
        exact ⟨by omega, urlsplitPort_le hm⟩
      · exact portFromGenericQs_range h
    · exact portFromGenericQs_range h

/-- C8.  For every input string, port extraction returns nothing or an
integer in `1..65535`: every accepting path of `extract_port`'s four
per-scheme parsers either range-checks explicitly or inherits the
`0..65535` bound `urlsplit(...).port` enforces together with Python's
falsiness of a zero port.  In particular a declared port of 0, 65536, a
negative number, or a non-numeric string is never returned. -/
theorem C8_port_range (uri : String) (n : Nat)
    (h : extractPort uri = some n) : 1 ≤ n ∧ n ≤ 65535 := by
  unfold extractPort at h
  split at h
  · exact portFromVmess_range h
  · split at h
    · exact portFromSS_range h
    · split at h
      · exact portFromSSR_range h
      · exact portFromGeneric_range h

/-- C8, witness: a URI whose declared port 443 is extracted, plus the
rejection of declared ports 0 and 65536 at concrete inputs. -/
theorem C8_witness :
    extractPort "vless://u@h:443?security=tls" = some 443 ∧
    (1 ≤ 443 ∧ 443 ≤ 65535) ∧
    extractPort "vless://u@h:0" = none ∧
    extractPort "vless://u@h:65536" = none :=
  ⟨by decide, C8_port_range "vless://u@h:443?security=tls" 443 (by decide),
   by decide, by decide⟩

/-! ### URI extraction (claim C7) -/

theorem dedupGo_congr : ∀ (f1 f2 : Nat) (l : List String),
    l.length ≤ f1 → l.length ≤ f2 → dedupGo f1 l = dedupGo f2 l
  | 0, f2, l, h1, _ => by
    have : l = [] := List.length_eq_zero.mp (Nat.le_zero.mp h1)
    subst this
    cases f2 <;> rfl
  | f1 + 1, f2, [], _, _ => by cases f2 <;> rfl
  | f1 + 1, f2, x :: rest, h1, h2 => by
    match f2, h2 with
    | f2 + 1, h2 =>
      have hf : (rest.filter (· ≠ x)).length ≤ rest.length :=
        List.length_filter_le _ _
      simp only [dedupGo]
      rw [dedupGo_congr f1 f2 (rest.filter (· ≠ x))
        (by simp at h1; omega) (by simp at h2; omega)]

theorem dedupKeepFirst_cons (x : String) (l : List String) :
    dedupKeepFirst (x :: l) = x :: dedupKeepFirst (l.filter (· ≠ x)) := by
  have hf : (l.filter (· ≠ x)).length ≤ l.length := List.length_filter_le _ _
  simp only [dedupKeepFirst, List.length_cons, dedupGo]
  rw [dedupGo_congr l.length (l.filter (· ≠ x)).length (l.filter (· ≠ x)) hf
    le_rfl]

/-- The `found`-set fold of `extract_uris` equals first-seen
deduplication of the not-yet-seen elements. -/
theorem extractFold_eq (l : List String) : ∀ acc : List String,
    l.foldl (fun acc u => if u ∈ acc then acc else acc ++ [u]) acc =
      acc ++ dedupKeepFirst (l.filter fun u => u ∉ acc) := by
  induction l with
  | nil => intro acc; simp [dedupKeepFirst, dedupGo]
  | cons x rest ih =>
    intro acc
    by_cases hx : x ∈ acc
    · simp only [List.foldl_cons, if_pos hx, List.filter_cons]
      have : (decide (x ∉ acc)) = false := by simp [hx]
      rw [this]
      simp only [Bool.false_eq_true, if_false]
      exact ih acc
    · simp only [List.foldl_cons, if_neg hx, List.filter_cons]
      have hdec : (decide (x ∉ acc)) = true := by simp [hx]
      rw [hdec]
      simp only [if_true]
      rw [ih (acc ++ [x]), dedupKeepFirst_cons]
      have hfilter :
          (rest.filter fun u => u ∉ acc).filter (· ≠ x) =
            rest.filter fun u => u ∉ acc ++ [x] := by
        rw [List.filter_filter]
        refine List.filter_congr fun u _ => ?_
        simp [List.mem_append, and_comm, not_or]
      rw [hfilter, List.append_assoc]
      rfl

theorem dedupGo_length : ∀ (fuel : Nat) (l : List String), l.length ≤ fuel →
    (dedupGo fuel l).length = l.toFinset.card
  | 0, l, h => by
    have : l = [] := List.length_eq_zero.mp (Nat.le_zero.mp h)
    subst this; rfl
  | fuel + 1, [], _ => rfl
  | fuel + 1, x :: rest, h => by
    have hf : (rest.filter (· ≠ x)).length ≤ rest.length :=
      List.length_filter_le _ _
    have ih := dedupGo_length fuel (rest.filter (· ≠ x))
      (by simp at h; omega)
    simp only [dedupGo, List.length_cons, ih, List.toFinset_cons]
    have herase : (rest.filter (· ≠ x)).toFinset = rest.toFinset.erase x := by
      ext u
      simp [List.mem_filter, Finset.mem_erase, and_comm]
    rw [herase]
    by_cases hx : x ∈ rest.toFinset
    · rw [Finset.insert_eq_self.mpr hx, Finset.card_erase_of_mem hx]
      have : 0 < rest.toFinset.card := Finset.card_pos.mpr ⟨x, hx⟩
      omega
    · rw [Finset.erase_eq_of_not_mem hx, Finset.card_insert_of_not_mem hx]

theorem dedupKeepFirst_length (l : List String) :
    (dedupKeepFirst l).length = l.toFinset.card :=
  dedupGo_length l.length l le_rfl

/-- C7.  `extract_uris` returns the regex matches with trailing
`)>,;"'\n\r` stripped, deduplicated keeping first occurrences in order;
with `N` the number of URI matches and `M` the number of duplicates among
them (after stripping), it returns exactly `N - M` URIs. -/
theorem C7_extract_uris (t : String) :
    extractUris t = dedupKeepFirst ((regexMatches t).map stripTrailing) ∧
    (extractUris t).length =
      ((regexMatches t).map stripTrailing).length -
        (((regexMatches t).map stripTrailing).length -
          ((regexMatches t).map stripTrailing).toFinset.card) := by
  have hcard :
      ((regexMatches t).map stripTrailing).toFinset.card ≤
        ((regexMatches t).map stripTrailing).length :=
    (List.toFinset_card_le _)
  have hmain : extractUris t = dedupKeepFirst ((regexMatches t).map stripTrailing) := by
    by_cases ht : t = ""
    · subst ht; rfl
    · rw [extractUris, if_neg ht, extractFold_eq]
      have : ((regexMatches t).map stripTrailing).filter
          (fun u => u ∉ ([] : List String)) =
          (regexMatches t).map stripTrailing := by
        apply List.filter_eq_self.mpr
        intro a _
        simp
      rw [this, List.nil_append]
  refine ⟨hmain, ?_⟩
  rw [hmain, dedupKeepFirst_length]
  omega

example : extractUris "see vmess://abc, and vmess://abc; also SS://x)" =
    ["vmess://abc", "SS://x"] := by decide

example : extractUris "xss://a hy2://h:443" = ["hy2://h:443"] := by decide

example : extractUris "hysteria2://h and ssr://Zm9v" =
    ["hysteria2://h", "ssr://Zm9v"] := by decide

example : extractUris "" = [] := by decide

/-- C6, failing input: any invocation of the coordinator (or any import of
`src.grouping`).  `grouping.py` imports the misspelled name
`COUNTERY_DIR` from `constants.py`, which binds only `COUNTRY_DIR`
(`constants.py:19`), so the import raises `ImportError` and the
grouped-output step can never write `output/kind/<scheme>.txt` or
`output/country/<CC>.txt`, nor remove stale files. -/
theorem C6_countery_dir_unbound :
    "COUNTERY_DIR" ∈ groupingImportsFromConstants ∧
    "COUNTERY_DIR" ∉ constantsModuleNames ∧
    "COUNTRY_DIR" ∈ constantsModuleNames := by
  decide

/-! ### Base64 round trip (claim C9) -/

/-- C9, amended.  For every **nonempty** byte payload `x`, the lenient
base64 decoder (whitespace stripped, URL-safe characters mapped, padding
inferred) applied to the standard base64 encoding of `x` returns exactly
`x`. -/
theorem C9_decode_encode (x : List Nat) (hne : x ≠ []) (hx : ∀ b ∈ x, b < 256) :
    safeB64DecodeToBytes (b64encodeStr x) = some x :=
  safeB64_roundtrip x hne hx

/-- C9, witness: the amended round trip at the payload `b"hi"`. -/
theorem C9_witness :
    ([104, 105] ≠ ([] : List Nat) ∧ ∀ b ∈ [104, 105], b < 256) ∧
      safeB64DecodeToBytes (b64encodeStr [104, 105]) = some [104, 105] :=
  ⟨⟨by decide, by decide⟩, C9_decode_encode [104, 105] (by decide) (by decide)⟩

end OpenRay
